import Mathlib

/-!
# The lejo cipher (`cipher.c`): a shallow embedding and its verified properties

The program reads records `action m , c , data` from the standard input, derives a
linear congruential generator from `(m, c)`, and for every four-byte block of the data
builds a permutation of 28 bit positions with which the block is encrypted or decrypted.

Conventions of the embedding.

* `unsigned long long` values are naturals, reduced with `u64` wherever the C arithmetic
  can leave the 64-bit range.
* `int` values are integers; the one place where an `int` computation can leave the 32-bit
  range (`divisor += 2` in `calculatePrimeFactors`) is reduced with `wrapInt`, the
  two's complement behaviour of the usual compilers.  Every theorem that is stated for
  numbers whose largest prime factor is below `2^31` never reaches that reduction.
* A `char` is kept as its bit pattern, a natural below 256; `schar` gives its value as a
  signed char.  The program compares `char` variables with `EOF`, which only works where
  `char` is signed, so signed `char` is the reading taken.
* The standard input is the list of bytes still to be read; the standard output is the list
  of bytes written.
* Loops are structural recursions on a fuel argument.  For the two inner loops of `buildMap`
  the fuel is the number of cells of `assigned`, so that running out of fuel is running off
  the array; for the trial division it is `number + 2^32`, which
  `calculatePrimeFactors.loop_total` shows to be enough for every 64-bit number; for the
  block loop of `main` it is the length of the input plus one, each pass that stays in the
  loop having read four bytes.  A result `none` stands for a run that leaves the defined
  behaviour of the program (a division by zero, an access outside an array).
-/

namespace Cipher

/-! ## Constants and machine arithmetic -/

/-- Status value `CLEAR`. -/
def CLEAR : Nat := 0
/-- Status value `OK`. -/
def OK : Nat := 1
/-- Status value `END_OF_LINE`. -/
def END_OF_LINE : Nat := 2
/-- Status value `END_OF_FILE`. -/
def END_OF_FILE : Nat := 4
/-- Status value `ERROR`. -/
def ERROR : Nat := 8

/-- Number of bit positions in a block: `#define MAP_LENGTH 28`. -/
def MAP_LENGTH : Nat := 28

/-- Reduction of an arithmetic result to `unsigned long long`. -/
def u64 (n : Nat) : Nat := n % 2 ^ 64

/-- Reduction of an arithmetic result to a 32-bit two's complement `int`. -/
def wrapInt (x : Int) : Int := (x + 2 ^ 31) % 2 ^ 32 - 2 ^ 31

/-- Conversion of an `int` to `unsigned long long` (the usual arithmetic conversions). -/
def intToU64 (d : Int) : Nat := (d % 2 ^ 64).toNat

/-! ## Key schedule: `calculatePrimeFactors` and `buildLCG` -/

/-- The globals `lcg_c`, `lcg_m`, `lcg_a`, `lcg_x` of the linear congruential generator. -/
structure LCG where
  lcg_c : Nat
  lcg_m : Nat
  lcg_a : Nat
  lcg_x : Nat
deriving DecidableEq, Repr

/-- The loop `while (number > divisor)` of `calculatePrimeFactors`.  `number` is the
`unsigned long long` parameter, `divisor` the `int` local, `recorded` the entries
`factors[0..i)` written so far.  On exit the pending `factors[i++] = divisor` is done. -/
def calculatePrimeFactors.loop : Nat → Nat → Int → List Int → Option (List Int)
  | 0, _, _, _ => none
  | fuel + 1, number, divisor, recorded =>
    if number > intToU64 divisor then
      if number % intToU64 divisor = 0 then
        calculatePrimeFactors.loop fuel (number / intToU64 divisor) divisor
          (recorded ++ [divisor])
      else
        calculatePrimeFactors.loop fuel number
          (if divisor = 2 then 3 else wrapInt (divisor + 2)) recorded
    else some (recorded ++ [divisor])

/-- Function `calculatePrimeFactors(number)`: the contents of the global `int factors[100]`
when it returns.  The array is cleared first; for `number < 2` nothing is recorded.  The
result is `none` when the loop would not stop within its fuel or would write past the
100 cells; `calculatePrimeFactors_total` shows that neither happens. -/
def calculatePrimeFactors (number : Nat) : Option (List Int) :=
  if number < 2 then some (List.replicate 100 0)
  else
    match calculatePrimeFactors.loop (number + 2 ^ 32) number 2 [] with
    | none => none
    | some recorded =>
      if recorded.length ≤ 100 then
        some (recorded ++ List.replicate (100 - recorded.length) 0)
      else none

/-- The first loop of `buildLCG` after the factorisation: `max` counts the entries of
`factors` before the first zero. -/
def buildLCG.countFactors (factors : List Int) : Nat :=
  (factors.takeWhile (fun f => f != 0)).length

/-- One pass of the loop `for (i = 0; i < max; i++)` of `buildLCG`, on the pair
`(last, p)`: a factor different from `last` becomes `last` and is multiplied into `p`. -/
def buildLCG.productStep (factors : List Int) (s : Nat × Nat) (i : Nat) : Nat × Nat :=
  if s.1 ≠ intToU64 (factors.getD i 0) then
    (intToU64 (factors.getD i 0), u64 (s.2 * intToU64 (factors.getD i 0)))
  else s

/-- The value of `p` after the loop `for (i = 0; i < max; i++)` of `buildLCG`. -/
def buildLCG.product (factors : List Int) : Nat :=
  ((List.range (buildLCG.countFactors factors)).foldl
    (buildLCG.productStep factors) (1, 1)).2

/-- The multiplier that `buildLCG` stores in `lcg_a` for the product `p`. -/
def buildLCG.multiplier (m p : Nat) : Nat :=
  if m % 4 = 0 then u64 (1 + 2 * p) else u64 (1 + p)

/-- Function `buildLCG()`, on the globals `st` it starts from.  `m` and `c` are the values
that the two calls of `readNumber(',')` return; the second call is only made when
`m > 0`.  The result is the returned status and the globals on return. -/
def buildLCG (st : LCG) (m c : Nat) : Option (Nat × LCG) :=
  if m ≤ 0 then some (ERROR, { st with lcg_m := m })
  else if c ≤ 0 then some (ERROR, { st with lcg_m := m, lcg_c := c })
  else
    match calculatePrimeFactors m with
    | none => none
    | some factors =>
      let a := buildLCG.multiplier m (buildLCG.product factors)
      if a > m then some (ERROR, { lcg_c := c, lcg_m := m, lcg_a := a, lcg_x := st.lcg_x })
      else some (OK, { lcg_c := c, lcg_m := m, lcg_a := a, lcg_x := c })

/-! ## Characters, the input stream and the output stream -/

/-- Value of a `char` with bit pattern `b`, read as a signed char. -/
def schar (b : Nat) : Int := if b < 128 then (b : Int) else (b : Int) - 256

/-- Conversion of an `int` value to `char`: the bit pattern of the low eight bits. -/
def toChar (x : Int) : Nat := (x % 256).toNat

/-- Library function `getchar()`: the next byte of the input as an `int`, or `EOF = -1`
when the input is exhausted, and the input that is left. -/
def getchar (input : List Nat) : Int × List Nat :=
  match input with
  | [] => (-1, [])
  | b :: rest => ((b : Int), rest)

/-- Library function `isascii(c)`: `c` has no bit set outside the low seven. -/
def isascii (c : Int) : Bool := decide (0 ≤ c ∧ c ≤ 127)

/-- What `printf("%s", s)` writes: the bytes of `s` before the first NUL. -/
def printString (s : List Nat) : List Nat := s.takeWhile (fun b => b != 0)

/-! ## Building the permutation: `buildMap` -/

/-- One pass of the loop "Compute g(i)" of `buildMap`, on the pair of the values
`g[0..i)` drawn so far and the generator: `g[i] = lcg_x % (MAP_LENGTH - i)` and then
`lcg_x = ((lcg_a * lcg_x) + lcg_c) % lcg_m` in `unsigned long long` arithmetic. -/
def buildMap.draw (s : List Nat × LCG) (i : Nat) : List Nat × LCG :=
  (s.1 ++ [s.2.lcg_x % (MAP_LENGTH - i)],
   { s.2 with lcg_x := u64 (u64 (s.2.lcg_a * s.2.lcg_x) + s.2.lcg_c) % s.2.lcg_m })

/-- The loop "Compute g(i)" of `buildMap`: the array `g` and the generator afterwards. -/
def buildMap.computeG (st : LCG) : List Nat × LCG :=
  (List.range MAP_LENGTH).foldl buildMap.draw ([], st)

/-- The loop `while (unassigned != active_index) { if (!assigned[index++]) unassigned++; }`
of `buildMap`: the value of `index` when it stops.  The fuel is the number of cells of
`assigned` that may still be read. -/
def buildMap.skip (assigned : List Nat) (active_index : Nat) : Nat → Nat → Nat → Option Nat
  | 0, index, unassigned => if unassigned = active_index then some index else none
  | fuel + 1, index, unassigned =>
    if unassigned = active_index then some index
    else
      match assigned[index]? with
      | none => none
      | some v =>
        buildMap.skip assigned active_index fuel (index + 1)
          (if v = 0 then unassigned + 1 else unassigned)

/-- The loop `while (!placed)` of `buildMap`: the first index at or after `index` whose
cell of `assigned` is zero. -/
def buildMap.findFree (assigned : List Nat) : Nat → Nat → Option Nat
  | 0, _ => none
  | fuel + 1, index =>
    match assigned[index]? with
    | none => none
    | some v => if v = 0 then some index else buildMap.findFree assigned fuel (index + 1)

/-- One pass of the loop "Compute f(i)" of `buildMap`, on the pair `(builtMap, assigned)`.
The array `assigned_index` is written but never read and is left out. -/
def buildMap.place (g : List Nat) (s : List Nat × List Nat) (i : Nat) :
    Option (List Nat × List Nat) :=
  match buildMap.skip s.2 (g.getD i 0) MAP_LENGTH 0 0 with
  | none => none
  | some index =>
    match buildMap.findFree s.2 MAP_LENGTH index with
    | none => none
    | some index => some (s.1.set i index, s.2.set index 1)

/-- The loop "Compute f(i)" of `buildMap`, from the cleared arrays. -/
def buildMap.placeAll (g : List Nat) : Option (List Nat × List Nat) :=
  (List.range MAP_LENGTH).foldlM (buildMap.place g)
    (List.replicate MAP_LENGTH 0, List.replicate MAP_LENGTH 0)

/-- Function `buildMap()`: the array `builtMap` it leaves and the generator afterwards.
The result is `none` when `lcg_m` is zero (a division by zero) or when a loop would leave
the array `assigned`. -/
def buildMap (st : LCG) : Option (List Nat × LCG) :=
  if st.lcg_m = 0 then none
  else
    match buildMap.placeAll (buildMap.computeG st).1 with
    | none => none
    | some s => some (s.1, (buildMap.computeG st).2)

/-! ## Bits -/

/-- Function `isBitSet(c, n)` on the bit pattern of `c`, for the bit numbers `n < 8` that
the program uses. -/
def isBitSet (c : Nat) (n : Nat) : Bool := (c &&& (1 <<< n)) != 0

/-- Function `setBit(&c, n)`: the new bit pattern of `c`. -/
def setBit (c : Nat) (n : Nat) : Nat := (c ||| (1 <<< n)) % 256

/-- Bit `n` of a block, addressed as the program does: bit `n % 7` of byte `n / 7`. -/
def bitAt (block : List Nat) (n : Nat) : Bool := isBitSet (block.getD (n / 7) 0) (n % 7)

/-- The call `setBit(&block[n / 7], n % 7)` of the bit loops. -/
def setBitAt (block : List Nat) (n : Nat) : List Nat :=
  block.set (n / 7) (setBit (block.getD (n / 7) 0) (n % 7))

/-- The loop that sets `empty_data_flag` in `encryptText` and `decryptText`: the flag stays
set when the four data bytes are all zero. -/
def emptyData (data : List Nat) : Bool :=
  (List.range 4).all (fun i => data.getD i 0 == 0)

/-! ## Encryption of a block: `encryptText` -/

/-- One pass of the bit loop of `encryptText`: when bit `i` of the data is set, bit
`builtMap[i]` of `encrypted` is set. -/
def encryptText.permuteStep (builtMap data encrypted : List Nat) (i : Nat) : List Nat :=
  if isBitSet (data.getD (i / 7) 0) (i % 7) then
    encrypted.set (builtMap.getD i 0 / 7)
      (setBit (encrypted.getD (builtMap.getD i 0 / 7) 0) (builtMap.getD i 0 % 7))
  else encrypted

/-- The bit loop of `encryptText`, from the cleared five bytes of `encrypted`. -/
def encryptText.permute (builtMap data : List Nat) : List Nat :=
  (List.range 28).foldl (encryptText.permuteStep builtMap data) (List.replicate 5 0)

/-- The bytes that one pass of the formatting loop of `encryptText` appends to
`encrypted_formatted` for the byte `v = encrypted[i]`. -/
def encryptText.formatByte (v : Nat) : List Nat :=
  if schar v < 32 then [43, toChar (64 + schar v)]
  else if schar v = 127 then [43, 38]
  else if schar v = 43 then [43, 43]
  else [v]

/-- The formatting loop of `encryptText`: the bytes `encrypted_formatted[0..counter)`. -/
def encryptText.format (encrypted : List Nat) : List Nat :=
  (List.range 4).foldl (fun out i => out ++ encryptText.formatByte (encrypted.getD i 0)) []

/-- Function `encryptText(data)` with the global `builtMap`: the returned status and the
bytes written to the standard output.  `encrypted_formatted` has nine cleared bytes. -/
def encryptText (builtMap data : List Nat) : Nat × List Nat :=
  if emptyData data then (OK, [])
  else
    (OK, printString (encryptText.format (encryptText.permute builtMap data)
      ++ List.replicate (9 - (encryptText.format (encryptText.permute builtMap data)).length) 0))

/-! ## Decryption of a block: `decryptText` -/

/-- The three-way choice of `decryptText` on the byte `c` that follows a `'+'`. -/
def decryptText.unescape (c : Nat) : Nat :=
  if c = 43 then 43 else if c = 38 then 127 else toChar (schar c - 64)

/-- The loop `for (j = i + 1; j < 4; j++) data[j] = data[j + 1];` of `decryptText`. -/
def decryptText.shift (data : List Nat) (i : Nat) : List Nat :=
  (List.range' (i + 1) (3 - i)).foldl (fun d j => d.set j (d.getD (j + 1) 0)) data

/-- One pass of the un-escape loop of `decryptText`, on the triple of `data`, `decrypted`
and the input still to be read. -/
def decryptText.unescapeStep (s : List Nat × List Nat × List Nat) (i : Nat) :
    List Nat × List Nat × List Nat :=
  if s.1.getD i 0 = 43 then
    if i < 3 then
      ((decryptText.shift s.1 i).set 3 (toChar (getchar s.2.2).1),
        s.2.1.set i (decryptText.unescape (s.1.getD (i + 1) 0)),
        (getchar s.2.2).2)
    else
      (s.1, s.2.1.set i (decryptText.unescape (toChar (getchar s.2.2).1)), (getchar s.2.2).2)
  else (s.1, s.2.1.set i (s.1.getD i 0), s.2.2)

/-- The un-escape loop of `decryptText`, from the cleared bytes of `decrypted`. -/
def decryptText.unescapeAll (data input : List Nat) : List Nat × List Nat × List Nat :=
  (List.range 4).foldl decryptText.unescapeStep (data, List.replicate 5 0, input)

/-- The byte that the un-escape loop of `decryptText` stores in `decrypted[0]` when the
escaped form `e` opens the block and the bytes after it are `'A'`. -/
def decryptText.decodeFirst (e : List Nat) : Nat :=
  (decryptText.unescapeAll ((e ++ [65, 65, 65]).take 4 ++ [0])
    ((e ++ [65, 65, 65]).drop 4)).2.1.getD 0 0

/-- The byte that the un-escape loop of `decryptText` stores in `decrypted[3]` when the
escaped form `e` starts at the last byte of the block, after three bytes `'A'`, and its
second byte, if any, is the next byte of the input. -/
def decryptText.decodeLast (e : List Nat) : Nat :=
  (decryptText.unescapeAll ([65, 65, 65] ++ e.take 1 ++ [0]) (e.drop 1)).2.1.getD 3 0

/-- One pass of the bit loop of `decryptText`: when bit `builtMap[i]` of `decrypted` is set,
bit `i` of `decrypted_formatted` is set. -/
def decryptText.permuteStep (builtMap decrypted formatted : List Nat) (i : Nat) : List Nat :=
  if isBitSet (decrypted.getD (builtMap.getD i 0 / 7) 0) (builtMap.getD i 0 % 7) then
    formatted.set (i / 7) (setBit (formatted.getD (i / 7) 0) (i % 7))
  else formatted

/-- The bit loop of `decryptText`, from the cleared five bytes of `decrypted_formatted`. -/
def decryptText.permute (builtMap decrypted : List Nat) : List Nat :=
  (List.range 28).foldl (decryptText.permuteStep builtMap decrypted) (List.replicate 5 0)

/-- The validation loop of `decryptText`: some byte of `decrypted_formatted` is in
`[1, 31]` or is 127. -/
def decryptText.outOfRange (formatted : List Nat) : Bool :=
  (List.range 4).any (fun i =>
    decide ((0 < schar (formatted.getD i 0) ∧ schar (formatted.getD i 0) < 32)
      ∨ schar (formatted.getD i 0) = 127))

/-- Function `decryptText(data)` with the global `builtMap`: the returned status, the bytes
written to the standard output and the input that is left. -/
def decryptText (builtMap data input : List Nat) : Nat × List Nat × List Nat :=
  if emptyData data then (OK, [], input)
  else if decryptText.outOfRange
      (decryptText.permute builtMap (decryptText.unescapeAll data input).2.1) then
    (ERROR, [], (decryptText.unescapeAll data input).2.2)
  else
    (OK, printString (decryptText.permute builtMap (decryptText.unescapeAll data input).2.1),
      (decryptText.unescapeAll data input).2.2)

/-! ## Reading a block and the block loop of `main` -/

/-- The loop of `readDataBlock` over the positions still to fill. -/
def readDataBlock.loop : List Nat → List Nat → List Nat → Nat × List Nat × List Nat
  | [], data, input => (OK, data, input)
  | i :: is, data, input =>
    if toChar (getchar input).1 = 10 then (END_OF_LINE, data, (getchar input).2)
    else if schar (toChar (getchar input).1) = -1 then (END_OF_FILE, data, (getchar input).2)
    else if !isascii (schar (toChar (getchar input).1)) then (ERROR, data, (getchar input).2)
    else readDataBlock.loop is (data.set i (toChar (getchar input).1)) (getchar input).2

/-- Function `readDataBlock(data)`: the returned status, the five bytes of `data` and the
input that is left. -/
def readDataBlock (input : List Nat) : Nat × List Nat × List Nat :=
  readDataBlock.loop (List.range 4) (List.replicate 5 0) input

/-- The body of `while (status == OK)` in `main` after `buildMap()`: `readDataBlock` and,
unless it failed, `encryptText` (`cipher_mode == 0`) or `decryptText`.  The result is the
new status, the bytes written and the input that is left. -/
def main.block (cipher_mode : Nat) (builtMap input : List Nat) : Nat × List Nat × List Nat :=
  if (readDataBlock input).1 &&& ERROR = 0 then
    if cipher_mode = 0 then
      ((readDataBlock input).1 ||| (encryptText builtMap (readDataBlock input).2.1).1,
        (encryptText builtMap (readDataBlock input).2.1).2, (readDataBlock input).2.2)
    else
      ((readDataBlock input).1
          ||| (decryptText builtMap (readDataBlock input).2.1 (readDataBlock input).2.2).1,
        (decryptText builtMap (readDataBlock input).2.1 (readDataBlock input).2.2).2.1,
        (decryptText builtMap (readDataBlock input).2.1 (readDataBlock input).2.2).2.2)
  else ((readDataBlock input).1, [], (readDataBlock input).2.2)

/-- The loop `while (status == OK)` of `main`, entered with `status == OK`: the status on
exit, the generator, the input that is left and everything written.  Each pass that stays
in the loop has read four bytes, so the fuel is bounded by the length of the input. -/
def main.blockLoop (cipher_mode : Nat) :
    Nat → LCG → List Nat → List Nat → Option (Nat × LCG × List Nat × List Nat)
  | 0, _, _, _ => none
  | fuel + 1, st, input, output =>
    match buildMap st with
    | none => none
    | some (builtMap, st) =>
      if (main.block cipher_mode builtMap input).1 = OK then
        main.blockLoop cipher_mode fuel st (main.block cipher_mode builtMap input).2.2
          (output ++ (main.block cipher_mode builtMap input).2.1)
      else
        some ((main.block cipher_mode builtMap input).1, st,
          (main.block cipher_mode builtMap input).2.2,
          output ++ (main.block cipher_mode builtMap input).2.1)

/-- The loop `while (status == OK)` of `main` on the data of a record. -/
def main.blocks (cipher_mode : Nat) (st : LCG) (input : List Nat) :
    Option (Nat × LCG × List Nat × List Nat) :=
  main.blockLoop cipher_mode (input.length + 1) st input []

/-- The state of the placement loop after `i` passes: `i` cells are marked, the first `i`
entries of `builtMap` are distinct and are marked cells. -/
structure buildMap.Placed (i : Nat) (s : List Nat × List Nat) : Prop where
  lenMap : s.1.length = MAP_LENGTH
  lenAssigned : s.2.length = MAP_LENGTH
  free : s.2.count 0 + i = MAP_LENGTH
  nodup : (s.1.take i).Nodup
  marked : ∀ v ∈ s.1.take i, s.2[v]? = some 1

/-! ## Reading the key and the driver: `readNumber`, `readCipherMode`, `skipToEndOfLine`, `main` -/

/-- Library function `isdigit(c)`. -/
def isdigit (c : Int) : Bool := decide (48 ≤ c ∧ c ≤ 57)

/-- Library function `strtoull(digits, NULL, 0)` on the strings that `readNumber` passes:
decimal digits that do not start with `'0'`, possibly none.  The result is the decimal
value, `ULLONG_MAX` when the value does not fit, and 0 for the empty string. -/
def strtoull (digits : List Nat) : Nat :=
  min (digits.foldl (fun v d => 10 * v + (d - 48)) 0) (2 ^ 64 - 1)

/-- The loop `while ((active_char = getchar()) != delimiter)` of `readNumber` and the
`return strtoull(digits, NULL, 0)` that follows it, on the input still to be read, the
counter `i`, the flag `in_number` and the characters `digits[0..i)` stored so far.  The
array `digits` is not initialised by the program (its `memset` clears `strlen(digits)`
bytes of whatever the array holds); it is taken to hold zeros, so that the characters
stored are followed by a NUL.  At the end of the input `getchar()` returns `EOF`. -/
def readNumber.loop (delimiter : Nat) : List Nat → Nat → Bool → List Nat → Nat × List Nat
  | [], _, _, digits =>
    if toChar (-1) = delimiter then (strtoull digits, []) else (0, [])
  | b :: rest, i, in_number, digits =>
    if toChar (b : Int) = delimiter then (strtoull digits, rest)
    else if i = 20 then (0, rest)
    else if isdigit (schar (toChar (b : Int))) then
      if toChar (b : Int) = 48 ∧ in_number = false then
        readNumber.loop delimiter rest i in_number digits
      else if toChar (b : Int) ≠ 48 ∨ in_number = true then
        readNumber.loop delimiter rest (i + 1) true (digits ++ [toChar (b : Int)])
      else readNumber.loop delimiter rest i in_number digits
    else (0, rest)

/-- Function `readNumber(delimiter)`: the returned number and the input that is left. -/
def readNumber (delimiter : Nat) (input : List Nat) : Nat × List Nat :=
  readNumber.loop delimiter input 0 false []

/-- Function `readCipherMode()`: the returned status, the global `cipher_mode` afterwards and
the input that is left. -/
def readCipherMode (cipher_mode : Nat) (input : List Nat) : Nat × Nat × List Nat :=
  if toChar (getchar input).1 = 101 then (OK, 0, (getchar input).2)
  else if toChar (getchar input).1 = 100 then (OK, 1, (getchar input).2)
  else if toChar (getchar input).1 = 10 then (END_OF_LINE, cipher_mode, (getchar input).2)
  else if schar (toChar (getchar input).1) = -1 then
    (END_OF_FILE, cipher_mode, (getchar input).2)
  else (ERROR, cipher_mode, (getchar input).2)

/-- Function `skipToEndOfLine()`: the value it leaves in the global `status` and the input
that is left. -/
def skipToEndOfLine : List Nat → Nat × List Nat
  | [] => (END_OF_FILE, [])
  | b :: rest =>
    if toChar (b : Int) = 10 then (END_OF_LINE, rest)
    else if schar (toChar (b : Int)) = -1 then (END_OF_FILE, rest)
    else skipToEndOfLine rest

/-- Function `buildLCG()` reading its two numbers from the input: the result of `buildLCG`
and the input that is left.  The second number is only read when the first is not zero. -/
def buildLCG.fromInput (st : LCG) (input : List Nat) : Option (Nat × LCG) × List Nat :=
  if (readNumber 44 input).1 ≤ 0 then
    (buildLCG st (readNumber 44 input).1 0, (readNumber 44 input).2)
  else
    (buildLCG st (readNumber 44 input).1 (readNumber 44 (readNumber 44 input).2).1,
      (readNumber 44 (readNumber 44 input).2).2)

/-- What `printf("%5d) ", input_line_number)` writes. -/
def printLineNumber (n : Nat) : List Nat :=
  List.replicate (5 - (Nat.toDigits 10 n).length) 32
    ++ (Nat.toDigits 10 n).map Char.toNat ++ [41, 32]

/-- The variables of `main` and the globals between two passes of its outer loop, with the
input still to be read and the output written so far. -/
structure MainState where
  input_line_number : Nat
  status : Nat
  cipher_mode : Nat
  key : LCG
  input : List Nat
  output : List Nat
deriving DecidableEq, Repr

/-- The end of a pass of the outer loop of `main`: `puts("Error")` and `skipToEndOfLine()`
when the status has the `ERROR` flag, `puts("")` otherwise. -/
def main.finish (s : MainState) : MainState :=
  if s.status &&& ERROR ≠ 0 then
    { s with status := (skipToEndOfLine s.input).1, input := (skipToEndOfLine s.input).2,
             output := s.output ++ [69, 114, 114, 111, 114, 10] }
  else { s with output := s.output ++ [10] }

/-- One pass of the loop `while (status != END_OF_FILE)` of `main`: a record is read and
answered. -/
def main.record (s : MainState) : Option MainState :=
  let mode := readCipherMode s.cipher_mode s.input
  let number := s.input_line_number + 1
  let output := if mode.1 &&& END_OF_FILE = 0 then s.output ++ printLineNumber number
    else s.output
  if mode.1 = OK then
    match buildLCG.fromInput s.key mode.2.2 with
    | (none, _) => none
    | (some (status, key), input) =>
      if status = OK then
        match main.blocks mode.2.1 key input with
        | none => none
        | some (status, key, input, out) =>
          some (main.finish ⟨number, status, mode.2.1, key, input, output ++ out⟩)
      else some (main.finish ⟨number, status, mode.2.1, key, input, output⟩)
  else some (main.finish ⟨number, mode.1, mode.2.1, s.key, mode.2.2, output⟩)

/-- The loop `while (status != END_OF_FILE)` of `main`: everything written when it ends.
Every pass but the last reads at least one byte. -/
def main.loop : Nat → MainState → Option (List Nat)
  | 0, _ => none
  | fuel + 1, s =>
    match main.record s with
    | none => none
    | some s => if s.status ≠ END_OF_FILE then main.loop fuel s else some s.output

/-- Function `main()` on the standard input `input`: the standard output.  The globals start
as zeros. -/
def main (input : List Nat) : Option (List Nat) :=
  main.loop (input.length + 1) ⟨0, CLEAR, 0, ⟨0, 0, 0, 0⟩, input, []⟩

/-! ## The passes of the trial division -/

/-- One pass of the body of the loop `while (number > divisor)` of `calculatePrimeFactors`,
on the triple of `number`, `divisor` and the entries `factors[0..i)` written so far. -/
def calculatePrimeFactors.body (s : Nat × Int × List Int) : Nat × Int × List Int :=
  if s.1 % intToU64 s.2.1 = 0 then (s.1 / intToU64 s.2.1, s.2.1, s.2.2 ++ [s.2.1])
  else (s.1, if s.2.1 = 2 then 3 else wrapInt (s.2.1 + 2), s.2.2)

/-- The triple of `number`, `divisor` and recorded entries after `k` passes of the loop of
`calculatePrimeFactors(number)`, which starts with `divisor = 2` and nothing recorded. -/
def calculatePrimeFactors.pass (number k : Nat) : Nat × Int × List Int :=
  Nat.iterate calculatePrimeFactors.body k (number, 2, [])

/-! ## Definitions that follow the words of the specification -/

/-- The step of the generator as the specification words it: `(a * x + c) mod m`, the sum
computed in unsigned 64-bit arithmetic. -/
def lcgStep (st : LCG) (x : Nat) : Nat := ((st.lcg_a * x + st.lcg_c) % 2 ^ 64) % st.lcg_m

/-- The sequence `x_0, x_1, ...` of the specification: `x_0` is the entry value of `lcg_x`
and `x_(i+1)` is the step of `x_i`. -/
def lcgValue (st : LCG) : Nat → Nat
  | 0 => st.lcg_x
  | i + 1 => lcgStep st (lcgValue st i)

/-- The element of rank `r`, counted from 0 in increasing order, among the slots
`0 .. MAP_LENGTH - 1` that are not in `used`. -/
def rankedFree (used : List Nat) (r : Nat) : Nat :=
  ((List.range MAP_LENGTH).filter (fun v => decide (v ∉ used))).getD r 0

/-- The call number `k` (counted from 0) of `buildMap()` in the block loop of `main`, the
generator being `st` before call 0: the permutation it builds and the generator after it. -/
def main.nthMap (st : LCG) : Nat → Option (List Nat × LCG)
  | 0 => buildMap st
  | k + 1 =>
    match buildMap st with
    | none => none
    | some r => main.nthMap r.2 k

/-- The multiplier of a key as the specification words it: `a = 1 + 2P` if `m mod 4 == 0`,
else `a = 1 + P`, where `P` is the product of the distinct prime factors of `m`.  The value
is the natural number, not reduced to 64 bits. -/
def keyMultiplier (m : Nat) : Nat :=
  if m % 4 = 0 then 1 + 2 * m.primeFactors.prod id else 1 + m.primeFactors.prod id

/-! # Theorems -/

/-! ## Trial division -/

theorem intToU64_natCast (d : Nat) (h : d < 2 ^ 64) : intToU64 (d : Int) = d := by
  unfold intToU64
  omega

theorem wrapInt_natCast (d : Nat) (h : d < 2 ^ 31) : wrapInt (d : Int) = (d : Int) := by
  unfold wrapInt
  omega

/-- Trial division from a divisor below every prime factor of `number` records exactly the
prime factorisation of `number`, provided no prime factor reaches `2^31`. -/
theorem calculatePrimeFactors.loop_spec : ∀ (fuel number d : Nat) (recorded : List Int),
    2 ≤ number → 2 ≤ d → (d = 2 ∨ d % 2 = 1) →
    (∀ q, q.Prime → q ∣ number → d ≤ q) →
    (∀ q ∈ number.primeFactorsList, q < 2 ^ 31) →
    number + (2 ^ 31 - d) < fuel →
    calculatePrimeFactors.loop fuel number (d : Int) recorded
      = some (recorded ++ number.primeFactorsList.map Int.ofNat) := by
  intro fuel
  induction fuel with
  | zero => intro number d recorded _ _ _ _ _ h; omega
  | succ fuel ih =>
    intro number d recorded hn hd hpar hmin hbig hfuel
    have hmf : (Nat.minFac number).Prime := Nat.minFac_prime (by omega)
    have hmfd : Nat.minFac number ∣ number := Nat.minFac_dvd number
    have hdle : d ≤ Nat.minFac number := hmin _ hmf hmfd
    have hmfbig : Nat.minFac number < 2 ^ 31 :=
      hbig _ ((Nat.mem_primeFactorsList (by omega)).2 ⟨hmf, hmfd⟩)
    have hmfle : Nat.minFac number ≤ number := Nat.minFac_le (by omega)
    have hcast : intToU64 (d : Int) = d := intToU64_natCast d (by omega)
    have hfl : number.primeFactorsList
        = Nat.minFac number :: (number / Nat.minFac number).primeFactorsList := by
      obtain ⟨k, rfl⟩ : ∃ k, number = k + 2 := ⟨number - 2, by omega⟩
      exact Nat.primeFactorsList_add_two k
    unfold calculatePrimeFactors.loop
    rw [hcast]
    by_cases hgt : number > d
    · rw [if_pos hgt]
      by_cases hdiv : number % d = 0
      · rw [if_pos hdiv]
        have hdvd : d ∣ number := Nat.dvd_of_mod_eq_zero hdiv
        have hdeq : d = Nat.minFac number :=
          le_antisymm hdle (Nat.minFac_le_of_dvd hd hdvd)
        have hq2 : 2 ≤ number / d := by
          obtain ⟨k, hk⟩ := hdvd
          have hdpos : 0 < d := by omega
          rw [hk, Nat.mul_div_cancel_left _ hdpos]
          by_contra hlt
          have : k ≤ 1 := by omega
          have : d * k ≤ d * 1 := Nat.mul_le_mul_left d this
          omega
        have hqdvd : number / d ∣ number := Nat.div_dvd_of_dvd hdvd
        have hlt : number / d < number := Nat.div_lt_self (by omega) (by omega)
        rw [ih (number / d) d (recorded ++ [(d : Int)]) hq2 hd hpar
          (fun q hq hqd => hmin q hq (hqd.trans hqdvd))
          (fun q hq => hbig q (Nat.primeFactorsList_subset_of_dvd hqdvd (by omega) hq))
          (by omega)]
        rw [hfl, ← hdeq]
        simp
      · rw [if_neg hdiv]
        have hnd : ¬ d ∣ number := fun h => hdiv (Nat.mod_eq_zero_of_dvd h)
        have hne : d ≠ Nat.minFac number := fun h => hnd (h ▸ hmfd)
        by_cases h2 : d = 2
        · subst h2
          have : (if ((2 : Nat) : Int) = 2 then (3 : Int) else wrapInt (((2 : Nat) : Int) + 2))
              = ((3 : Nat) : Int) := by simp
          rw [this]
          refine ih number 3 recorded hn (by omega) (by omega) ?_ hbig (by omega)
          intro q hq hqd
          have h1 := hmin q hq hqd
          have h3 : q ≠ 2 := fun h => hnd (h ▸ hqd)
          omega
        · have hodd : d % 2 = 1 := by omega
          have hnext : d + 2 ≤ Nat.minFac number := by
            have h1 : d < Nat.minFac number := lt_of_le_of_ne hdle hne
            by_contra hcon
            have heq : Nat.minFac number = d + 1 := by omega
            have heven : 2 ∣ Nat.minFac number := by omega
            have := (Nat.prime_dvd_prime_iff_eq Nat.prime_two hmf).1 heven
            omega
          have : (if (d : Int) = 2 then (3 : Int) else wrapInt ((d : Int) + 2))
              = ((d + 2 : Nat) : Int) := by
            rw [if_neg (by omega)]
            have := wrapInt_natCast (d + 2) (by omega)
            push_cast at this ⊢
            exact this
          rw [this]
          refine ih number (d + 2) recorded hn (by omega) (by omega) ?_ hbig (by omega)
          intro q hq hqd
          have h1 : Nat.minFac number ≤ q := Nat.minFac_le_of_dvd hq.two_le hqd
          omega
    · rw [if_neg hgt]
      have hdeq : d = number := by omega
      have hprime : number.Prime := by
        have : Nat.minFac number = number := by omega
        exact this ▸ hmf
      rw [Nat.primeFactorsList_prime hprime, hdeq]
      simp


/-- The trial-division loop stops for every 64-bit number, and each recorded factor at least
halves what is left, so the number of entries stays far below the 100 cells of `factors`. -/
theorem calculatePrimeFactors.loop_total : ∀ (fuel number : Nat) (d : Int) (recorded : List Int),
    1 ≤ number → number < 2 ^ 64 → -2 ^ 31 ≤ d → d < 2 ^ 31 →
    (d = 2 ∨ (d % 2 = 1 ∧ (3 ≤ d ∨ d < 0))) →
    number + (2 ^ 32 - (d % 2 ^ 32).toNat) < fuel →
    ∃ l, calculatePrimeFactors.loop fuel number d recorded = some l ∧
      2 ^ l.length ≤ 2 ^ (recorded.length + 1) * number := by
  intro fuel
  induction fuel with
  | zero => intro number d recorded _ _ _ _ _ h; omega
  | succ fuel ih =>
    intro number d recorded hn hn64 hlo hhi hpar hfuel
    have hu2 : 2 ≤ intToU64 d := by unfold intToU64; omega
    unfold calculatePrimeFactors.loop
    by_cases hgt : number > intToU64 d
    · rw [if_pos hgt]
      by_cases hdiv : number % intToU64 d = 0
      · rw [if_pos hdiv]
        have hq1 : 1 ≤ number / intToU64 d := Nat.div_pos (by omega) (by omega)
        have hq2 : 2 * (number / intToU64 d) ≤ number := by
          calc 2 * (number / intToU64 d) ≤ intToU64 d * (number / intToU64 d) :=
                Nat.mul_le_mul_right _ hu2
            _ ≤ number := Nat.mul_div_le number (intToU64 d)
        obtain ⟨l, hl, hlen⟩ := ih (number / intToU64 d) d (recorded ++ [d]) hq1 (by omega)
          hlo hhi hpar (by omega)
        refine ⟨l, hl, hlen.trans ?_⟩
        rw [List.length_append, List.length_singleton, pow_succ (2 : Nat) (recorded.length + 1),
          mul_assoc]
        exact Nat.mul_le_mul_left _ hq2
      · rw [if_neg hdiv]
        have hne : d ≠ -1 := by
          intro h
          rw [h] at hgt
          unfold intToU64 at hgt
          omega
        by_cases h2 : d = 2
        · rw [if_pos h2]
          subst h2
          exact ih number 3 recorded hn hn64 (by omega) (by omega) (by omega) (by omega)
        · rw [if_neg h2]
          have hw1 : -2 ^ 31 ≤ wrapInt (d + 2) := by unfold wrapInt; omega
          have hw2 : wrapInt (d + 2) < 2 ^ 31 := by unfold wrapInt; omega
          have hw3 : wrapInt (d + 2) % 2 = 1 ∧ (3 ≤ wrapInt (d + 2) ∨ wrapInt (d + 2) < 0) := by
            unfold wrapInt; omega
          have hw4 : (d % 2 ^ 32).toNat < (wrapInt (d + 2) % 2 ^ 32).toNat := by
            unfold wrapInt; omega
          exact ih number (wrapInt (d + 2)) recorded hn hn64 hw1 hw2 (Or.inr hw3) (by omega)
    · rw [if_neg hgt]
      refine ⟨recorded ++ [d], rfl, ?_⟩
      rw [List.length_append, List.length_singleton]
      exact Nat.le_mul_of_pos_right _ (by omega)

/-- Function `calculatePrimeFactors` returns for every 64-bit number, with 100 cells. -/
theorem calculatePrimeFactors_total (number : Nat) (h : number < 2 ^ 64) :
    ∃ factors, calculatePrimeFactors number = some factors ∧ factors.length = 100 := by
  unfold calculatePrimeFactors
  by_cases h2 : number < 2
  · rw [if_pos h2]
    exact ⟨_, rfl, by simp⟩
  · rw [if_neg h2]
    obtain ⟨l, hl, hlen⟩ := calculatePrimeFactors.loop_total (number + 2 ^ 32) number 2 []
      (by omega) h (by omega) (by omega) (Or.inl rfl) (by omega)
    rw [hl]
    have hlt : l.length < 100 := by
      by_contra hcon
      have h1 : 2 ^ 100 ≤ 2 ^ l.length := Nat.pow_le_pow_right (by omega) (by omega)
      simp only [List.length_nil, zero_add, pow_one] at hlen
      have h3 : (2:Nat) ^ 100 = 2 ^ 36 * 2 ^ 64 := by norm_num
      omega
    simp only [if_pos (le_of_lt hlt)]
    exact ⟨_, rfl, by simp; omega⟩

/-- A 64-bit number has fewer than 100 prime factors, counted with multiplicity. -/
theorem primeFactorsList_length_lt (number : Nat) (h : number < 2 ^ 64) :
    number.primeFactorsList.length < 100 := by
  by_cases h0 : number = 0
  · subst h0; simp
  have hprod := Nat.prod_primeFactorsList h0
  have hpow : 2 ^ number.primeFactorsList.length ≤ number.primeFactorsList.prod := by
    have : ∀ l : List Nat, (∀ q ∈ l, 2 ≤ q) → 2 ^ l.length ≤ l.prod := by
      intro l
      induction l with
      | nil => intro _; simp
      | cons a t ih =>
        intro hl
        rw [List.length_cons, List.prod_cons, pow_succ, mul_comm]
        exact Nat.mul_le_mul (hl a (List.mem_cons_self _ _))
          (ih (fun q hq => hl q (List.mem_cons_of_mem _ hq)))
    exact this _ (fun q hq => (Nat.prime_of_mem_primeFactorsList hq).two_le)
  by_contra hcon
  have h1 : 2 ^ 100 ≤ 2 ^ number.primeFactorsList.length :=
    Nat.pow_le_pow_right (by omega) (by omega)
  have h3 : (2:Nat) ^ 100 = 2 ^ 36 * 2 ^ 64 := by norm_num
  omega

/-- For a 64-bit number at least 2 whose prime factors are all below `2^31`, the cells of
`factors` hold the prime factorisation in non-decreasing order, followed by zeros. -/
theorem calculatePrimeFactors_eq (number : Nat) (h2 : 2 ≤ number) (h64 : number < 2 ^ 64)
    (hbig : ∀ q ∈ number.primeFactorsList, q < 2 ^ 31) :
    calculatePrimeFactors number
      = some (number.primeFactorsList.map Int.ofNat
          ++ List.replicate (100 - number.primeFactorsList.length) 0) := by
  unfold calculatePrimeFactors
  rw [if_neg (by omega)]
  have hloop := calculatePrimeFactors.loop_spec (number + 2 ^ 32) number 2 [] h2 (le_refl 2)
    (Or.inl rfl) (fun q hq _ => hq.two_le) hbig (by omega)
  simp only [Nat.cast_ofNat, List.nil_append] at hloop
  rw [hloop]
  have hlen := primeFactorsList_length_lt number h64
  simp only [List.length_map]
  rw [if_pos (le_of_lt hlen)]


theorem takeWhile_recorded (l : List Int) (k : Nat) (h : ∀ f ∈ l, f ≠ 0) :
    (l ++ List.replicate k 0).takeWhile (fun f => f != 0) = l := by
  induction l with
  | nil => cases k <;> simp [List.replicate, List.takeWhile]
  | cons a t ih =>
    have ha : a ≠ 0 := h a (List.mem_cons_self _ _)
    simp only [List.cons_append, List.takeWhile_cons, bne_iff_ne, ne_eq, ha, not_false_eq_true,
      ↓reduceIte, List.cons.injEq, true_and]
    exact ih (fun f hf => h f (List.mem_cons_of_mem _ hf))

theorem primeFactorsList_max : (2 ^ 64 - 1 : Nat).primeFactorsList
    = [3, 5, 17, 257, 641, 65537, 6700417] := by
  have hperm : List.Perm [3, 5, 17, 257, 641, 65537, 6700417]
      (2 ^ 64 - 1 : Nat).primeFactorsList := by
    apply Nat.primeFactorsList_unique
    · norm_num
    · intro p hp
      simp only [List.mem_cons, List.mem_singleton, List.not_mem_nil, or_false] at hp
      rcases hp with rfl | rfl | rfl | rfl | rfl | rfl | rfl <;> norm_num
  exact (List.eq_of_perm_of_sorted hperm (by decide)
    (Nat.primeFactorsList_sorted _)).symm


theorem primeFactors_lt_of_prime_dvd (n : Nat)
    (hbig : ∀ q, q.Prime → q ∣ n → q < 2 ^ 31) : ∀ q ∈ n.primeFactorsList, q < 2 ^ 31 :=
  fun q hq => hbig q (Nat.prime_of_mem_primeFactorsList hq) (Nat.dvd_of_mem_primeFactorsList hq)

/-- The entries of `factors` before the first zero, for a number within the range of
`calculatePrimeFactors_eq`. -/
theorem calculatePrimeFactors_recorded (n : Nat) (h2 : 2 ≤ n) (h64 : n < 2 ^ 64)
    (hbig : ∀ q, q.Prime → q ∣ n → q < 2 ^ 31) :
    ∃ factors, calculatePrimeFactors n = some factors ∧ factors.length = 100 ∧
      factors.takeWhile (fun f => f != 0) = n.primeFactorsList.map Int.ofNat := by
  refine ⟨_, calculatePrimeFactors_eq n h2 h64 (primeFactors_lt_of_prime_dvd n hbig), ?_, ?_⟩
  · have := primeFactorsList_length_lt n h64
    simp only [List.length_append, List.length_map, List.length_replicate]
    omega
  · apply takeWhile_recorded
    intro f hf
    obtain ⟨q, hq, rfl⟩ := List.mem_map.1 hf
    have := (Nat.prime_of_mem_primeFactorsList hq).pos
    simp only [Int.ofNat_eq_coe, ne_eq, Nat.cast_eq_zero]
    omega

theorem last_eq_cofactor (l : List Nat) (hl : l ≠ []) (hpos : ∀ q ∈ l, 0 < q) :
    (l.map Int.ofNat).getLast?
      = some (((l.prod : Nat) : Int) / ((l.map Int.ofNat).dropLast).prod) := by
  obtain ⟨t, a, rfl⟩ : ∃ t a, l = t ++ [a] := ⟨l.dropLast, l.getLast hl,
    (List.dropLast_append_getLast hl).symm⟩
  have htpos : 0 < t.prod := by
    apply List.prod_pos
    intro q hq
    exact hpos q (List.mem_append_left _ hq)
  have hcast : (List.map Int.ofNat t).prod = ((t.prod : Nat) : Int) := by
    rw [Nat.cast_list_prod]; rfl
  have hlast : (List.map Int.ofNat t ++ [Int.ofNat a]).getLast? = some (Int.ofNat a) := by
    rw [List.getLast?_append, List.getLast?_singleton]; rfl
  rw [List.map_append, List.map_cons, List.map_nil, hlast, List.dropLast_concat, hcast,
    List.prod_append, List.prod_cons, List.prod_nil, mul_one, Nat.cast_mul,
    Int.mul_ediv_cancel_left _ (by exact_mod_cast htpos.ne')]
  rfl

/-- C5: for every 64-bit number `n ≥ 2` whose prime factors are all below `2^31`,
`calculatePrimeFactors` returns and the entries of `factors` before the first zero are
all prime, their product is `n`, and the last entry written is the cofactor that is left
of `n` after dividing by the entries recorded before it. -/
theorem calculatePrimeFactors_factorisation (n : Nat) (h2 : 2 ≤ n) (h64 : n < 2 ^ 64)
    (hbig : ∀ q, q.Prime → q ∣ n → q < 2 ^ 31) :
    ∃ factors, calculatePrimeFactors n = some factors ∧ factors.length = 100 ∧
      (∀ f ∈ factors.takeWhile (fun f => f != 0), ∃ q : Nat, f = (q : Int) ∧ q.Prime) ∧
      (factors.takeWhile (fun f => f != 0)).prod = (n : Int) ∧
      (factors.takeWhile (fun f => f != 0)).getLast?
        = some ((n : Int) / ((factors.takeWhile (fun f => f != 0)).dropLast).prod) := by
  obtain ⟨factors, hf, hlen, hrec⟩ := calculatePrimeFactors_recorded n h2 h64 hbig
  have hprod := Nat.prod_primeFactorsList (n := n) (by omega)
  refine ⟨factors, hf, hlen, ?_, ?_, ?_⟩
  · intro f hmem
    rw [hrec] at hmem
    obtain ⟨q, hq, rfl⟩ := List.mem_map.1 hmem
    exact ⟨q, rfl, Nat.prime_of_mem_primeFactorsList hq⟩
  · rw [hrec]
    have : (List.map Int.ofNat n.primeFactorsList).prod
        = ((n.primeFactorsList.prod : Nat) : Int) := by
      rw [Nat.cast_list_prod]; rfl
    rw [this, hprod]
  · rw [hrec]
    have hne : n.primeFactorsList ≠ [] := by
      intro h
      rcases (Nat.primeFactorsList_eq_nil n).1 h with h | h <;> omega
    have := last_eq_cofactor n.primeFactorsList hne
      (fun q hq => (Nat.prime_of_mem_primeFactorsList hq).pos)
    rw [hprod] at this
    exact this

set_option maxRecDepth 1000000 in
/-- Witness for C5 at `n = 38875 = 5 * 5 * 5 * 311`. -/
theorem calculatePrimeFactors_factorisation_witness :
    ∃ factors, calculatePrimeFactors 38875 = some factors ∧ factors.length = 100 ∧
      (∀ f ∈ factors.takeWhile (fun f => f != 0), ∃ q : Nat, f = (q : Int) ∧ q.Prime) ∧
      (factors.takeWhile (fun f => f != 0)).prod = ((38875 : Nat) : Int) ∧
      (factors.takeWhile (fun f => f != 0)).getLast?
        = some (((38875 : Nat) : Int) / ((factors.takeWhile (fun f => f != 0)).dropLast).prod) :=
  calculatePrimeFactors_factorisation 38875 (by decide) (by decide)
    (fun _ _ hd => lt_of_le_of_lt (Nat.le_of_dvd (by decide) hd) (by decide))


/-! ## The permutation built by `buildMap` -/

theorem count_zero_drop (assigned : List Nat) (index v : Nat)
    (h : assigned[index]? = some v) :
    (assigned.drop index).count 0
      = (if v = 0 then 1 else 0) + (assigned.drop (index + 1)).count 0 := by
  have hlt : index < assigned.length := by
    by_contra hcon
    rw [List.getElem?_eq_none (by omega)] at h
    exact Option.noConfusion h
  have hv : assigned[index] = v := by
    rw [List.getElem?_eq_getElem hlt] at h
    exact Option.some.inj h
  rw [List.drop_eq_getElem_cons hlt, hv, List.count_cons]
  by_cases hz : v = 0
  · subst hz; simp; omega
  · simp [hz]

theorem lt_length_of_count_drop_pos (assigned : List Nat) (index : Nat)
    (h : 0 < (assigned.drop index).count 0) : index < assigned.length := by
  by_contra hcon
  rw [List.drop_eq_nil_of_le (by omega)] at h
  simp at h

/-- The first inner loop of the placement stops inside the array after passing exactly
`active_index - unassigned` free cells, when that many free cells and one more lie ahead. -/
theorem buildMap.skip_spec (assigned : List Nat) (g : Nat) :
    ∀ (fuel index un : Nat), assigned.length ≤ index + fuel → un ≤ g →
      g - un < (assigned.drop index).count 0 →
      ∃ j, buildMap.skip assigned g fuel index un = some j ∧ index ≤ j ∧
        (g - un) + (assigned.drop j).count 0 = (assigned.drop index).count 0 := by
  intro fuel
  induction fuel with
  | zero =>
    intro index un hlen _ hcount
    have := lt_length_of_count_drop_pos assigned index (by omega)
    omega
  | succ fuel ih =>
    intro index un hlen hle hcount
    unfold buildMap.skip
    by_cases heq : un = g
    · rw [if_pos heq]
      exact ⟨index, rfl, le_refl _, by omega⟩
    · rw [if_neg heq]
      have hlt := lt_length_of_count_drop_pos assigned index (by omega)
      have hget : assigned[index]? = some assigned[index] := List.getElem?_eq_getElem hlt
      rw [hget]
      have hc := count_zero_drop assigned index _ hget
      by_cases hz : assigned[index] = 0
      · simp only [hz, if_true] at hc ⊢
        obtain ⟨j, hj, hij, hcj⟩ := ih (index + 1) (un + 1) (by omega) (by omega) (by omega)
        exact ⟨j, hj, by omega, by omega⟩
      · simp only [hz, if_false] at hc ⊢
        obtain ⟨j, hj, hij, hcj⟩ := ih (index + 1) un (by omega) hle (by omega)
        exact ⟨j, hj, by omega, by omega⟩

/-- The second inner loop of the placement stops on the first free cell at or after
`index`, when there is one. -/
theorem buildMap.findFree_spec (assigned : List Nat) :
    ∀ (fuel index : Nat), assigned.length ≤ index + fuel →
      0 < (assigned.drop index).count 0 →
      ∃ k, buildMap.findFree assigned fuel index = some k ∧ index ≤ k ∧
        assigned[k]? = some 0 ∧
        (assigned.drop k).count 0 = (assigned.drop index).count 0 := by
  intro fuel
  induction fuel with
  | zero =>
    intro index hlen hcount
    have := lt_length_of_count_drop_pos assigned index hcount
    omega
  | succ fuel ih =>
    intro index hlen hcount
    unfold buildMap.findFree
    have hlt := lt_length_of_count_drop_pos assigned index hcount
    have hget : assigned[index]? = some assigned[index] := List.getElem?_eq_getElem hlt
    rw [hget]
    have hc := count_zero_drop assigned index _ hget
    by_cases hz : assigned[index] = 0
    · simp only [hz, if_true]
      exact ⟨index, rfl, le_refl _, by rw [hget, hz], rfl⟩
    · simp only [hz, if_false] at hc ⊢
      obtain ⟨k, hk, hik, hget', hck⟩ := ih (index + 1) (by omega) (by omega)
      exact ⟨k, hk, by omega, hget', by omega⟩

theorem count_take_add_count_drop (l : List Nat) (k : Nat) :
    (l.take k).count 0 + (l.drop k).count 0 = l.count 0 := by
  rw [← List.count_append, List.take_append_drop]

/-- Both inner loops together: for a step size below the number of free cells they find the
free cell that has exactly `g` free cells before it. -/
theorem buildMap.select_spec (assigned : List Nat) (g : Nat)
    (hlen : assigned.length = MAP_LENGTH) (hg : g < assigned.count 0) :
    ∃ j k, buildMap.skip assigned g MAP_LENGTH 0 0 = some j ∧
      buildMap.findFree assigned MAP_LENGTH j = some k ∧
      assigned[k]? = some 0 ∧ (assigned.take k).count 0 = g := by
  obtain ⟨j, hj, -, hcj⟩ := buildMap.skip_spec assigned g MAP_LENGTH 0 0 (by omega)
    (Nat.zero_le _) (by simpa using hg)
  simp only [List.drop_zero, Nat.sub_zero] at hcj
  obtain ⟨k, hk, -, hget, hck⟩ := buildMap.findFree_spec assigned MAP_LENGTH j (by omega)
    (by omega)
  refine ⟨j, k, hj, hk, hget, ?_⟩
  have := count_take_add_count_drop assigned k
  omega


theorem take_succ_set (l : List Nat) (i a : Nat) (h : i < l.length) :
    (l.set i a).take (i + 1) = l.take i ++ [a] := by
  induction l generalizing i with
  | nil => simp at h
  | cons b t ih =>
    cases i with
    | zero => simp
    | succ i =>
      simp only [List.length_cons, Nat.add_lt_add_iff_right] at h
      simp only [List.set_cons_succ, List.take_succ_cons, List.cons_append, List.cons.injEq,
        true_and]
      exact ih i h

theorem count_zero_set_one (l : List Nat) (k : Nat) (h : l[k]? = some 0) :
    (l.set k 1).count 0 + 1 = l.count 0 := by
  induction l generalizing k with
  | nil => simp at h
  | cons b t ih =>
    cases k with
    | zero =>
      simp only [List.getElem?_cons_zero, Option.some.injEq] at h
      subst h
      simp
    | succ k =>
      simp only [List.getElem?_cons_succ] at h
      simp only [List.set_cons_succ, List.count_cons]
      have := ih k h
      omega

theorem buildMap.place_spec (g : List Nat) (i : Nat) (s : List Nat × List Nat)
    (hi : i < MAP_LENGTH) (hg : g.getD i 0 < MAP_LENGTH - i) (hs : buildMap.Placed i s) :
    ∃ k, buildMap.place g s i = some (s.1.set i k, s.2.set k 1) ∧
      s.2[k]? = some 0 ∧ (s.2.take k).count 0 = g.getD i 0 ∧
      buildMap.Placed (i + 1) (s.1.set i k, s.2.set k 1) := by
  obtain ⟨j, k, hj, hk, hget, hrank⟩ := buildMap.select_spec s.2 (g.getD i 0) hs.lenAssigned
    (by have := hs.free; omega)
  refine ⟨k, ?_, hget, hrank, ?_⟩
  · unfold buildMap.place
    rw [hj]
    simp only [hk]
  · have hilen : i < s.1.length := by rw [hs.lenMap]; exact hi
    have htake : (s.1.set i k).take (i + 1) = s.1.take i ++ [k] := take_succ_set s.1 i k hilen
    have hknot : k ∉ s.1.take i := by
      intro hmem
      have := hs.marked k hmem
      rw [hget] at this
      exact absurd (Option.some.inj this) (by decide)
    constructor
    · simp [hs.lenMap]
    · simp [hs.lenAssigned]
    · have := count_zero_set_one s.2 k hget
      have := hs.free
      simp only
      omega
    · simp only [htake]
      exact List.Nodup.append hs.nodup (List.nodup_singleton k) (by
        intro a ha hb
        rw [List.mem_singleton] at hb
        exact hknot (hb ▸ ha))
    · intro v hv
      simp only [htake, List.mem_append, List.mem_singleton] at hv
      simp only [List.getElem?_set]
      have hklen : k < s.2.length := by
        by_contra hcon
        rw [List.getElem?_eq_none (by omega)] at hget
        exact Option.noConfusion hget
      by_cases hkv : k = v
      · subst hkv
        rw [if_pos rfl, if_pos hklen]
      · rw [if_neg hkv]
        rcases hv with hv | hv
        · exact hs.marked v hv
        · exact absurd hv.symm hkv

/-- The placement loop runs through for every `g` with `g[i] < MAP_LENGTH - i`. -/
theorem buildMap.placeAll_spec (g : List Nat)
    (hg : ∀ i, i < MAP_LENGTH → g.getD i 0 < MAP_LENGTH - i) :
    ∀ n, n ≤ MAP_LENGTH →
      ∃ s, (List.range n).foldlM (buildMap.place g)
          (List.replicate MAP_LENGTH 0, List.replicate MAP_LENGTH 0) = some s ∧
        buildMap.Placed n s := by
  intro n
  induction n with
  | zero =>
    intro _
    refine ⟨_, rfl, ?_⟩
    constructor
    · exact List.length_replicate _ _
    · exact List.length_replicate _ _
    · simp only [List.count_replicate_self, Nat.add_zero]
    · simp only [List.take_zero, List.nodup_nil]
    · intro v hv
      simp only [List.take_zero, List.not_mem_nil] at hv
  | succ n ih =>
    intro hn
    obtain ⟨s, hs, hinv⟩ := ih (by omega)
    obtain ⟨k, hk, -, -, hinv'⟩ := buildMap.place_spec g n s (by omega) (hg n (by omega)) hinv
    refine ⟨_, ?_, hinv'⟩
    rw [List.range_succ, List.foldlM_append, hs]
    simp only [Option.bind_eq_bind, Option.some_bind, List.foldlM_cons, List.foldlM_nil, hk]
    rfl


/-- The loop "Compute g(i)" draws `n` values in `n` passes, the `i`-th below
`MAP_LENGTH - i`. -/
theorem buildMap.computeG_spec (st : LCG) : ∀ n, n ≤ MAP_LENGTH →
    ((List.range n).foldl buildMap.draw ([], st)).1.length = n ∧
    ∀ i, i < n → ((List.range n).foldl buildMap.draw ([], st)).1.getD i 0 < MAP_LENGTH - i := by
  intro n
  induction n with
  | zero => intro _; exact ⟨rfl, fun i hi => absurd hi (Nat.not_lt_zero i)⟩
  | succ n ih =>
    intro hn
    obtain ⟨hlen, hval⟩ := ih (by omega)
    rw [List.range_succ, List.foldl_append]
    simp only [List.foldl_cons, List.foldl_nil, buildMap.draw]
    refine ⟨by rw [List.length_append, hlen]; rfl, ?_⟩
    intro i hi
    by_cases hin : i < n
    · rw [List.getD_append _ _ _ _ (by omega)]
      exact hval i hin
    · have hieq : i = n := by omega
      subst hieq
      rw [List.getD_append_right _ _ _ _ (by omega), hlen, Nat.sub_self]
      exact Nat.mod_lt _ (by omega)

/-- For every generator with a positive modulus, `buildMap` returns and `builtMap` is a
rearrangement of `0, ..., 27`. -/
theorem buildMap_perm (st : LCG) (hm : 0 < st.lcg_m) :
    ∃ builtMap, buildMap st = some (builtMap, (buildMap.computeG st).2) ∧
      List.Perm builtMap (List.range MAP_LENGTH) := by
  have hg := (buildMap.computeG_spec st MAP_LENGTH (le_refl _)).2
  obtain ⟨s, hs, hinv⟩ := buildMap.placeAll_spec (buildMap.computeG st).1 hg MAP_LENGTH
    (le_refl _)
  refine ⟨s.1, ?_, ?_⟩
  · unfold buildMap
    rw [if_neg (by omega)]
    unfold buildMap.placeAll
    rw [hs]
  · have htake : s.1.take MAP_LENGTH = s.1 := List.take_of_length_le (le_of_eq hinv.lenMap)
    have hnodup : s.1.Nodup := htake ▸ hinv.nodup
    have hsub : s.1 ⊆ List.range MAP_LENGTH := by
      intro v hv
      have h1 := hinv.marked v (htake.symm ▸ hv)
      rw [List.mem_range, ← hinv.lenAssigned]
      by_contra hcon
      rw [List.getElem?_eq_none (by omega)] at h1
      exact Option.noConfusion h1
    exact (List.subperm_of_subset hnodup hsub).perm_of_length_le
      (by rw [List.length_range, hinv.lenMap])

/-- C2: for every key state with `lcg_m > 0`, `buildMap` returns and fills `builtMap` with
28 values, each in `[0, 27]`, in which every value of `0..27` appears exactly once. -/
theorem buildMap_permutation (st : LCG) (hm : 0 < st.lcg_m) :
    ∃ builtMap st', buildMap st = some (builtMap, st') ∧ builtMap.length = 28 ∧
      (∀ v ∈ builtMap, v < 28) ∧ (∀ v, v < 28 → builtMap.count v = 1) := by
  obtain ⟨builtMap, hb, hperm⟩ := buildMap_perm st hm
  refine ⟨builtMap, _, hb, ?_, ?_, ?_⟩
  · rw [hperm.length_eq, List.length_range]; rfl
  · intro v hv
    exact List.mem_range.1 (hperm.subset hv)
  · intro v hv
    rw [hperm.count_eq]
    exact List.count_eq_one_of_mem (List.nodup_range _) (List.mem_range.2 hv)

set_option maxRecDepth 100000 in
/-- Witness for C2 at the first generator state of the key `m = 38875`, `c = 1234`. -/
theorem buildMap_permutation_witness :
    0 < (LCG.mk 1234 38875 1556 1234).lcg_m ∧
    ∃ builtMap st', buildMap (LCG.mk 1234 38875 1556 1234) = some (builtMap, st') ∧
      builtMap.length = 28 ∧ (∀ v ∈ builtMap, v < 28) ∧
      (∀ v, v < 28 → builtMap.count v = 1) :=
  ⟨by decide, buildMap_permutation (LCG.mk 1234 38875 1556 1234) (by decide)⟩


/-! ## The bit loops -/

theorem isBitSet_eq_testBit (c n : Nat) : isBitSet c n = c.testBit n := by
  unfold isBitSet
  rw [Nat.one_shiftLeft]
  cases h : c.testBit n
  · have : c &&& 2 ^ n = 0 := by
      apply Nat.eq_of_testBit_eq
      intro j
      rw [Nat.testBit_and, Nat.testBit_two_pow, Nat.zero_testBit]
      by_cases hj : n = j
      · subst hj; simp [h]
      · simp [hj]
    simp [this]
  · have : c &&& 2 ^ n ≠ 0 := by
      intro h0
      have := Nat.testBit_and c (2 ^ n) n
      rw [h0, Nat.zero_testBit, h, Nat.testBit_two_pow_self] at this
      exact Bool.noConfusion this
    simp [this]

theorem testBit_setBit (c n k : Nat) (hk : k < 8) :
    (setBit c n).testBit k = (c.testBit k || decide (n = k)) := by
  unfold setBit
  rw [show (256 : Nat) = 2 ^ 8 from rfl, Nat.testBit_mod_two_pow, Nat.testBit_or,
    Nat.one_shiftLeft, Nat.testBit_two_pow]
  simp [hk]

theorem setBit_lt (c n : Nat) (hc : c < 128) (hn : n < 7) : setBit c n < 128 := by
  unfold setBit
  rw [Nat.one_shiftLeft]
  have h1 : c ||| 2 ^ n < 2 ^ 7 :=
    Nat.or_lt_two_pow hc (Nat.pow_lt_pow_right (by omega) hn)
  have : (c ||| 2 ^ n) % 256 ≤ c ||| 2 ^ n := Nat.mod_le _ _
  omega

theorem bitAt_setBitAt (block : List Nat) (n t : Nat) (hn : n / 7 < block.length) :
    bitAt (setBitAt block n) t = (bitAt block t || decide (n = t)) := by
  unfold bitAt setBitAt
  by_cases hbyte : n / 7 = t / 7
  · rw [← hbyte, List.getD_eq_getElem _ _ (by rw [List.length_set]; exact hn),
      List.getElem_set_self, isBitSet_eq_testBit, isBitSet_eq_testBit, testBit_setBit _ _ _
        (by omega)]
    have : (n % 7 = t % 7) ↔ n = t := by omega
    simp only [this]
  · have hget : (block.set (n / 7) (setBit (block.getD (n / 7) 0) (n % 7))).getD (t / 7) 0
        = block.getD (t / 7) 0 := by
      simp only [List.getD_eq_getElem?_getD, List.getElem?_set, hbyte, if_false]
    rw [hget]
    have : ¬ n = t := fun h => hbyte (h ▸ rfl)
    simp [this]

/-- A fold of conditional `setBit` calls sets exactly the bits that some pass addresses. -/
theorem bitAt_fold (cond : Nat → Bool) (dest : Nat → Nat) (t : Nat) :
    ∀ (is : List Nat) (block : List Nat), (∀ i ∈ is, dest i / 7 < block.length) →
      bitAt (is.foldl (fun b i => if cond i then setBitAt b (dest i) else b) block) t
        = (bitAt block t || is.any (fun i => cond i && decide (dest i = t))) := by
  intro is
  induction is with
  | nil => intro block _; simp
  | cons i is ih =>
    intro block hdest
    rw [List.foldl_cons, List.any_cons]
    have hi := hdest i (List.mem_cons_self _ _)
    have hrest : ∀ j ∈ is, dest j / 7 < block.length := fun j hj =>
      hdest j (List.mem_cons_of_mem _ hj)
    cases hc : cond i
    · simp only [Bool.false_eq_true, if_false, Bool.false_and, Bool.false_or]
      exact ih block hrest
    · simp only [if_true, Bool.true_and]
      rw [ih (setBitAt block (dest i)) (by
        intro j hj
        unfold setBitAt
        rw [List.length_set]
        exact hrest j hj), bitAt_setBitAt block (dest i) t hi, Bool.or_assoc]

theorem length_fold (cond : Nat → Bool) (dest : Nat → Nat) :
    ∀ (is : List Nat) (block : List Nat),
      (is.foldl (fun b i => if cond i then setBitAt b (dest i) else b) block).length
        = block.length := by
  intro is
  induction is with
  | nil => intro block; rfl
  | cons i is ih =>
    intro block
    rw [List.foldl_cons, ih]
    split
    · unfold setBitAt; rw [List.length_set]
    · rfl

theorem lt_fold (cond : Nat → Bool) (dest : Nat → Nat) :
    ∀ (is : List Nat) (block : List Nat), (∀ b ∈ block, b < 128) →
      ∀ b ∈ is.foldl (fun b i => if cond i then setBitAt b (dest i) else b) block, b < 128 := by
  intro is
  induction is with
  | nil => intro block h; exact h
  | cons i is ih =>
    intro block h
    rw [List.foldl_cons]
    apply ih
    split
    · intro b hb
      unfold setBitAt at hb
      rcases List.mem_or_eq_of_mem_set hb with hb | hb
      · exact h b hb
      · rw [hb]
        apply setBit_lt _ _ _ (Nat.mod_lt _ (by omega))
        by_cases hlt : dest i / 7 < block.length
        · rw [List.getD_eq_getElem _ _ hlt]
          exact h _ (List.getElem_mem _)
        · rw [List.getD_eq_default _ _ (by omega)]
          omega
    · exact h

/-- Two blocks of the same length with bytes below 128 that agree on every addressed bit
are equal. -/
theorem block_ext (x y : List Nat) (hlen : x.length = y.length)
    (hx : ∀ b ∈ x, b < 128) (hy : ∀ b ∈ y, b < 128)
    (hbits : ∀ t, t < 7 * x.length → bitAt x t = bitAt y t) : x = y := by
  apply List.ext_getElem hlen
  intro n h1 h2
  apply Nat.eq_of_testBit_eq
  intro j
  by_cases hj : j < 7
  · have := hbits (7 * n + j) (by omega)
    unfold bitAt at this
    have hdiv : (7 * n + j) / 7 = n := by omega
    have hmod : (7 * n + j) % 7 = j := by omega
    rw [hdiv, hmod, isBitSet_eq_testBit, isBitSet_eq_testBit, List.getD_eq_getElem _ _ h1,
      List.getD_eq_getElem _ _ h2] at this
    exact this
  · have hpow : (128 : Nat) ≤ 2 ^ j := by
      calc (128 : Nat) = 2 ^ 7 := rfl
        _ ≤ 2 ^ j := Nat.pow_le_pow_right (by omega) (by omega)
    rw [Nat.testBit_lt_two_pow (lt_of_lt_of_le (hx _ (List.getElem_mem _)) hpow),
      Nat.testBit_lt_two_pow (lt_of_lt_of_le (hy _ (List.getElem_mem _)) hpow)]


theorem perm_length (builtMap : List Nat) (hperm : List.Perm builtMap (List.range 28)) :
    builtMap.length = 28 := by
  rw [hperm.length_eq, List.length_range]

theorem perm_lt (builtMap : List Nat) (hperm : List.Perm builtMap (List.range 28))
    (i : Nat) (hi : i < 28) : builtMap.getD i 0 < 28 := by
  have hlen := perm_length builtMap hperm
  rw [List.getD_eq_getElem _ _ (by omega)]
  exact List.mem_range.1 (hperm.subset (List.getElem_mem _))

theorem perm_inj (builtMap : List Nat) (hperm : List.Perm builtMap (List.range 28))
    (i j : Nat) (hi : i < 28) (hj : j < 28) (h : builtMap.getD i 0 = builtMap.getD j 0) :
    i = j := by
  have hlen := perm_length builtMap hperm
  have hnodup : builtMap.Nodup := hperm.nodup_iff.2 (List.nodup_range 28)
  have hi' : i < builtMap.length := by omega
  have hj' : j < builtMap.length := by omega
  rw [List.getD_eq_getElem builtMap 0 hi', List.getD_eq_getElem builtMap 0 hj'] at h
  exact (List.Nodup.getElem_inj_iff hnodup).1 h

theorem perm_surj (builtMap : List Nat) (hperm : List.Perm builtMap (List.range 28))
    (t : Nat) (ht : t < 28) : ∃ i, i < 28 ∧ builtMap.getD i 0 = t := by
  have hlen := perm_length builtMap hperm
  obtain ⟨i, hi, hget⟩ := List.getElem_of_mem (hperm.symm.subset (List.mem_range.2 ht))
  exact ⟨i, by omega, by rw [List.getD_eq_getElem _ _ hi]; exact hget⟩

theorem encrypt_permute_eq (builtMap data : List Nat) :
    encryptText.permute builtMap data
      = (List.range 28).foldl (fun b i =>
          if (fun i => bitAt data i) i then setBitAt b ((fun i => builtMap.getD i 0) i) else b)
        (List.replicate 5 0) := rfl

theorem decrypt_permute_eq (builtMap decrypted : List Nat) :
    decryptText.permute builtMap decrypted
      = (List.range 28).foldl (fun b i =>
          if (fun i => bitAt decrypted (builtMap.getD i 0)) i then setBitAt b ((fun i => i) i)
          else b)
        (List.replicate 5 0) := rfl

theorem bitAt_zero_block (t : Nat) : bitAt (List.replicate 5 0) t = false := by
  unfold bitAt
  rw [isBitSet_eq_testBit]
  have : (List.replicate 5 0).getD (t / 7) 0 = 0 := by
    simp only [List.getD_eq_getElem?_getD, List.getElem?_replicate]
    split <;> rfl
  rw [this, Nat.zero_testBit]

/-- Bit `t` of the encrypted block is set exactly when some set bit `i` of the data has
`builtMap[i] = t`. -/
theorem encrypt_bitAt_permute (builtMap data : List Nat)
    (hlt : ∀ i, i < 28 → builtMap.getD i 0 < 28) (t : Nat) :
    bitAt (encryptText.permute builtMap data) t
      = (List.range 28).any (fun i => bitAt data i && decide (builtMap.getD i 0 = t)) := by
  rw [encrypt_permute_eq, bitAt_fold _ _ t _ _ (by
    intro i hi
    have := hlt i (List.mem_range.1 hi)
    simp only [List.length_replicate]
    omega), bitAt_zero_block, Bool.false_or]

/-- Bit `t` of the decrypted block is bit `builtMap[t]` of its input, for `t < 28`. -/
theorem decrypt_bitAt_permute (builtMap decrypted : List Nat) (t : Nat) :
    bitAt (decryptText.permute builtMap decrypted) t
      = (decide (t < 28) && bitAt decrypted (builtMap.getD t 0)) := by
  rw [decrypt_permute_eq, bitAt_fold _ _ t _ _ (by
    intro i hi
    have := List.mem_range.1 hi
    simp only [List.length_replicate]
    omega), bitAt_zero_block, Bool.false_or]
  by_cases ht : t < 28
  · rw [Bool.eq_iff_iff]
    simp only [List.any_eq_true, List.mem_range, Bool.and_eq_true, decide_eq_true_eq, ht,
      true_and]
    constructor
    · rintro ⟨i, -, hb, rfl⟩; exact hb
    · intro hb; exact ⟨t, ht, hb, rfl⟩
  · rw [Bool.eq_iff_iff]
    simp only [List.any_eq_true, List.mem_range, Bool.and_eq_true, decide_eq_true_eq, ht,
      false_and, iff_false, not_exists, not_and]
    intro i hi _ hit
    omega

theorem encrypt_permute_length (builtMap data : List Nat) :
    (encryptText.permute builtMap data).length = 5 := by
  rw [encrypt_permute_eq, length_fold, List.length_replicate]

theorem decrypt_permute_length (builtMap decrypted : List Nat) :
    (decryptText.permute builtMap decrypted).length = 5 := by
  rw [decrypt_permute_eq, length_fold, List.length_replicate]

theorem encrypt_permute_lt (builtMap data : List Nat) :
    ∀ b ∈ encryptText.permute builtMap data, b < 128 := by
  rw [encrypt_permute_eq]
  apply lt_fold
  intro b hb
  rw [List.eq_of_mem_replicate hb]
  omega

theorem decrypt_permute_lt (builtMap decrypted : List Nat) :
    ∀ b ∈ decryptText.permute builtMap decrypted, b < 128 := by
  rw [decrypt_permute_eq]
  apply lt_fold
  intro b hb
  rw [List.eq_of_mem_replicate hb]
  omega

theorem bitAt_of_le (block : List Nat) (hlen : block.length = 5) (h4 : block.getD 4 0 = 0)
    (t : Nat) (ht : 28 ≤ t) : bitAt block t = false := by
  unfold bitAt
  rw [isBitSet_eq_testBit]
  by_cases h : t / 7 = 4
  · rw [h, h4, Nat.zero_testBit]
  · rw [List.getD_eq_default _ _ (by omega), Nat.zero_testBit]

/-- Decrypting the bits of an encrypted block gives the block back. -/
theorem decrypt_encrypt_bits (builtMap block : List Nat)
    (hperm : List.Perm builtMap (List.range 28)) (hlen : block.length = 5)
    (h4 : block.getD 4 0 = 0) (hlt : ∀ b ∈ block, b < 128) :
    decryptText.permute builtMap (encryptText.permute builtMap block) = block := by
  apply block_ext _ _ (by rw [decrypt_permute_length, hlen]) (decrypt_permute_lt _ _) hlt
  intro t _
  rw [decrypt_bitAt_permute]
  by_cases ht : t < 28
  · rw [encrypt_bitAt_permute _ _ (perm_lt builtMap hperm), Bool.eq_iff_iff]
    simp only [List.any_eq_true, List.mem_range, Bool.and_eq_true, decide_eq_true_eq, ht,
      true_and]
    constructor
    · rintro ⟨i, hi, hb, heq⟩
      rw [← perm_inj builtMap hperm i t hi ht heq]
      exact hb
    · intro hb; exact ⟨t, ht, hb, rfl⟩
  · rw [bitAt_of_le block hlen h4 t (by omega)]
    simp [ht]

/-- Encrypting the bits of a decrypted block gives the block back. -/
theorem encrypt_decrypt_bits (builtMap block : List Nat)
    (hperm : List.Perm builtMap (List.range 28)) (hlen : block.length = 5)
    (h4 : block.getD 4 0 = 0) (hlt : ∀ b ∈ block, b < 128) :
    encryptText.permute builtMap (decryptText.permute builtMap block) = block := by
  apply block_ext _ _ (by rw [encrypt_permute_length, hlen]) (encrypt_permute_lt _ _) hlt
  intro t _
  rw [encrypt_bitAt_permute _ _ (perm_lt builtMap hperm), Bool.eq_iff_iff]
  simp only [List.any_eq_true, List.mem_range, Bool.and_eq_true, decide_eq_true_eq,
    decrypt_bitAt_permute]
  constructor
  · rintro ⟨i, _, ⟨_, hb⟩, rfl⟩
    exact hb
  · intro hb
    have ht : t < 28 := by
      by_contra hcon
      rw [bitAt_of_le block hlen h4 t (by omega)] at hb
      exact Bool.noConfusion hb
    obtain ⟨i, hi, rfl⟩ := perm_surj builtMap hperm t ht
    exact ⟨i, hi, ⟨hi, hb⟩, rfl⟩

/-- C6: for every `builtMap` that is a permutation of `0..27` and every block of four bytes
in `[0, 127]`, the decryption bit loop undoes the encryption bit loop, and the encryption
bit loop undoes the decryption bit loop. -/
theorem block_transform_round_trip (builtMap : List Nat) (b0 b1 b2 b3 : Nat)
    (hperm : List.Perm builtMap (List.range 28))
    (h0 : b0 ≤ 127) (h1 : b1 ≤ 127) (h2 : b2 ≤ 127) (h3 : b3 ≤ 127) :
    decryptText.permute builtMap (encryptText.permute builtMap [b0, b1, b2, b3, 0])
        = [b0, b1, b2, b3, 0] ∧
      encryptText.permute builtMap (decryptText.permute builtMap [b0, b1, b2, b3, 0])
        = [b0, b1, b2, b3, 0] := by
  have hlt : ∀ b ∈ [b0, b1, b2, b3, 0], b < 128 := by
    intro b hb
    simp only [List.mem_cons, List.mem_singleton, List.not_mem_nil, or_false] at hb
    rcases hb with rfl | rfl | rfl | rfl | rfl <;> omega
  exact ⟨decrypt_encrypt_bits builtMap _ hperm rfl rfl hlt,
    encrypt_decrypt_bits builtMap _ hperm rfl rfl hlt⟩

/-- Witness for C6: the first permutation of the key `m = 38875`, `c = 1234` and the
block `"This"`. -/
theorem block_transform_round_trip_witness :
    decryptText.permute
        [2, 21, 5, 8, 27, 0, 7, 26, 11, 19, 6, 10, 3, 4, 23, 24, 17, 12, 18, 16, 15, 25, 22, 9,
          14, 20, 1, 13]
        (encryptText.permute
          [2, 21, 5, 8, 27, 0, 7, 26, 11, 19, 6, 10, 3, 4, 23, 24, 17, 12, 18, 16, 15, 25, 22,
            9, 14, 20, 1, 13] [84, 104, 105, 115, 0])
        = [84, 104, 105, 115, 0] ∧
      encryptText.permute
        [2, 21, 5, 8, 27, 0, 7, 26, 11, 19, 6, 10, 3, 4, 23, 24, 17, 12, 18, 16, 15, 25, 22, 9,
          14, 20, 1, 13]
        (decryptText.permute
          [2, 21, 5, 8, 27, 0, 7, 26, 11, 19, 6, 10, 3, 4, 23, 24, 17, 12, 18, 16, 15, 25, 22,
            9, 14, 20, 1, 13] [84, 104, 105, 115, 0])
        = [84, 104, 105, 115, 0] :=
  block_transform_round_trip _ 84 104 105 115 (by decide) (by decide) (by decide) (by decide)
    (by decide)


/-! ## The escaping of `encryptText` -/

theorem schar_of_lt (v : Nat) (h : v < 128) : schar v = (v : Int) := by
  unfold schar
  rw [if_pos h]

theorem toChar_natCast (v : Nat) (h : v < 256) : toChar (v : Int) = v := by
  unfold toChar
  omega

theorem range_four : List.range 4 = [0, 1, 2, 3] := rfl

theorem encryptText.format_eq (encrypted : List Nat) :
    encryptText.format encrypted
      = encryptText.formatByte (encrypted.getD 0 0) ++ encryptText.formatByte (encrypted.getD 1 0)
        ++ encryptText.formatByte (encrypted.getD 2 0)
        ++ encryptText.formatByte (encrypted.getD 3 0) := by
  unfold encryptText.format
  rw [range_four]
  simp only [List.foldl_cons, List.foldl_nil, List.nil_append]

/-- The escaped form of a seven-bit byte: the byte itself when it is printable and not
`'+'`, otherwise `'+'` and a printable byte from which `decryptText` recovers it. -/
theorem encryptText.formatByte_cases (v : Nat) (hv : v < 128) :
    (encryptText.formatByte v = [v] ∧ v ≠ 43 ∧ 32 ≤ v ∧ v ≤ 126) ∨
    (∃ p, encryptText.formatByte v = [43, p] ∧ decryptText.unescape p = v ∧
      32 ≤ p ∧ p ≤ 126) := by
  unfold encryptText.formatByte
  rw [schar_of_lt v hv]
  by_cases h1 : (v : Int) < 32
  · rw [if_pos h1]
    refine Or.inr ⟨64 + v, ?_, ?_, by omega, by omega⟩
    · have : toChar (64 + (v : Int)) = 64 + v := by unfold toChar; omega
      rw [this]
    · unfold decryptText.unescape
      rw [if_neg (by omega), if_neg (by omega), schar_of_lt _ (by omega)]
      unfold toChar
      omega
  · rw [if_neg h1]
    by_cases h2 : (v : Int) = 127
    · rw [if_pos h2]
      refine Or.inr ⟨38, rfl, ?_, by omega, by omega⟩
      unfold decryptText.unescape
      simp only [if_neg (show ¬ (38 : Nat) = 43 by decide), if_true]
      omega
    · rw [if_neg h2]
      by_cases h3 : (v : Int) = 43
      · rw [if_pos h3]
        refine Or.inr ⟨43, rfl, ?_, by omega, by omega⟩
        unfold decryptText.unescape
        simp only [if_true]
        omega
      · rw [if_neg h3]
        exact Or.inl ⟨rfl, by omega, by omega, by omega⟩

theorem encryptText.formatByte_printable (v : Nat) (hv : v < 128) :
    (1 ≤ (encryptText.formatByte v).length ∧ (encryptText.formatByte v).length ≤ 2) ∧
      ∀ b ∈ encryptText.formatByte v, 32 ≤ b ∧ b ≤ 126 := by
  rcases encryptText.formatByte_cases v hv with ⟨h, -, h1, h2⟩ | ⟨p, h, -, h1, h2⟩
  · rw [h]
    refine ⟨by simp, ?_⟩
    intro b hb
    rw [List.mem_singleton] at hb
    subst hb
    exact ⟨h1, h2⟩
  · rw [h]
    refine ⟨by simp, ?_⟩
    intro b hb
    simp only [List.mem_cons, List.mem_singleton, List.not_mem_nil, or_false] at hb
    rcases hb with rfl | rfl
    · omega
    · exact ⟨h1, h2⟩

theorem printString_of_ne_zero (s : List Nat) (k : Nat) (h : ∀ b ∈ s, b ≠ 0) :
    printString (s ++ List.replicate k 0) = s := by
  unfold printString
  induction s with
  | nil => cases k <;> simp [List.replicate, List.takeWhile]
  | cons a t ih =>
    have ha : a ≠ 0 := h a (List.mem_cons_self _ _)
    simp only [List.cons_append, List.takeWhile_cons, bne_iff_ne, ne_eq, ha, not_false_eq_true,
      ↓reduceIte, List.cons.injEq, true_and]
    exact ih (fun f hf => h f (List.mem_cons_of_mem _ hf))

theorem encrypt_permute_getD_lt (builtMap data : List Nat) (i : Nat) :
    (encryptText.permute builtMap data).getD i 0 < 128 := by
  by_cases h : i < (encryptText.permute builtMap data).length
  · rw [List.getD_eq_getElem _ _ h]
    exact encrypt_permute_lt builtMap data _ (List.getElem_mem _)
  · rw [List.getD_eq_default _ _ (by omega)]
    omega

theorem encryptText.format_printable (builtMap data : List Nat) :
    (4 ≤ (encryptText.format (encryptText.permute builtMap data)).length ∧
      (encryptText.format (encryptText.permute builtMap data)).length ≤ 8) ∧
    ∀ b ∈ encryptText.format (encryptText.permute builtMap data), 32 ≤ b ∧ b ≤ 126 := by
  rw [encryptText.format_eq]
  have h0 := encryptText.formatByte_printable _ (encrypt_permute_getD_lt builtMap data 0)
  have h1 := encryptText.formatByte_printable _ (encrypt_permute_getD_lt builtMap data 1)
  have h2 := encryptText.formatByte_printable _ (encrypt_permute_getD_lt builtMap data 2)
  have h3 := encryptText.formatByte_printable _ (encrypt_permute_getD_lt builtMap data 3)
  refine ⟨by simp only [List.length_append]; omega, ?_⟩
  intro b hb
  simp only [List.mem_append] at hb
  rcases hb with ((hb | hb) | hb) | hb
  · exact h0.2 b hb
  · exact h1.2 b hb
  · exact h2.2 b hb
  · exact h3.2 b hb

/-- What `encryptText` writes for a block that is not all zero: the escaped forms of the four
encrypted bytes, in order. -/
theorem encryptText_output (builtMap data : List Nat) (hne : emptyData data = false) :
    encryptText builtMap data
      = (OK, encryptText.format (encryptText.permute builtMap data)) := by
  unfold encryptText
  rw [hne]
  simp only [Bool.false_eq_true, if_false]
  rw [printString_of_ne_zero]
  intro b hb
  have := (encryptText.format_printable builtMap data).2 b hb
  omega

/-- C7: for every encrypted byte `v` in `[0, 127]` the formatting loop of `encryptText`
appends `'+'` and `'@' + v` when `v` is in `[0, 31]`, `"+&"` when `v = 127`, `"++"` when
`v = '+'`, and `v` itself for every other `v` in `[32, 126]`; the text written for a block
that is not all zero is the four encodings of the encrypted bytes, in byte order. -/
theorem encryptText_escaping_alphabet (v : Nat) (hv : v ≤ 127) :
    (v ≤ 31 → encryptText.formatByte v = [43, 64 + v]) ∧
    (v = 127 → encryptText.formatByte v = [43, 38]) ∧
    (v = 43 → encryptText.formatByte v = [43, 43]) ∧
    (32 ≤ v → v ≤ 126 → v ≠ 43 → encryptText.formatByte v = [v]) ∧
    (∀ builtMap data : List Nat, emptyData data = false →
      (encryptText builtMap data).2
        = encryptText.formatByte ((encryptText.permute builtMap data).getD 0 0)
          ++ encryptText.formatByte ((encryptText.permute builtMap data).getD 1 0)
          ++ encryptText.formatByte ((encryptText.permute builtMap data).getD 2 0)
          ++ encryptText.formatByte ((encryptText.permute builtMap data).getD 3 0)) := by
  have hs : schar v = (v : Int) := schar_of_lt v (by omega)
  refine ⟨?_, ?_, ?_, ?_, ?_⟩
  · intro h
    unfold encryptText.formatByte
    rw [hs, if_pos (by omega)]
    have : toChar (64 + (v : Int)) = 64 + v := by unfold toChar; omega
    rw [this]
  · intro h
    unfold encryptText.formatByte
    rw [hs, if_neg (by omega), if_pos (by omega)]
  · intro h
    unfold encryptText.formatByte
    rw [hs, if_neg (by omega), if_neg (by omega), if_pos (by omega)]
  · intro h1 h2 h3
    unfold encryptText.formatByte
    rw [hs, if_neg (by omega), if_neg (by omega), if_neg (by omega)]
  · intro builtMap data hne
    rw [encryptText_output builtMap data hne, encryptText.format_eq]

/-- Witness for C7 at the byte `v = 5`, whose escaped form is `"+E"`. -/
theorem encryptText_escaping_alphabet_witness :
    (5 : Nat) ≤ 127 ∧ encryptText.formatByte 5 = [43, 64 + 5] :=
  ⟨by decide, (encryptText_escaping_alphabet 5 (by decide)).1 (by decide)⟩

/-- C8: for every data block of four bytes in `[0, 127]` that is not all zero and every
`builtMap` that is a permutation of `0..27`, `encryptText` returns `OK` and the text it
writes is 4 to 8 bytes long, all of them printable ASCII. -/
theorem encryptText_printable (builtMap : List Nat) (d0 d1 d2 d3 : Nat)
    (_hperm : List.Perm builtMap (List.range 28))
    (_h0 : d0 ≤ 127) (_h1 : d1 ≤ 127) (_h2 : d2 ≤ 127) (_h3 : d3 ≤ 127)
    (hne : ¬ (d0 = 0 ∧ d1 = 0 ∧ d2 = 0 ∧ d3 = 0)) :
    (encryptText builtMap [d0, d1, d2, d3, 0]).1 = OK ∧
    4 ≤ (encryptText builtMap [d0, d1, d2, d3, 0]).2.length ∧
    (encryptText builtMap [d0, d1, d2, d3, 0]).2.length ≤ 8 ∧
    ∀ b ∈ (encryptText builtMap [d0, d1, d2, d3, 0]).2, 32 ≤ b ∧ b ≤ 126 := by
  have hempty : emptyData [d0, d1, d2, d3, 0] = false := by
    unfold emptyData
    rw [range_four]
    simp only [List.all_cons, List.all_nil, List.getD_cons_zero, List.getD_cons_succ,
      Bool.and_true, Bool.and_eq_false_imp, beq_iff_eq, beq_eq_false_iff_ne, ne_eq]
    intro a b c d
    exact hne ⟨a, b, c, d⟩
  rw [encryptText_output builtMap _ hempty]
  have := encryptText.format_printable builtMap [d0, d1, d2, d3, 0]
  exact ⟨rfl, this.1.1, this.1.2, this.2⟩

/-- Witness for C8: the block `"This"` under the first permutation of the key
`m = 38875`, `c = 1234`. -/
theorem encryptText_printable_witness :
    (encryptText [2, 21, 5, 8, 27, 0, 7, 26, 11, 19, 6, 10, 3, 4, 23, 24, 17, 12, 18, 16, 15,
        25, 22, 9, 14, 20, 1, 13] [84, 104, 105, 115, 0]).1 = OK ∧
    4 ≤ (encryptText [2, 21, 5, 8, 27, 0, 7, 26, 11, 19, 6, 10, 3, 4, 23, 24, 17, 12, 18, 16,
        15, 25, 22, 9, 14, 20, 1, 13] [84, 104, 105, 115, 0]).2.length ∧
    (encryptText [2, 21, 5, 8, 27, 0, 7, 26, 11, 19, 6, 10, 3, 4, 23, 24, 17, 12, 18, 16, 15,
        25, 22, 9, 14, 20, 1, 13] [84, 104, 105, 115, 0]).2.length ≤ 8 ∧
    ∀ b ∈ (encryptText [2, 21, 5, 8, 27, 0, 7, 26, 11, 19, 6, 10, 3, 4, 23, 24, 17, 12, 18, 16,
        15, 25, 22, 9, 14, 20, 1, 13] [84, 104, 105, 115, 0]).2, 32 ≤ b ∧ b ≤ 126 :=
  encryptText_printable _ 84 104 105 115 (by decide) (by decide) (by decide) (by decide)
    (by decide) (by decide)


/-! ## The un-escaping and the validation of `decryptText` -/

set_option maxRecDepth 100000 in
/-- C9: the bytes that the formatting loop of `encryptText` is given as block bytes are the
bytes of `encrypted`, in which the bit loop sets only the bits 0 to 6 of cleared bytes, so
they lie in `[0, 127]`.  For every such byte value `v` the un-escape loop of `decryptText`
recovers `v` from the escaped form that the formatting loop produces, both when the escaped
form lies inside the block and when its second byte is pulled from the input; and each byte
`'+'` of the escaped form is the first byte of a two-byte escape or the second byte of
`"++"`. -/
theorem escape_round_trip (v : Nat) (hv : v ≤ 127) :
    decryptText.decodeFirst (encryptText.formatByte v) = v ∧
    decryptText.decodeLast (encryptText.formatByte v) = v ∧
    (∀ k, k < (encryptText.formatByte v).length → (encryptText.formatByte v).getD k 0 = 43 →
      ((encryptText.formatByte v).length = 2 ∧ k = 0) ∨ encryptText.formatByte v = [43, 43]) ∧
    (∀ (builtMap data : List Nat) (j : Nat),
      (encryptText.permute builtMap data).getD j 0 ≤ 127) := by
  have h1 : ∀ v, v < 128 →
      decryptText.decodeFirst (encryptText.formatByte v) = v ∧
      decryptText.decodeLast (encryptText.formatByte v) = v := by
    decide
  have h2 : ∀ v, v < 128 → (∀ k, k < (encryptText.formatByte v).length →
      ((encryptText.formatByte v).getD k 0 = 43 →
        ((encryptText.formatByte v).length = 2 ∧ k = 0) ∨
          encryptText.formatByte v = [43, 43])) := by
    decide
  have hlt : v < 128 := by omega
  refine ⟨(h1 v hlt).1, (h1 v hlt).2, h2 v hlt, ?_⟩
  intro builtMap data j
  have := encrypt_permute_getD_lt builtMap data j
  omega

set_option maxRecDepth 100000 in
/-- Witness for C9 at the byte `v = 127`, escaped as `"+&"`. -/
theorem escape_round_trip_witness :
    decryptText.decodeFirst (encryptText.formatByte 127) = 127 ∧
    decryptText.decodeLast (encryptText.formatByte 127) = 127 ∧
    (∀ k, k < (encryptText.formatByte 127).length →
      (encryptText.formatByte 127).getD k 0 = 43 →
      ((encryptText.formatByte 127).length = 2 ∧ k = 0) ∨
        encryptText.formatByte 127 = [43, 43]) ∧
    (∀ (builtMap data : List Nat) (j : Nat),
      (encryptText.permute builtMap data).getD j 0 ≤ 127) :=
  escape_round_trip 127 (by decide)


theorem decrypt_permute_getD_lt (builtMap decrypted : List Nat) (i : Nat) :
    (decryptText.permute builtMap decrypted).getD i 0 < 128 := by
  by_cases h : i < (decryptText.permute builtMap decrypted).length
  · rw [List.getD_eq_getElem _ _ h]
    exact decrypt_permute_lt builtMap decrypted _ (List.getElem_mem _)
  · rw [List.getD_eq_default _ _ (by omega)]
    omega

/-- The fifth byte of `decrypted_formatted` stays zero. -/
theorem decrypt_permute_getD_four (builtMap decrypted : List Nat) :
    (decryptText.permute builtMap decrypted).getD 4 0 = 0 := by
  apply Nat.eq_of_testBit_eq
  intro j
  rw [Nat.zero_testBit]
  by_cases hj : j < 7
  · have := decrypt_bitAt_permute builtMap decrypted (28 + j)
    unfold bitAt at this
    have hdiv : (28 + j) / 7 = 4 := by omega
    have hmod : (28 + j) % 7 = j := by omega
    rw [hdiv, hmod, isBitSet_eq_testBit] at this
    rw [this]
    simp
  · have hpow : (128 : Nat) ≤ 2 ^ j := by
      calc (128 : Nat) = 2 ^ 7 := rfl
        _ ≤ 2 ^ j := Nat.pow_le_pow_right (by omega) (by omega)
    exact Nat.testBit_lt_two_pow
      (lt_of_lt_of_le (decrypt_permute_getD_lt builtMap decrypted 4) hpow)

theorem decryptText.outOfRange_iff (formatted : List Nat)
    (hlt : ∀ i, formatted.getD i 0 < 128) :
    decryptText.outOfRange formatted = true ↔
      ∃ i, i < 4 ∧ ((1 ≤ formatted.getD i 0 ∧ formatted.getD i 0 ≤ 31)
        ∨ formatted.getD i 0 = 127) := by
  unfold decryptText.outOfRange
  simp only [List.any_eq_true, List.mem_range, decide_eq_true_eq]
  constructor
  · rintro ⟨i, hi, h⟩
    rw [schar_of_lt _ (hlt i)] at h
    exact ⟨i, hi, by omega⟩
  · rintro ⟨i, hi, h⟩
    refine ⟨i, hi, ?_⟩
    rw [schar_of_lt _ (hlt i)]
    omega

theorem OK_ne_ERROR : OK ≠ ERROR := by decide

/-- What `decryptText` does with a block that is not all zero. -/
theorem decryptText_eq (builtMap data input : List Nat) (hne : emptyData data = false) :
    decryptText builtMap data input
      = if decryptText.outOfRange
            (decryptText.permute builtMap (decryptText.unescapeAll data input).2.1) then
          (ERROR, [], (decryptText.unescapeAll data input).2.2)
        else
          (OK, printString
              (decryptText.permute builtMap (decryptText.unescapeAll data input).2.1),
            (decryptText.unescapeAll data input).2.2) := by
  unfold decryptText
  rw [hne]
  simp only [Bool.false_eq_true, if_false]

/-- C10: for every data block that is not all zero and every `builtMap`, `decryptText`
returns `ERROR` exactly when one of the four bytes of the inverse-permuted block lies in
`[1, 31]` or equals 127, and it returns `OK` otherwise; when it returns `ERROR` it writes
nothing, and when it returns `OK` every byte it writes lies in `[32, 126]`. -/
theorem decryptText_validation (builtMap data input : List Nat)
    (hne : emptyData data = false) :
    ((decryptText builtMap data input).1 = ERROR ↔
      ∃ i, i < 4 ∧
        ((1 ≤ (decryptText.permute builtMap (decryptText.unescapeAll data input).2.1).getD i 0 ∧
          (decryptText.permute builtMap (decryptText.unescapeAll data input).2.1).getD i 0 ≤ 31)
        ∨ (decryptText.permute builtMap (decryptText.unescapeAll data input).2.1).getD i 0
            = 127)) ∧
    ((decryptText builtMap data input).1 = ERROR ∨ (decryptText builtMap data input).1 = OK) ∧
    ((decryptText builtMap data input).1 = ERROR → (decryptText builtMap data input).2.1 = []) ∧
    ((decryptText builtMap data input).1 = OK →
      ∀ b ∈ (decryptText builtMap data input).2.1, 32 ≤ b ∧ b ≤ 126) := by
  have hiff := decryptText.outOfRange_iff
    (decryptText.permute builtMap (decryptText.unescapeAll data input).2.1)
    (decrypt_permute_getD_lt builtMap _)
  rw [decryptText_eq builtMap data input hne]
  cases hout : decryptText.outOfRange
    (decryptText.permute builtMap (decryptText.unescapeAll data input).2.1)
  · rw [if_neg Bool.false_ne_true]
    rw [hout] at hiff
    refine ⟨?_, Or.inr rfl, ?_, ?_⟩
    · constructor
      · intro h; exact absurd h OK_ne_ERROR
      · intro h; exact absurd (hiff.2 h) (by decide)
    · intro h; exact absurd h OK_ne_ERROR
    · intro _ b hb
      unfold printString at hb
      have hb0 : b ≠ 0 := by
        have := List.mem_takeWhile_imp hb
        simpa using this
      have hmem := List.takeWhile_subset _ hb
      obtain ⟨i, hi, hget⟩ := List.getElem_of_mem hmem
      rw [decrypt_permute_length] at hi
      have hgetD : (decryptText.permute builtMap
          (decryptText.unescapeAll data input).2.1).getD i 0 = b := by
        rw [List.getD_eq_getElem _ _ (by rw [decrypt_permute_length]; exact hi)]
        exact hget
      have hlt := decrypt_permute_getD_lt builtMap (decryptText.unescapeAll data input).2.1 i
      rw [hgetD] at hlt
      by_cases h4 : i = 4
      · subst h4
        rw [decrypt_permute_getD_four] at hgetD
        exact absurd hgetD.symm hb0
      · have hnot : ¬ ((1 ≤ b ∧ b ≤ 31) ∨ b = 127) := by
          intro hcon
          exact absurd (hiff.2 ⟨i, by omega, hgetD.symm ▸ hcon⟩) (by decide)
        omega
  · rw [if_pos rfl]
    rw [hout] at hiff
    refine ⟨?_, Or.inl rfl, ?_, ?_⟩
    · exact ⟨fun _ => hiff.1 rfl, fun _ => rfl⟩
    · intro _; rfl
    · intro h; exact absurd h.symm OK_ne_ERROR

set_option maxRecDepth 100000 in
/-- Witness for C10: the first cipher block `"zaFV"` of the example record. -/
theorem decryptText_validation_witness :
    emptyData [122, 97, 70, 86, 0] = false ∧
    (decryptText [2, 21, 5, 8, 27, 0, 7, 26, 11, 19, 6, 10, 3, 4, 23, 24, 17, 12, 18, 16, 15,
        25, 22, 9, 14, 20, 1, 13] [122, 97, 70, 86, 0] [10]).1 = OK ∧
    ∀ b ∈ (decryptText [2, 21, 5, 8, 27, 0, 7, 26, 11, 19, 6, 10, 3, 4, 23, 24, 17, 12, 18,
        16, 15, 25, 22, 9, 14, 20, 1, 13] [122, 97, 70, 86, 0] [10]).2.1, 32 ≤ b ∧ b ≤ 126 :=
  ⟨by decide, by decide,
    (decryptText_validation _ [122, 97, 70, 86, 0] [10] (by decide)).2.2.2 (by decide)⟩

/-! ## The un-escape loop stays aligned with the input -/

theorem decryptText.shift_zero (a b c d e : Nat) :
    decryptText.shift [a, b, c, d, e] 0 = [a, c, d, e, e] := rfl

theorem decryptText.shift_one (a b c d e : Nat) :
    decryptText.shift [a, b, c, d, e] 1 = [a, b, d, e, e] := rfl

theorem decryptText.shift_two (a b c d e : Nat) :
    decryptText.shift [a, b, c, d, e] 2 = [a, b, c, e, e] := rfl

theorem getchar_cons (b : Nat) (rest : List Nat) : getchar (b :: rest) = ((b : Int), rest) := rfl

theorem toChar_plus : toChar ((43 : Nat) : Int) = 43 := by decide

theorem encryptText.formatByte_shape (v : Nat) (hv : v < 128) :
    (encryptText.formatByte v = [v] ∧ v ≠ 43) ∨
    (∃ p, encryptText.formatByte v = [43, p] ∧ decryptText.unescape p = v ∧
      toChar (p : Int) = p) := by
  rcases encryptText.formatByte_cases v hv with ⟨h, hne, -, -⟩ | ⟨p, h, hu, -, hp⟩
  · exact Or.inl ⟨h, hne⟩
  · exact Or.inr ⟨p, h, hu, toChar_natCast p (by omega)⟩

/-- The un-escape loop, run on the first four bytes of the escaped form of a block with the
rest as pending input, rebuilds the block and leaves what follows the escaped form unread. -/
theorem decryptText.unescapeAll_format (c0 c1 c2 c3 : Nat) (S : List Nat)
    (h0 : c0 < 128) (h1 : c1 < 128) (h2 : c2 < 128) (h3 : c3 < 128) :
    (decryptText.unescapeAll
      ((encryptText.format [c0, c1, c2, c3, 0]).take 4 ++ [0])
      ((encryptText.format [c0, c1, c2, c3, 0]).drop 4 ++ S)).2
      = ([c0, c1, c2, c3, 0], S) := by
  rw [encryptText.format_eq]
  simp only [List.getD_cons_zero, List.getD_cons_succ]
  have t0 := toChar_natCast c0 (by omega)
  have t1 := toChar_natCast c1 (by omega)
  have t2 := toChar_natCast c2 (by omega)
  have t3 := toChar_natCast c3 (by omega)
  rcases encryptText.formatByte_shape c0 h0 with ⟨e0, n0⟩ | ⟨p0, e0, u0, q0⟩ <;>
  rcases encryptText.formatByte_shape c1 h1 with ⟨e1, n1⟩ | ⟨p1, e1, u1, q1⟩ <;>
  rcases encryptText.formatByte_shape c2 h2 with ⟨e2, n2⟩ | ⟨p2, e2, u2, q2⟩ <;>
  rcases encryptText.formatByte_shape c3 h3 with ⟨e3, n3⟩ | ⟨p3, e3, u3, q3⟩ <;>
  rw [e0, e1, e2, e3] <;>
  simp only [decryptText.unescapeAll, range_four, List.foldl_cons, List.foldl_nil,
    decryptText.unescapeStep, List.cons_append, List.nil_append, List.take_succ_cons,
    List.take_zero, List.drop_succ_cons, List.drop_zero, List.getD_cons_zero,
    List.getD_cons_succ, List.replicate, List.set_cons_zero, List.set_cons_succ,
    decryptText.shift_zero, decryptText.shift_one, decryptText.shift_two, getchar_cons,
    toChar_plus, if_true, if_false, Nat.lt_irrefl, Nat.reduceLT, Nat.reduceAdd, *]


/-! ## Reading blocks -/

theorem readDataBlock.loop_printable (i : Nat) (is data rest : List Nat) (b : Nat)
    (h1 : 32 ≤ b) (h2 : b ≤ 126) :
    readDataBlock.loop (i :: is) data (b :: rest) = readDataBlock.loop is (data.set i b) rest := by
  have ht : toChar (b : Int) = b := toChar_natCast b (by omega)
  have hs : schar b = (b : Int) := schar_of_lt b (by omega)
  rw [readDataBlock.loop]
  simp only [getchar_cons, ht, hs]
  rw [if_neg (by omega), if_neg (by omega)]
  have : isascii (b : Int) = true := by
    unfold isascii
    simp only [decide_eq_true_eq]
    omega
  rw [this]
  simp only [Bool.not_true, Bool.false_eq_true, if_false]

theorem readDataBlock.loop_newline (i : Nat) (is data rest : List Nat) :
    readDataBlock.loop (i :: is) data (10 :: rest) = (END_OF_LINE, data, rest) := by
  rw [readDataBlock.loop]
  have : toChar (getchar (10 :: rest)).1 = 10 := by
    rw [getchar_cons]
    exact toChar_natCast 10 (by decide)
  rw [if_pos this]
  rfl

/-- Four printable bytes are read as a full block. -/
theorem readDataBlock_full (a b c d : Nat) (rest : List Nat)
    (ha : 32 ≤ a ∧ a ≤ 126) (hb : 32 ≤ b ∧ b ≤ 126) (hc : 32 ≤ c ∧ c ≤ 126)
    (hd : 32 ≤ d ∧ d ≤ 126) :
    readDataBlock (a :: b :: c :: d :: rest) = (OK, [a, b, c, d, 0], rest) := by
  unfold readDataBlock
  rw [range_four, readDataBlock.loop_printable _ _ _ _ a ha.1 ha.2,
    readDataBlock.loop_printable _ _ _ _ b hb.1 hb.2,
    readDataBlock.loop_printable _ _ _ _ c hc.1 hc.2,
    readDataBlock.loop_printable _ _ _ _ d hd.1 hd.2]
  rfl

theorem readDataBlock_newline (rest : List Nat) :
    readDataBlock (10 :: rest) = (END_OF_LINE, [0, 0, 0, 0, 0], rest) := by
  unfold readDataBlock
  rw [range_four, readDataBlock.loop_newline]
  rfl

theorem readDataBlock_one (a : Nat) (rest : List Nat) (ha : 32 ≤ a ∧ a ≤ 126) :
    readDataBlock (a :: 10 :: rest) = (END_OF_LINE, [a, 0, 0, 0, 0], rest) := by
  unfold readDataBlock
  rw [range_four, readDataBlock.loop_printable _ _ _ _ a ha.1 ha.2, readDataBlock.loop_newline]
  rfl

theorem readDataBlock_two (a b : Nat) (rest : List Nat) (ha : 32 ≤ a ∧ a ≤ 126)
    (hb : 32 ≤ b ∧ b ≤ 126) :
    readDataBlock (a :: b :: 10 :: rest) = (END_OF_LINE, [a, b, 0, 0, 0], rest) := by
  unfold readDataBlock
  rw [range_four, readDataBlock.loop_printable _ _ _ _ a ha.1 ha.2,
    readDataBlock.loop_printable _ _ _ _ b hb.1 hb.2, readDataBlock.loop_newline]
  rfl

theorem readDataBlock_three (a b c : Nat) (rest : List Nat) (ha : 32 ≤ a ∧ a ≤ 126)
    (hb : 32 ≤ b ∧ b ≤ 126) (hc : 32 ≤ c ∧ c ≤ 126) :
    readDataBlock (a :: b :: c :: 10 :: rest) = (END_OF_LINE, [a, b, c, 0, 0], rest) := by
  unfold readDataBlock
  rw [range_four, readDataBlock.loop_printable _ _ _ _ a ha.1 ha.2,
    readDataBlock.loop_printable _ _ _ _ b hb.1 hb.2,
    readDataBlock.loop_printable _ _ _ _ c hc.1 hc.2, readDataBlock.loop_newline]
  rfl

/-! ## One block, encrypted and decrypted again -/

theorem emptyData_of_ne (a b c d e : Nat) (ha : a ≠ 0) : emptyData [a, b, c, d, e] = false := by
  unfold emptyData
  rw [range_four]
  simp [ha]

/-- The fifth byte of `encrypted` stays zero. -/
theorem encrypt_permute_getD_four (builtMap data : List Nat)
    (hlt : ∀ i, i < 28 → builtMap.getD i 0 < 28) :
    (encryptText.permute builtMap data).getD 4 0 = 0 := by
  apply Nat.eq_of_testBit_eq
  intro j
  rw [Nat.zero_testBit]
  by_cases hj : j < 7
  · have := encrypt_bitAt_permute builtMap data hlt (28 + j)
    unfold bitAt at this
    have hdiv : (28 + j) / 7 = 4 := by omega
    have hmod : (28 + j) % 7 = j := by omega
    rw [hdiv, hmod, isBitSet_eq_testBit] at this
    rw [this]
    rw [Bool.eq_false_iff]
    intro hcon
    simp only [List.any_eq_true, List.mem_range, Bool.and_eq_true, decide_eq_true_eq] at hcon
    obtain ⟨i, hi, -, heq⟩ := hcon
    have := hlt i hi
    omega
  · have hpow : (128 : Nat) ≤ 2 ^ j := by
      calc (128 : Nat) = 2 ^ 7 := rfl
        _ ≤ 2 ^ j := Nat.pow_le_pow_right (by omega) (by omega)
    exact Nat.testBit_lt_two_pow
      (lt_of_lt_of_le (encrypt_permute_getD_lt builtMap data 4) hpow)

theorem list_five (l : List Nat) (h : l.length = 5) :
    l = [l.getD 0 0, l.getD 1 0, l.getD 2 0, l.getD 3 0, l.getD 4 0] := by
  rcases l with _ | ⟨a, _ | ⟨b, _ | ⟨c, _ | ⟨d, _ | ⟨e, _ | ⟨f, t⟩⟩⟩⟩⟩⟩ <;>
    simp at h
  rfl

/-- The cipher text of one block is read back as a full block, and decrypting it gives the
data back: the status is `OK` when no data byte is in `[1, 31]` or 127, the text written is
the data up to its first zero byte, and the input after the cipher text is left unread. -/
theorem block_round_trip (builtMap : List Nat) (hperm : List.Perm builtMap (List.range 28))
    (d0 d1 d2 d3 : Nat) (S : List Nat)
    (h0 : d0 < 128) (h1 : d1 < 128) (h2 : d2 < 128) (h3 : d3 < 128) (hne : d0 ≠ 0)
    (hok : decryptText.outOfRange [d0, d1, d2, d3, 0] = false) :
    4 ≤ (encryptText builtMap [d0, d1, d2, d3, 0]).2.length ∧
    (∀ b ∈ (encryptText builtMap [d0, d1, d2, d3, 0]).2, 32 ≤ b ∧ b ≤ 126) ∧
    main.block 1 builtMap ((encryptText builtMap [d0, d1, d2, d3, 0]).2 ++ S)
      = (OK, printString [d0, d1, d2, d3, 0], S) := by
  have hempty := emptyData_of_ne d0 d1 d2 d3 0 hne
  rw [encryptText_output builtMap _ hempty]
  have hfmt := encryptText.format_printable builtMap [d0, d1, d2, d3, 0]
  refine ⟨hfmt.1.1, hfmt.2, ?_⟩
  have hc : encryptText.permute builtMap [d0, d1, d2, d3, 0]
      = [(encryptText.permute builtMap [d0, d1, d2, d3, 0]).getD 0 0,
         (encryptText.permute builtMap [d0, d1, d2, d3, 0]).getD 1 0,
         (encryptText.permute builtMap [d0, d1, d2, d3, 0]).getD 2 0,
         (encryptText.permute builtMap [d0, d1, d2, d3, 0]).getD 3 0, 0] := by
    have := list_five _ (encrypt_permute_length builtMap [d0, d1, d2, d3, 0])
    rw [encrypt_permute_getD_four builtMap _ (perm_lt builtMap hperm)] at this
    exact this
  have halign := decryptText.unescapeAll_format _ _ _ _ S
    (encrypt_permute_getD_lt builtMap [d0, d1, d2, d3, 0] 0)
    (encrypt_permute_getD_lt builtMap [d0, d1, d2, d3, 0] 1)
    (encrypt_permute_getD_lt builtMap [d0, d1, d2, d3, 0] 2)
    (encrypt_permute_getD_lt builtMap [d0, d1, d2, d3, 0] 3)
  rw [← hc] at halign
  have hback := decrypt_encrypt_bits builtMap [d0, d1, d2, d3, 0] hperm rfl rfl (by
    intro b hb
    simp only [List.mem_cons, List.mem_singleton, List.not_mem_nil, or_false] at hb
    rcases hb with rfl | rfl | rfl | rfl | rfl <;> omega)
  generalize encryptText.format (encryptText.permute builtMap [d0, d1, d2, d3, 0]) = e
    at hfmt halign
  obtain ⟨a, b, c, d, t, rfl⟩ : ∃ a b c d t, e = a :: b :: c :: d :: t := by
    rcases e with _ | ⟨a, _ | ⟨b, _ | ⟨c, _ | ⟨d, t⟩⟩⟩⟩
    · simp at hfmt
    · simp at hfmt
    · simp at hfmt
    · simp at hfmt
    · exact ⟨a, b, c, d, t, rfl⟩
  have ha := hfmt.2 a (by simp)
  have hb := hfmt.2 b (by simp)
  have hcc := hfmt.2 c (by simp)
  have hd := hfmt.2 d (by simp)
  simp only [List.take_succ_cons, List.take_zero, List.drop_succ_cons, List.drop_zero,
    List.cons_append, List.nil_append] at halign
  have hread : readDataBlock (a :: b :: c :: d :: t ++ S) = (OK, [a, b, c, d, 0], t ++ S) :=
    readDataBlock_full a b c d (t ++ S) ha hb hcc hd
  have hdec : decryptText builtMap [a, b, c, d, 0] (t ++ S)
      = (OK, printString [d0, d1, d2, d3, 0], S) := by
    rw [decryptText_eq builtMap _ _ (emptyData_of_ne a b c d 0 (by omega))]
    have h1 : (decryptText.unescapeAll [a, b, c, d, 0] (t ++ S)).2.1
        = encryptText.permute builtMap [d0, d1, d2, d3, 0] := by rw [halign]
    have h2 : (decryptText.unescapeAll [a, b, c, d, 0] (t ++ S)).2.2 = S := by rw [halign]
    rw [h1, h2, hback, hok]
    simp only [Bool.false_eq_true, if_false]
  unfold main.block
  rw [hread]
  simp only [hdec]
  rfl


/-! ## The block loop of `main`: a record, encrypted and decrypted again -/

theorem buildMap.draw_fold_lcg_m (is : List Nat) : ∀ (s : List Nat × LCG),
    (is.foldl buildMap.draw s).2.lcg_m = s.2.lcg_m := by
  induction is with
  | nil => intro s; rfl
  | cons i is ih => intro s; rw [List.foldl_cons, ih]; rfl

theorem buildMap.computeG_lcg_m (st : LCG) : (buildMap.computeG st).2.lcg_m = st.lcg_m :=
  buildMap.draw_fold_lcg_m _ _

theorem encryptText_status (builtMap data : List Nat) : (encryptText builtMap data).1 = OK := by
  unfold encryptText
  split <;> rfl

theorem decryptText.outOfRange_false (a b c d : Nat)
    (ha : a = 0 ∨ (32 ≤ a ∧ a ≤ 126)) (hb : b = 0 ∨ (32 ≤ b ∧ b ≤ 126))
    (hc : c = 0 ∨ (32 ≤ c ∧ c ≤ 126)) (hd : d = 0 ∨ (32 ≤ d ∧ d ≤ 126)) :
    decryptText.outOfRange [a, b, c, d, 0] = false := by
  have sa : schar a = (a : Int) := schar_of_lt a (by omega)
  have sb : schar b = (b : Int) := schar_of_lt b (by omega)
  have sc : schar c = (c : Int) := schar_of_lt c (by omega)
  have sd : schar d = (d : Int) := schar_of_lt d (by omega)
  unfold decryptText.outOfRange
  rw [range_four]
  simp only [List.any_cons, List.any_nil, List.getD_cons_zero, List.getD_cons_succ, sa, sb, sc,
    sd, Bool.or_false, Bool.or_eq_false_iff, decide_eq_false_iff_not]
  omega

theorem main.block_encrypt_full (builtMap : List Nat) (a b c d : Nat) (rest : List Nat)
    (ha : 32 ≤ a ∧ a ≤ 126) (hb : 32 ≤ b ∧ b ≤ 126) (hc : 32 ≤ c ∧ c ≤ 126)
    (hd : 32 ≤ d ∧ d ≤ 126) :
    main.block 0 builtMap (a :: b :: c :: d :: rest)
      = (OK, (encryptText builtMap [a, b, c, d, 0]).2, rest) := by
  unfold main.block
  rw [readDataBlock_full a b c d rest ha hb hc hd]
  simp only [encryptText_status]
  rfl

theorem encryptText_empty (builtMap : List Nat) :
    encryptText builtMap [0, 0, 0, 0, 0] = (OK, []) := by
  unfold encryptText
  rw [if_pos (by decide)]

theorem decryptText_empty (builtMap input : List Nat) :
    decryptText builtMap [0, 0, 0, 0, 0] input = (OK, [], input) := by
  unfold decryptText
  rw [if_pos (by decide)]

theorem main.block_newline (cipher_mode : Nat) (builtMap rest : List Nat) :
    main.block cipher_mode builtMap (10 :: rest) = (3, [], rest) := by
  unfold main.block
  rw [readDataBlock_newline]
  have h1 : (END_OF_LINE &&& ERROR = 0) := by decide
  have h2 : END_OF_LINE ||| OK = 3 := by decide
  by_cases h : cipher_mode = 0
  · simp only [h1, if_true, if_pos h, encryptText_empty, h2]
  · simp only [h1, if_true, if_neg h, decryptText_empty, h2]

theorem main.block_encrypt_one (builtMap : List Nat) (a : Nat) (rest : List Nat)
    (ha : 32 ≤ a ∧ a ≤ 126) :
    main.block 0 builtMap (a :: 10 :: rest)
      = (3, (encryptText builtMap [a, 0, 0, 0, 0]).2, rest) := by
  unfold main.block
  rw [readDataBlock_one a rest ha]
  simp only [encryptText_status]
  rfl

theorem main.block_encrypt_two (builtMap : List Nat) (a b : Nat) (rest : List Nat)
    (ha : 32 ≤ a ∧ a ≤ 126) (hb : 32 ≤ b ∧ b ≤ 126) :
    main.block 0 builtMap (a :: b :: 10 :: rest)
      = (3, (encryptText builtMap [a, b, 0, 0, 0]).2, rest) := by
  unfold main.block
  rw [readDataBlock_two a b rest ha hb]
  simp only [encryptText_status]
  rfl

theorem main.block_encrypt_three (builtMap : List Nat) (a b c : Nat) (rest : List Nat)
    (ha : 32 ≤ a ∧ a ≤ 126) (hb : 32 ≤ b ∧ b ≤ 126) (hc : 32 ≤ c ∧ c ≤ 126) :
    main.block 0 builtMap (a :: b :: c :: 10 :: rest)
      = (3, (encryptText builtMap [a, b, c, 0, 0]).2, rest) := by
  unfold main.block
  rw [readDataBlock_three a b c rest ha hb hc]
  simp only [encryptText_status]
  rfl

/-- One pass of the block loop that ends the loop. -/
theorem main.blockLoop_last (cipher_mode fuel : Nat) (st st' : LCG)
    (builtMap input output out rest : List Nat) (s : Nat)
    (hmap : buildMap st = some (builtMap, st'))
    (hblock : main.block cipher_mode builtMap input = (s, out, rest)) (hs : s ≠ OK) :
    main.blockLoop cipher_mode (fuel + 1) st input output = some (s, st', rest, output ++ out) := by
  rw [main.blockLoop, hmap]
  simp only [hblock, if_neg hs]

/-- One pass of the block loop that stays in the loop. -/
theorem main.blockLoop_next (cipher_mode fuel : Nat) (st st' : LCG)
    (builtMap input output out rest : List Nat)
    (hmap : buildMap st = some (builtMap, st'))
    (hblock : main.block cipher_mode builtMap input = (OK, out, rest)) :
    main.blockLoop cipher_mode (fuel + 1) st input output
      = main.blockLoop cipher_mode fuel st' rest (output ++ out) := by
  rw [main.blockLoop, hmap]
  simp only [hblock, if_true]

theorem printString_four (a b c d : Nat) (ha : a ≠ 0) (hb : b ≠ 0) (hc : c ≠ 0) (hd : d ≠ 0) :
    printString [a, b, c, d, 0] = [a, b, c, d] := by
  simp [printString, List.takeWhile_cons, ha, hb, hc, hd]

theorem printString_three (a b c : Nat) (ha : a ≠ 0) (hb : b ≠ 0) (hc : c ≠ 0) :
    printString [a, b, c, 0, 0] = [a, b, c] := by
  simp [printString, List.takeWhile_cons, ha, hb, hc]

theorem printString_two (a b : Nat) (ha : a ≠ 0) (hb : b ≠ 0) :
    printString [a, b, 0, 0, 0] = [a, b] := by
  simp [printString, List.takeWhile_cons, ha, hb]

theorem printString_one (a : Nat) (ha : a ≠ 0) :
    printString [a, 0, 0, 0, 0] = [a] := by
  simp [printString, List.takeWhile_cons, ha]

/-- The last, partial block of a record: encrypted in one pass that ends the encrypt loop,
decrypted in one pass followed by the pass that reads the end of the line. -/
theorem main.last_block_round_trip (st : LCG) (hm : 0 < st.lcg_m) (d0 d1 d2 : Nat)
    (plain : List Nat) (h0 : 32 ≤ d0 ∧ d0 ≤ 126)
    (h1 : d1 = 0 ∨ (32 ≤ d1 ∧ d1 ≤ 126)) (h2 : d2 = 0 ∨ (32 ≤ d2 ∧ d2 ≤ 126))
    (hprint : printString [d0, d1, d2, 0, 0] = plain)
    (hblock : ∀ builtMap rest, main.block 0 builtMap (plain ++ 10 :: rest)
      = (3, (encryptText builtMap [d0, d1, d2, 0, 0]).2, rest)) :
    ∃ cipher stE, 4 ≤ cipher.length ∧ (∀ b ∈ cipher, 32 ≤ b ∧ b ≤ 126) ∧
      (∀ fuelE rest outE, 0 < fuelE →
        main.blockLoop 0 fuelE st (plain ++ 10 :: rest) outE
          = some (3, stE, rest, outE ++ cipher)) ∧
      (∀ fuelD rest outD, 1 < fuelD →
        ∃ stD, main.blockLoop 1 fuelD st (cipher ++ 10 :: rest) outD
          = some (3, stD, rest, outD ++ plain)) := by
  obtain ⟨builtMap, hmap, hperm⟩ := buildMap_perm st hm
  have hm' : 0 < (buildMap.computeG st).2.lcg_m := by rw [buildMap.computeG_lcg_m]; exact hm
  obtain ⟨builtMap', hmap', -⟩ := buildMap_perm _ hm'
  have hrt := fun S => block_round_trip builtMap hperm d0 d1 d2 0 S (by omega) (by omega)
    (by omega) (by omega) (by omega)
    (decryptText.outOfRange_false d0 d1 d2 0 (Or.inr h0) h1 h2 (Or.inl rfl))
  refine ⟨(encryptText builtMap [d0, d1, d2, 0, 0]).2, (buildMap.computeG st).2, (hrt []).1,
    (hrt []).2.1, ?_, ?_⟩
  · intro fuelE rest outE hf
    obtain ⟨f, rfl⟩ : ∃ f, fuelE = f + 1 := ⟨fuelE - 1, by omega⟩
    exact main.blockLoop_last 0 f st _ builtMap _ outE _ rest 3 hmap (hblock builtMap rest)
      (by decide)
  · intro fuelD rest outD hf
    obtain ⟨f, rfl⟩ : ∃ f, fuelD = f + 1 + 1 := ⟨fuelD - 2, by omega⟩
    refine ⟨(buildMap.computeG (buildMap.computeG st).2).2, ?_⟩
    rw [main.blockLoop_next 1 (f + 1) st _ builtMap _ outD _ _ hmap (hrt (10 :: rest)).2.2,
      main.blockLoop_last 1 f _ _ builtMap' _ _ _ rest 3 hmap' (main.block_newline 1 _ rest)
        (by decide), hprint, List.append_nil]

/-- A record of printable bytes, encrypted by the block loop and decrypted by the block loop
from the same generator state: the cipher text determines the plain text. -/
theorem main.blocks_round_trip : ∀ (n : Nat) (plain : List Nat), plain.length ≤ n →
    (∀ b ∈ plain, 32 ≤ b ∧ b ≤ 126) → ∀ (st : LCG), 0 < st.lcg_m →
    ∃ cipher stE, plain.length ≤ cipher.length ∧ (∀ b ∈ cipher, 32 ≤ b ∧ b ≤ 126) ∧
      (∀ fuelE rest outE, plain.length < fuelE →
        main.blockLoop 0 fuelE st (plain ++ 10 :: rest) outE
          = some (3, stE, rest, outE ++ cipher)) ∧
      (∀ fuelD rest outD, plain.length + 1 < fuelD →
        ∃ stD, main.blockLoop 1 fuelD st (cipher ++ 10 :: rest) outD
          = some (3, stD, rest, outD ++ plain)) := by
  intro n
  induction n with
  | zero =>
    intro plain hlen _ st hm
    have hnil : plain = [] := List.length_eq_zero.1 (by omega)
    subst hnil
    obtain ⟨builtMap, hmap, -⟩ := buildMap_perm st hm
    refine ⟨[], (buildMap.computeG st).2, le_refl _, by simp, ?_, ?_⟩
    · intro fuelE rest outE hf
      obtain ⟨f, rfl⟩ : ∃ f, fuelE = f + 1 := ⟨fuelE - 1, by omega⟩
      exact main.blockLoop_last 0 f st _ builtMap _ outE _ rest 3 hmap
        (main.block_newline 0 _ rest) (by decide)
    · intro fuelD rest outD hf
      obtain ⟨f, rfl⟩ : ∃ f, fuelD = f + 1 := ⟨fuelD - 1, by omega⟩
      exact ⟨_, main.blockLoop_last 1 f st _ builtMap _ outD _ rest 3 hmap
        (main.block_newline 1 _ rest) (by decide)⟩
  | succ n ih =>
    intro plain hlen hplain st hm
    rcases plain with _ | ⟨a, _ | ⟨b, _ | ⟨c, _ | ⟨d, t⟩⟩⟩⟩
    · exact ih [] (Nat.zero_le _) hplain st hm
    · have ha := hplain a (by simp)
      obtain ⟨cipher, stE, h4, hpr, hE, hD⟩ := main.last_block_round_trip st hm a 0 0 [a] ha
        (Or.inl rfl) (Or.inl rfl) (printString_one a (by omega))
        (fun builtMap rest => main.block_encrypt_one builtMap a rest ha)
      exact ⟨cipher, stE, by simp only [List.length_cons, List.length_nil]; omega, hpr,
        fun fuelE rest outE hf => hE fuelE rest outE (by omega),
        fun fuelD rest outD hf => hD fuelD rest outD (by omega)⟩
    · have ha := hplain a (by simp)
      have hb := hplain b (by simp)
      obtain ⟨cipher, stE, h4, hpr, hE, hD⟩ := main.last_block_round_trip st hm a b 0 [a, b] ha
        (Or.inr hb) (Or.inl rfl) (printString_two a b (by omega) (by omega))
        (fun builtMap rest => main.block_encrypt_two builtMap a b rest ha hb)
      exact ⟨cipher, stE, by simp only [List.length_cons, List.length_nil]; omega, hpr,
        fun fuelE rest outE hf => hE fuelE rest outE (by omega),
        fun fuelD rest outD hf => hD fuelD rest outD (by omega)⟩
    · have ha := hplain a (by simp)
      have hb := hplain b (by simp)
      have hc := hplain c (by simp)
      obtain ⟨cipher, stE, h4, hpr, hE, hD⟩ := main.last_block_round_trip st hm a b c [a, b, c] ha
        (Or.inr hb) (Or.inr hc) (printString_three a b c (by omega) (by omega) (by omega))
        (fun builtMap rest => main.block_encrypt_three builtMap a b c rest ha hb hc)
      exact ⟨cipher, stE, by simp only [List.length_cons, List.length_nil]; omega, hpr,
        fun fuelE rest outE hf => hE fuelE rest outE (by omega),
        fun fuelD rest outD hf => hD fuelD rest outD (by omega)⟩
    · have ha := hplain a (by simp)
      have hb := hplain b (by simp)
      have hc := hplain c (by simp)
      have hd := hplain d (by simp)
      obtain ⟨builtMap, hmap, hperm⟩ := buildMap_perm st hm
      have hm' : 0 < (buildMap.computeG st).2.lcg_m := by
        rw [buildMap.computeG_lcg_m]; exact hm
      simp only [List.length_cons] at hlen
      obtain ⟨cipher, stE, hlenc, hpr, hE, hD⟩ := ih t (by omega)
        (fun x hx => hplain x (by simp [hx])) _ hm'
      have hrt := fun S => block_round_trip builtMap hperm a b c d S (by omega) (by omega)
        (by omega) (by omega) (by omega)
        (decryptText.outOfRange_false a b c d (Or.inr ha) (Or.inr hb) (Or.inr hc) (Or.inr hd))
      refine ⟨(encryptText builtMap [a, b, c, d, 0]).2 ++ cipher, stE, ?_, ?_, ?_, ?_⟩
      · have := (hrt []).1
        simp only [List.length_cons, List.length_append]
        omega
      · intro x hx
        rcases List.mem_append.1 hx with hx | hx
        · exact (hrt []).2.1 x hx
        · exact hpr x hx
      · intro fuelE rest outE hf
        simp only [List.length_cons] at hf
        obtain ⟨f, rfl⟩ : ∃ f, fuelE = f + 1 := ⟨fuelE - 1, by omega⟩
        have hblock := main.block_encrypt_full builtMap a b c d (t ++ 10 :: rest) ha hb hc hd
        simp only [List.cons_append]
        rw [main.blockLoop_next 0 f st _ builtMap _ outE _ _ hmap hblock,
          hE f rest _ (by omega), List.append_assoc]
      · intro fuelD rest outD hf
        simp only [List.length_cons] at hf
        obtain ⟨f, rfl⟩ : ∃ f, fuelD = f + 1 := ⟨fuelD - 1, by omega⟩
        obtain ⟨stD, hstD⟩ := hD f rest (outD ++ [a, b, c, d]) (by omega)
        refine ⟨stD, ?_⟩
        have hblock := (hrt (cipher ++ 10 :: rest)).2.2
        rw [printString_four a b c d (by omega) (by omega) (by omega) (by omega)] at hblock
        rw [List.append_assoc,
          main.blockLoop_next 1 f st _ builtMap _ outD _ _ hmap hblock, hstD]
        simp only [List.append_assoc, List.cons_append, List.nil_append]


/-! ## The claims on the key schedule and on whole records -/

theorem buildLCG_ok (st : LCG) (m c : Nat) (key : LCG)
    (h : buildLCG st m c = some (OK, key)) : 0 < key.lcg_m := by
  unfold buildLCG at h
  by_cases hm : m ≤ 0
  · rw [if_pos hm] at h
    exact absurd (congrArg (fun r => r.1) (Option.some.inj h)).symm OK_ne_ERROR
  · rw [if_neg hm] at h
    by_cases hc : c ≤ 0
    · rw [if_pos hc] at h
      exact absurd (congrArg (fun r => r.1) (Option.some.inj h)).symm OK_ne_ERROR
    · rw [if_neg hc] at h
      cases hf : calculatePrimeFactors m with
      | none => rw [hf] at h; exact Option.noConfusion h
      | some factors =>
        rw [hf] at h
        simp only at h
        split at h
        · exact absurd (congrArg (fun r => r.1) (Option.some.inj h)).symm OK_ne_ERROR
        · have := congrArg (fun r => r.2.lcg_m) (Option.some.inj h)
          simp only at this
          omega

theorem buildLCG_key (st : LCG) (m c : Nat) (key : LCG)
    (h : buildLCG st m c = some (OK, key)) :
    ∃ factors, calculatePrimeFactors m = some factors ∧
      key = LCG.mk c m (buildLCG.multiplier m (buildLCG.product factors)) c := by
  unfold buildLCG at h
  by_cases hm : m ≤ 0
  · rw [if_pos hm] at h
    exact absurd (congrArg (fun r => r.1) (Option.some.inj h)).symm OK_ne_ERROR
  · rw [if_neg hm] at h
    by_cases hc : c ≤ 0
    · rw [if_pos hc] at h
      exact absurd (congrArg (fun r => r.1) (Option.some.inj h)).symm OK_ne_ERROR
    · rw [if_neg hc] at h
      cases hf : calculatePrimeFactors m with
      | none => rw [hf] at h; exact Option.noConfusion h
      | some factors =>
        rw [hf] at h
        simp only at h
        split at h
        · exact absurd (congrArg (fun r => r.1) (Option.some.inj h)).symm OK_ne_ERROR
        · exact ⟨factors, rfl, (congrArg (fun r => r.2) (Option.some.inj h)).symm⟩

/-- C1: for every `(m, c)` that `buildLCG` accepts and every line of bytes in `[32, 126]`,
of any length, the encrypt loop of `main` on the line returns without error and writes a
cipher text, and the decrypt loop of `main`, entered after `buildLCG` has accepted the same
`(m, c)` again, on the line made of that cipher text returns without error and writes
exactly the original line.  Both loops stop at the end of their line and leave what
follows unread. -/
theorem record_round_trip (st0 st1 : LCG) (m c : Nat) (keyE keyD : LCG)
    (plain rest0 rest1 : List Nat)
    (hkeyE : buildLCG st0 m c = some (OK, keyE))
    (hkeyD : buildLCG st1 m c = some (OK, keyD))
    (hplain : ∀ b ∈ plain, 32 ≤ b ∧ b ≤ 126) :
    ∃ cipher sE stE sD stD,
      main.blocks 0 keyE (plain ++ 10 :: rest0) = some (sE, stE, rest0, cipher) ∧
      sE &&& ERROR = 0 ∧
      main.blocks 1 keyD (cipher ++ 10 :: rest1) = some (sD, stD, rest1, plain) ∧
      sD &&& ERROR = 0 := by
  have hsame : keyD = keyE := by
    obtain ⟨f0, hf0, h0⟩ := buildLCG_key st0 m c keyE hkeyE
    obtain ⟨f1, hf1, h1⟩ := buildLCG_key st1 m c keyD hkeyD
    rw [hf0] at hf1
    rw [h0, h1, Option.some.inj hf1]
  subst hsame
  obtain ⟨cipher, stE, hlen, -, hE, hD⟩ := main.blocks_round_trip plain.length plain (le_refl _)
    hplain keyD (buildLCG_ok st0 m c keyD hkeyE)
  obtain ⟨stD, hstD⟩ := hD ((cipher ++ 10 :: rest1).length + 1) rest1 [] (by
    simp only [List.length_append, List.length_cons]
    omega)
  refine ⟨cipher, 3, stE, 3, stD, ?_, by decide, ?_, by decide⟩
  · unfold main.blocks
    rw [hE _ rest0 [] (by simp only [List.length_append, List.length_cons]; omega),
      List.nil_append]
  · unfold main.blocks
    rw [hstD, List.nil_append]

set_option maxRecDepth 1000000 in
/-- Witness for C1: the key `m = 38875`, `c = 1234` and the line
`"This program is awesome!"`. -/
theorem record_round_trip_witness :
    buildLCG (LCG.mk 0 0 0 0) 38875 1234 = some (OK, LCG.mk 1234 38875 1556 1234) ∧
    (∀ b ∈ [84, 104, 105, 115, 32, 112, 114, 111, 103, 114, 97, 109, 32, 105, 115, 32, 97, 119,
      101, 115, 111, 109, 101, 33], 32 ≤ b ∧ b ≤ 126) ∧
    ∃ cipher sE stE sD stD,
      main.blocks 0 (LCG.mk 1234 38875 1556 1234)
        ([84, 104, 105, 115, 32, 112, 114, 111, 103, 114, 97, 109, 32, 105, 115, 32, 97, 119,
          101, 115, 111, 109, 101, 33] ++ 10 :: []) = some (sE, stE, [], cipher) ∧
      sE &&& ERROR = 0 ∧
      main.blocks 1 (LCG.mk 1234 38875 1556 1234) (cipher ++ 10 :: [])
        = some (sD, stD, [], [84, 104, 105, 115, 32, 112, 114, 111, 103, 114, 97, 109, 32, 105,
          115, 32, 97, 119, 101, 115, 111, 109, 101, 33]) ∧
      sD &&& ERROR = 0 :=
  ⟨by decide, by decide,
    record_round_trip (LCG.mk 0 0 0 0) (LCG.mk 0 0 0 0) 38875 1234
      (LCG.mk 1234 38875 1556 1234) (LCG.mk 1234 38875 1556 1234) _ [] []
      (by decide) (by decide) (by decide)⟩

set_option maxRecDepth 1000000 in
/-- The example record of the program header, evaluated: the cipher text of
`"This program is awesome!"` under `m = 38875`, `c = 1234` is
`"zaFV+IW(uo$+W7Z!h+CL{vU5+N^|"`. -/
theorem example_record_encrypted :
    main.blocks 0 (LCG.mk 1234 38875 1556 1234)
      [84, 104, 105, 115, 32, 112, 114, 111, 103, 114, 97, 109, 32, 105, 115, 32, 97, 119,
        101, 115, 111, 109, 101, 33, 10]
      = some (3, LCG.mk 1234 38875 1556 16068, [],
        [122, 97, 70, 86, 43, 73, 87, 40, 117, 111, 36, 43, 87, 55, 90, 33, 104, 43, 67, 76,
          123, 118, 85, 53, 43, 78, 94, 124]) := by
  decide

set_option maxRecDepth 100000 in
/-- C3, the failing input: for `m = 2^64 - 1`, whose prime factors
`3, 5, 17, 257, 641, 65537, 6700417` are distinct, the sum `1 + p` is `2^64` and is stored
as 0; the test `lcg_a > lcg_m` lets it pass and `buildLCG` returns `OK` with `lcg_a = 0`,
which is not in `[1, m]`. -/
theorem buildLCG_accepts_zero_multiplier (st : LCG) :
    buildLCG st 18446744073709551615 1
      = some (OK, LCG.mk 1 18446744073709551615 0 1) := by
  have hfac : calculatePrimeFactors 18446744073709551615
      = some ([3, 5, 17, 257, 641, 65537, 6700417] ++ List.replicate 93 0) := by
    have hpf : Nat.primeFactorsList 18446744073709551615
        = [3, 5, 17, 257, 641, 65537, 6700417] := primeFactorsList_max
    have h := calculatePrimeFactors_eq 18446744073709551615 (by decide) (by decide) (by
      intro q hq
      rw [hpf] at hq
      simp only [List.mem_cons, List.mem_singleton, List.not_mem_nil, or_false] at hq
      rcases hq with rfl | rfl | rfl | rfl | rfl | rfl | rfl <;> decide)
    rw [hpf] at h
    exact h
  unfold buildLCG
  rw [if_neg (by decide), if_neg (by decide), hfac]
  have hp : buildLCG.product
      ([3, 5, 17, 257, 641, 65537, 6700417] ++ List.replicate 93 0) = 18446744073709551615 := by
    decide
  simp only [hp]
  have ha : buildLCG.multiplier 18446744073709551615 18446744073709551615 = 0 := by decide
  rw [ha, if_neg (by decide)]

/-- For every 64-bit `m` and every `c`, `buildLCG` returns; it returns `ERROR` when `m = 0`
and when `c = 0`; for `m > 0` and `c > 0` its answer follows the test `lcg_a > lcg_m` on the
64-bit value it has stored in `lcg_a`; whenever it returns `OK` the generator is
`lcg_m = m`, `lcg_c = c`, `lcg_x = c` with that stored value in `lcg_a`. -/
theorem buildLCG_status (st : LCG) (m c : Nat) (hm : m < 2 ^ 64) :
    ∃ factors, calculatePrimeFactors m = some factors ∧
      (∃ s st', buildLCG st m c = some (s, st') ∧ (s = ERROR ∨ s = OK)) ∧
      (m = 0 → ∃ st', buildLCG st m c = some (ERROR, st')) ∧
      (c = 0 → ∃ st', buildLCG st m c = some (ERROR, st')) ∧
      (0 < m → 0 < c →
        ((∃ st', buildLCG st m c = some (ERROR, st')) ↔
          m < buildLCG.multiplier m (buildLCG.product factors))) ∧
      (∀ st', buildLCG st m c = some (OK, st') →
        st' = LCG.mk c m (buildLCG.multiplier m (buildLCG.product factors)) c) := by
  obtain ⟨factors, hf, -⟩ := calculatePrimeFactors_total m hm
  refine ⟨factors, hf, ?_⟩
  unfold buildLCG
  by_cases h0 : m ≤ 0
  · simp only [if_pos h0]
    refine ⟨⟨_, _, rfl, Or.inl rfl⟩, fun _ => ⟨_, rfl⟩, fun _ => ⟨_, rfl⟩, ?_, ?_⟩
    · intro hpos; omega
    · intro st' h
      exact absurd (congrArg (fun r => r.1) (Option.some.inj h)).symm OK_ne_ERROR
  · simp only [if_neg h0]
    by_cases hc0 : c ≤ 0
    · simp only [if_pos hc0]
      refine ⟨⟨_, _, rfl, Or.inl rfl⟩, fun _ => ⟨_, rfl⟩, fun _ => ⟨_, rfl⟩, ?_, ?_⟩
      · intro _ hpos; omega
      · intro st' h
        exact absurd (congrArg (fun r => r.1) (Option.some.inj h)).symm OK_ne_ERROR
    · simp only [if_neg hc0, hf]
      by_cases ha : buildLCG.multiplier m (buildLCG.product factors) > m
      · simp only [if_pos ha]
        refine ⟨⟨_, _, rfl, Or.inl rfl⟩, fun h => absurd h (by omega),
          fun h => absurd h (by omega), ?_, ?_⟩
        · intro _ _
          exact ⟨fun _ => ha, fun _ => ⟨_, rfl⟩⟩
        · intro st' h
          exact absurd (congrArg (fun r => r.1) (Option.some.inj h)).symm OK_ne_ERROR
      · simp only [if_neg ha]
        refine ⟨⟨_, _, rfl, Or.inr rfl⟩, fun h => absurd h (by omega),
          fun h => absurd h (by omega), ?_, ?_⟩
        · intro _ _
          constructor
          · rintro ⟨st', h⟩
            exact absurd (congrArg (fun r => r.1) (Option.some.inj h)) OK_ne_ERROR
          · intro h; exact absurd h ha
        · intro st' h
          exact (congrArg (fun r => r.2) (Option.some.inj h)).symm

/-! ## The product of the distinct prime factors -/

theorem foldl_range_getD {α : Type} (f : α → Int → α) (L : List Int) :
    ∀ (n : Nat) (init : α), n ≤ L.length →
      (List.range n).foldl (fun s i => f s (L.getD i 0)) init = (L.take n).foldl f init := by
  intro n
  induction n with
  | zero => intro init _; rfl
  | succ n ih =>
    intro init hn
    have hlt : n < L.length := by omega
    rw [List.range_succ, List.foldl_append, ih init (by omega), List.take_succ,
      List.foldl_append, List.getElem?_eq_getElem hlt]
    simp only [List.foldl_cons, List.foldl_nil, Option.toList, List.getD_eq_getElem _ _ hlt]

/-- The de-duplication loop of `buildLCG` on a non-decreasing list of positive factors whose
distinct values have a product below `2^64`: every value is multiplied in once. -/
theorem productStep_fold_sorted : ∀ (l : List Nat) (last p : Nat),
    List.Sorted (· ≤ ·) l → (∀ x ∈ l, last ≤ x) → (∀ x ∈ l, 0 < x) →
    (∀ x ∈ l, x < 2 ^ 64) → p * (l.toFinset.erase last).prod id < 2 ^ 64 →
    ((l.map Int.ofNat).foldl
      (fun (s : Nat × Nat) (f : Int) =>
        if s.1 ≠ intToU64 f then (intToU64 f, u64 (s.2 * intToU64 f)) else s) (last, p)).2
      = p * (l.toFinset.erase last).prod id := by
  intro l
  induction l with
  | nil => intro last p _ _ _ _ _; simp
  | cons f t ih =>
    intro last p hsorted hge hpos hsmall hbound
    have hsorted' : List.Sorted (· ≤ ·) t := hsorted.of_cons
    have hft : ∀ x ∈ t, f ≤ x := fun x hx => List.rel_of_sorted_cons hsorted x hx
    have hpos' : ∀ x ∈ t, 0 < x := fun x hx => hpos x (List.mem_cons_of_mem _ hx)
    have hsmall' : ∀ x ∈ t, x < 2 ^ 64 := fun x hx => hsmall x (List.mem_cons_of_mem _ hx)
    have hlf : last ≤ f := hge f (List.mem_cons_self _ _)
    have hconv : intToU64 (Int.ofNat f) = f :=
      intToU64_natCast f (hsmall f (List.mem_cons_self _ _))
    rw [List.map_cons, List.foldl_cons, hconv]
    by_cases hne : last = f
    · subst hne
      have herase : ((last :: t).toFinset.erase last) = t.toFinset.erase last := by
        rw [List.toFinset_cons, Finset.erase_insert_eq_erase]
      rw [herase] at hbound ⊢
      simp only [ne_eq, not_true_eq_false, if_false]
      exact ih last p hsorted' hft hpos' hsmall' hbound
    · have hlt : last < f := lt_of_le_of_ne hlf hne
      have hnotmem : last ∉ (f :: t).toFinset := by
        intro hmem
        rw [List.mem_toFinset, List.mem_cons] at hmem
        rcases hmem with h | h
        · exact hne h
        · have := hft last h
          omega
      have hprod : ((f :: t).toFinset.erase last).prod id = f * (t.toFinset.erase f).prod id := by
        rw [Finset.erase_eq_of_not_mem hnotmem, List.toFinset_cons,
          ← Finset.mul_prod_erase _ id (Finset.mem_insert_self f _),
          Finset.erase_insert_eq_erase]
        rfl
      rw [hprod] at hbound ⊢
      have hrest : 0 < (t.toFinset.erase f).prod id := by
        apply Finset.prod_pos
        intro x hx
        exact hpos' x (List.mem_toFinset.1 (Finset.mem_of_mem_erase hx))
      have hpf : p * f < 2 ^ 64 := by
        have h1 : p * f ≤ p * f * (t.toFinset.erase f).prod id := Nat.le_mul_of_pos_right _ hrest
        rw [mul_assoc] at h1
        omega
      have hu : u64 (p * f) = p * f := Nat.mod_eq_of_lt hpf
      simp only [ne_eq, hne, not_false_eq_true, if_true, hu]
      rw [ih f (p * f) hsorted' hft hpos' hsmall' (by rw [mul_assoc]; exact hbound), mul_assoc]

/-- For a 64-bit number at least 2 whose prime factors are below `2^31`, the value `p` that
`buildLCG` computes from the cells of `factors` is the product of the distinct primes that
divide the number. -/
theorem buildLCG.product_eq (m : Nat) (h2 : 2 ≤ m) (h64 : m < 2 ^ 64)
    (hbig : ∀ q, q.Prime → q ∣ m → q < 2 ^ 31) :
    ∃ factors, calculatePrimeFactors m = some factors ∧
      buildLCG.product factors = m.primeFactors.prod id := by
  obtain ⟨factors, hf, hlen, hrec⟩ := calculatePrimeFactors_recorded m h2 h64 hbig
  refine ⟨factors, hf, ?_⟩
  have hcount : buildLCG.countFactors factors = m.primeFactorsList.length := by
    unfold buildLCG.countFactors
    rw [hrec, List.length_map]
  have htake : factors.take (buildLCG.countFactors factors)
      = m.primeFactorsList.map Int.ofNat := by
    have hfe := calculatePrimeFactors_eq m h2 h64 (primeFactors_lt_of_prime_dvd m hbig)
    rw [hf] at hfe
    rw [hcount, Option.some.inj hfe, List.take_left' (by rw [List.length_map])]
  have hdvd : m.primeFactors.prod id ∣ m := by
    have := Nat.prod_primeFactors_dvd m
    simpa using this
  have hle : m.primeFactors.prod id ≤ m := Nat.le_of_dvd (by omega) hdvd
  have herase : m.primeFactorsList.toFinset.erase 1 = m.primeFactors := by
    apply Finset.erase_eq_of_not_mem
    intro h1
    exact Nat.not_prime_one (Nat.prime_of_mem_primeFactorsList (List.mem_toFinset.1 h1))
  have hfold := productStep_fold_sorted m.primeFactorsList 1 1 (Nat.primeFactorsList_sorted m)
    (fun x hx => (Nat.prime_of_mem_primeFactorsList hx).pos)
    (fun x hx => (Nat.prime_of_mem_primeFactorsList hx).pos)
    (fun x hx => lt_of_le_of_lt (Nat.le_of_mem_primeFactorsList hx) h64)
    (by rw [herase, one_mul]; omega)
  rw [herase, one_mul] at hfold
  have hcl : buildLCG.countFactors factors ≤ factors.length := by
    rw [hcount, hlen]
    exact le_of_lt (primeFactorsList_length_lt m h64)
  have hidx := foldl_range_getD (fun (s : Nat × Nat) (f : Int) =>
      if s.1 ≠ intToU64 f then (intToU64 f, u64 (s.2 * intToU64 f)) else s) factors
    (buildLCG.countFactors factors) (1, 1) hcl
  rw [htake] at hidx
  have hstep : buildLCG.product factors
      = ((List.range (buildLCG.countFactors factors)).foldl (fun s i =>
          (fun (s : Nat × Nat) (f : Int) =>
            if s.1 ≠ intToU64 f then (intToU64 f, u64 (s.2 * intToU64 f)) else s) s
          (factors.getD i 0)) (1, 1)).2 := rfl
  rw [hstep, hidx, hfold]

/-- Away from the modulus `2^64 - 1`, and for prime factors below `2^31`, every key that
`buildLCG` accepts has a multiplier `a` with `1 ≤ a ≤ m`, with `a - 1` divisible by every
prime factor of `m`, and by 4 when `m` is. -/
theorem buildLCG_multiplier_valid (st : LCG) (m c : Nat) (key : LCG)
    (hm : m < 2 ^ 64 - 1) (hbig : ∀ q, q.Prime → q ∣ m → q < 2 ^ 31)
    (h : buildLCG st m c = some (OK, key)) :
    1 ≤ key.lcg_a ∧ key.lcg_a ≤ m ∧
      (∀ q, q.Prime → q ∣ m → (key.lcg_a - 1) % q = 0) ∧
      (m % 4 = 0 → (key.lcg_a - 1) % 4 = 0) := by
  obtain ⟨factors, hf, hkey⟩ := buildLCG_key st m c key h
  have hmpos : 0 < m := by
    have := buildLCG_ok st m c key h
    rw [hkey] at this
    exact this
  have hale : key.lcg_a ≤ m := by
    unfold buildLCG at h
    rw [if_neg (by omega)] at h
    by_cases hc : c ≤ 0
    · rw [if_pos hc] at h
      exact absurd (congrArg (fun r => r.1) (Option.some.inj h)).symm OK_ne_ERROR
    · rw [if_neg hc, hf] at h
      simp only at h
      split at h
      · exact absurd (congrArg (fun r => r.1) (Option.some.inj h)).symm OK_ne_ERROR
      · rw [hkey]
        simp only
        omega
  by_cases h1 : m = 1
  · subst h1
    have : calculatePrimeFactors 1 = some (List.replicate 100 0) := by
      unfold calculatePrimeFactors
      rw [if_pos (by decide)]
    rw [this] at hf
    have hfe : factors = List.replicate 100 0 := (Option.some.inj hf).symm
    rw [hkey, hfe] at hale
    simp only at hale
    have hbad : ¬ buildLCG.multiplier 1 (buildLCG.product (List.replicate 100 0)) ≤ 1 := by
      decide
    exact absurd hale hbad
  have h2 : 2 ≤ m := by omega
  obtain ⟨factors', hf', hprod⟩ := buildLCG.product_eq m h2 (by omega) hbig
  rw [hf] at hf'
  have hfe : factors = factors' := Option.some.inj hf'
  subst hfe
  have hdvd : m.primeFactors.prod id ∣ m := by
    have := Nat.prod_primeFactors_dvd m
    simpa using this
  have hqdvd : ∀ q, q.Prime → q ∣ m → q ∣ m.primeFactors.prod id := by
    intro q hq hqm
    exact Finset.dvd_prod_of_mem id (Nat.mem_primeFactors.2 ⟨hq, hqm, by omega⟩)
  have hPle : m.primeFactors.prod id ≤ m := Nat.le_of_dvd hmpos hdvd
  have hPpos : 0 < m.primeFactors.prod id :=
    Finset.prod_pos (fun x hx => (Nat.prime_of_mem_primeFactors hx).pos)
  have h2Pdvd : m % 4 = 0 → 2 * m.primeFactors.prod id ∣ m := by
    intro h4
    obtain ⟨k, hk⟩ : ∃ k, m = 2 * k := ⟨m / 2, by omega⟩
    have hk2 : 2 ∣ k := by omega
    have hkpos : k ≠ 0 := by omega
    have hpf : m.primeFactors = k.primeFactors := by
      rw [hk, Nat.primeFactors_mul (by decide) hkpos, Nat.Prime.primeFactors Nat.prime_two]
      apply Finset.union_eq_right.2
      intro x hx
      rw [Finset.mem_singleton] at hx
      subst hx
      exact Nat.mem_primeFactors.2 ⟨Nat.prime_two, hk2, hkpos⟩
    have hkd : k.primeFactors.prod id ∣ k := by
      have := Nat.prod_primeFactors_dvd k
      simpa using this
    rw [hpf]
    rw [hk]
    exact Nat.mul_dvd_mul_left 2 hkd
  rw [hkey] at hale ⊢
  simp only at hale ⊢
  rw [hprod] at hale ⊢
  generalize m.primeFactors.prod id = P at hdvd hqdvd hPle hPpos hale h2Pdvd ⊢
  unfold buildLCG.multiplier at hale ⊢
  by_cases h4 : m % 4 = 0
  · rw [if_pos h4] at hale ⊢
    have h2P : 2 ∣ P := hqdvd 2 Nat.prime_two (by omega)
    have h2Ple : 2 * P ≤ m := Nat.le_of_dvd hmpos (h2Pdvd h4)
    have hu : u64 (1 + 2 * P) = 1 + 2 * P := Nat.mod_eq_of_lt (by omega)
    rw [hu] at hale ⊢
    refine ⟨by omega, hale, ?_, ?_⟩
    · intro q hq hqm
      have : q ∣ 2 * P := Dvd.dvd.mul_left (hqdvd q hq hqm) 2
      rw [Nat.add_sub_cancel_left]
      exact Nat.mod_eq_zero_of_dvd this
    · intro _
      rw [Nat.add_sub_cancel_left]
      omega
  · rw [if_neg h4] at hale ⊢
    have hu : u64 (1 + P) = 1 + P := Nat.mod_eq_of_lt (by omega)
    rw [hu] at hale ⊢
    refine ⟨by omega, hale, ?_, fun h => absurd h h4⟩
    intro q hq hqm
    rw [Nat.add_sub_cancel_left]
    exact Nat.mod_eq_zero_of_dvd (hqdvd q hq hqm)

/-! ## The all-zero block and the generator side of `buildMap` -/

theorem emptyData_of_zero (data : List Nat) (h : ∀ i, i < 4 → data.getD i 0 = 0) :
    emptyData data = true := by
  unfold emptyData
  rw [List.all_eq_true]
  intro i hi
  rw [h i (List.mem_range.1 hi)]
  rfl

/-- C11: for every `builtMap`, when the four data bytes are all zero, `encryptText` returns
`OK` and writes nothing, and `decryptText` returns `OK`, writes nothing and leaves the input
as it found it. -/
theorem zero_block_no_op (builtMap data input : List Nat)
    (h : ∀ i, i < 4 → data.getD i 0 = 0) :
    encryptText builtMap data = (OK, []) ∧
      decryptText builtMap data input = (OK, [], input) := by
  have hempty := emptyData_of_zero data h
  constructor
  · unfold encryptText
    rw [if_pos hempty]
  · unfold decryptText
    rw [if_pos hempty]

/-- Witness for C11: the block that `readDataBlock` returns at the end of a line. -/
theorem zero_block_no_op_witness :
    (∀ i, i < 4 → [0, 0, 0, 0, 0].getD i 0 = 0) ∧
    encryptText (List.range 28) [0, 0, 0, 0, 0] = (OK, []) ∧
      decryptText (List.range 28) [0, 0, 0, 0, 0] [43, 65, 10] = (OK, [], [43, 65, 10]) :=
  ⟨by decide, zero_block_no_op (List.range 28) [0, 0, 0, 0, 0] [43, 65, 10] (by decide)⟩

/-- The loop "Compute g(i)" after `n` passes: the values drawn are `x_i mod (28 - i)` and the
generator holds `x_n`, everything else in it unchanged. -/
theorem buildMap.draw_fold (st : LCG) : ∀ n,
    (List.range n).foldl buildMap.draw ([], st)
      = ((List.range n).map (fun i => lcgValue st i % (MAP_LENGTH - i)),
          { st with lcg_x := lcgValue st n }) := by
  intro n
  induction n with
  | zero => rfl
  | succ n ih =>
    rw [List.range_succ, List.foldl_append, ih, List.map_append]
    simp only [List.foldl_cons, List.foldl_nil, List.map_cons, List.map_nil]
    unfold buildMap.draw
    simp only [Prod.mk.injEq, true_and]
    congr 1
    show u64 (u64 (st.lcg_a * lcgValue st n) + st.lcg_c) % st.lcg_m = lcgValue st (n + 1)
    unfold u64
    rw [Nat.mod_add_mod]
    rfl

/-- C12: for every key state with `lcg_m > 0`, `buildMap` returns, leaves `lcg_m`, `lcg_a` and
`lcg_c` unchanged, draws `g[i] = x_i mod (28 - i)` for `i = 0..27`, where `x_0` is the entry
value of `lcg_x` and `x_(i+1) = (a * x_i + c) mod m` with the sum in unsigned 64-bit
arithmetic, and leaves `lcg_x = x_28`. -/
theorem buildMap_generator_effect (st : LCG) (hm : 0 < st.lcg_m) :
    ∃ builtMap st', buildMap st = some (builtMap, st') ∧
      st'.lcg_m = st.lcg_m ∧ st'.lcg_a = st.lcg_a ∧ st'.lcg_c = st.lcg_c ∧
      st'.lcg_x = lcgValue st 28 ∧
      (buildMap.computeG st).1 = (List.range 28).map (fun i => lcgValue st i % (28 - i)) ∧
      (∀ i, lcgValue st (i + 1)
        = ((st.lcg_a * lcgValue st i + st.lcg_c) % 2 ^ 64) % st.lcg_m) ∧
      lcgValue st 0 = st.lcg_x := by
  obtain ⟨builtMap, hb, -⟩ := buildMap_perm st hm
  have hfold : buildMap.computeG st
      = ((List.range 28).map (fun i => lcgValue st i % (28 - i)),
          { st with lcg_x := lcgValue st 28 }) := buildMap.draw_fold st 28
  refine ⟨builtMap, _, hb, ?_, ?_, ?_, ?_, ?_, fun i => rfl, rfl⟩
  all_goals rw [hfold]

set_option maxRecDepth 100000 in
/-- Witness for C12 at the first generator state of the key `m = 38875`, `c = 1234`. -/
theorem buildMap_generator_effect_witness :
    0 < (LCG.mk 1234 38875 1556 1234).lcg_m ∧
    ∃ builtMap st', buildMap (LCG.mk 1234 38875 1556 1234) = some (builtMap, st') ∧
      st'.lcg_m = (LCG.mk 1234 38875 1556 1234).lcg_m ∧
      st'.lcg_a = (LCG.mk 1234 38875 1556 1234).lcg_a ∧
      st'.lcg_c = (LCG.mk 1234 38875 1556 1234).lcg_c ∧
      st'.lcg_x = lcgValue (LCG.mk 1234 38875 1556 1234) 28 ∧
      (buildMap.computeG (LCG.mk 1234 38875 1556 1234)).1
        = (List.range 28).map (fun i => lcgValue (LCG.mk 1234 38875 1556 1234) i % (28 - i)) ∧
      (∀ i, lcgValue (LCG.mk 1234 38875 1556 1234) (i + 1)
        = (((LCG.mk 1234 38875 1556 1234).lcg_a * lcgValue (LCG.mk 1234 38875 1556 1234) i
            + (LCG.mk 1234 38875 1556 1234).lcg_c) % 2 ^ 64)
          % (LCG.mk 1234 38875 1556 1234).lcg_m) ∧
      lcgValue (LCG.mk 1234 38875 1556 1234) 0 = (LCG.mk 1234 38875 1556 1234).lcg_x :=
  ⟨by decide, buildMap_generator_effect (LCG.mk 1234 38875 1556 1234) (by decide)⟩

/-! ## What `readDataBlock` and `readNumber` accept -/

set_option maxRecDepth 1000000 in
/-- C14, the failing input: a tab, which is outside `[32, 126]`, is stored in the block like
any other ASCII byte and `readDataBlock` returns `OK`; `main` encrypts the record
`e38875,1234,<tab>ABC` and does not print `Error`. -/
theorem readDataBlock_accepts_control_byte :
    readDataBlock [9, 65, 66, 67, 10] = (OK, [9, 65, 66, 67, 0], [10]) ∧
    main [101, 51, 56, 56, 55, 53, 44, 49, 50, 51, 52, 44, 9, 65, 66, 67, 10]
      = some [32, 32, 32, 32, 49, 41, 32, 43, 84, 66, 43, 66, 58, 10, 10] := by
  decide

/-- Counterexample for C16: 21 zeros and a 5, which are 22 digit characters, before the
delimiter; the zeros are skipped and `readNumber` returns 5. -/
theorem leading_zeros_not_counted :
    20 < (List.replicate 21 48 ++ [53]).length ∧
    (∀ b ∈ List.replicate 21 48 ++ [53], 48 ≤ b ∧ b ≤ 57) ∧
    readNumber 44 (List.replicate 21 48 ++ [53] ++ [44, 97]) = (5, [97]) := by
  decide

theorem toChar_byte (b : Nat) (h : b < 256) : toChar (b : Int) = b := toChar_natCast b h

theorem isdigit_byte (b : Nat) (h : b < 256) :
    isdigit (schar (toChar (b : Int))) = decide (48 ≤ b ∧ b ≤ 57) := by
  rw [toChar_byte b h]
  unfold isdigit schar
  by_cases h1 : b < 128
  · rw [if_pos h1]
    congr 1
    apply propext
    omega
  · rw [if_neg h1]
    rw [decide_eq_decide]
    omega

/-- Once a number has begun, `readNumber` stores every digit and gives up on the one that
would be the 21st. -/
theorem readNumber.loop_overlong : ∀ (ds : List Nat) (rest : List Nat) (i : Nat)
    (digits : List Nat), (∀ b ∈ ds, 48 ≤ b ∧ b ≤ 57) → i ≤ 20 → 20 < i + ds.length →
    (readNumber.loop 44 (ds ++ rest) i true digits).1 = 0 := by
  intro ds
  induction ds with
  | nil => intro rest i digits _ hi hlen; simp only [List.length_nil] at hlen; omega
  | cons b ds ih =>
    intro rest i digits hds hi hlen
    have hb := hds b (List.mem_cons_self _ _)
    have hch : toChar (b : Int) = b := toChar_byte b (by omega)
    have hdig : isdigit (schar (toChar (b : Int))) = true := by
      rw [isdigit_byte b (by omega)]
      simp only [decide_eq_true_eq]
      exact hb
    rw [List.cons_append, readNumber.loop, hch, if_neg (by omega)]
    by_cases h20 : i = 20
    · rw [if_pos h20]
    · rw [if_neg h20]
      rw [hch] at hdig
      rw [hdig]
      simp only [if_true, Bool.true_eq_false, and_false, if_false, or_true]
      simp only [List.length_cons] at hlen
      exact ih rest (i + 1) _ (fun x hx => hds x (List.mem_cons_of_mem _ hx)) (by omega)
        (by omega)

/-- Leading zeros are read without being stored or counted. -/
theorem readNumber.loop_zeros : ∀ (zeros rest : List Nat), (∀ b ∈ zeros, b = 48) →
    readNumber.loop 44 (zeros ++ rest) 0 false [] = readNumber.loop 44 rest 0 false [] := by
  intro zeros
  induction zeros with
  | nil => intro rest _; rfl
  | cons b zeros ih =>
    intro rest hz
    have hb : b = 48 := hz b (List.mem_cons_self _ _)
    subst hb
    rw [List.cons_append, readNumber.loop]
    have h1 : toChar ((48 : Nat) : Int) = 48 := by decide
    have h2 : isdigit (schar 48) = true := by decide
    simp only [h1, h2]
    simp only [Nat.reduceEqDiff, if_false, if_true, and_self]
    exact ih rest (fun x hx => hz x (List.mem_cons_of_mem _ hx))

/-- A character that is neither a digit nor the delimiter makes `readNumber` return 0,
whatever was read before it. -/
theorem readNumber.loop_bad_char : ∀ (pre : List Nat) (x : Nat) (rest : List Nat) (i : Nat)
    (in_number : Bool) (digits : List Nat), (∀ b ∈ pre, b ≠ 44 ∧ b < 256) → x ≠ 44 →
    x < 256 → ¬ (48 ≤ x ∧ x ≤ 57) →
    (readNumber.loop 44 (pre ++ x :: rest) i in_number digits).1 = 0 := by
  intro pre
  induction pre with
  | nil =>
    intro x rest i in_number digits _ hx hx256 hnd
    rw [List.nil_append, readNumber.loop, toChar_byte x hx256, if_neg hx]
    by_cases h20 : i = 20
    · rw [if_pos h20]
    · rw [if_neg h20]
      have := isdigit_byte x hx256
      rw [toChar_byte x hx256] at this
      rw [this, decide_eq_false hnd]
      simp only [Bool.false_eq_true, if_false]
  | cons b pre ih =>
    intro x rest i in_number digits hpre hx hx256 hnd
    have hb := hpre b (List.mem_cons_self _ _)
    have hrest : ∀ y ∈ pre, y ≠ 44 ∧ y < 256 := fun y hy => hpre y (List.mem_cons_of_mem _ hy)
    rw [List.cons_append, readNumber.loop, toChar_byte b hb.2, if_neg hb.1]
    by_cases h20 : i = 20
    · rw [if_pos h20]
    · rw [if_neg h20]
      split
      · split
        · exact ih x rest _ _ _ hrest hx hx256 hnd
        · split
          · exact ih x rest _ _ _ hrest hx hx256 hnd
          · exact ih x rest _ _ _ hrest hx hx256 hnd
      · rfl

/-- C16, amended: for every input in which, after the leading zeros, more than 20 digit
characters precede the delimiter, `readNumber` returns 0; and for every input in which a
character that is neither a digit nor the delimiter precedes the delimiter, `readNumber`
returns 0. -/
theorem readNumber_rejects (zeros ds pre rest : List Nat) (d x : Nat)
    (hz : ∀ b ∈ zeros, b = 48) (hd : 49 ≤ d ∧ d ≤ 57) (hds : ∀ b ∈ ds, 48 ≤ b ∧ b ≤ 57)
    (hlen : 20 ≤ ds.length) (hpre : ∀ b ∈ pre, b ≠ 44 ∧ b < 256) (hx : x ≠ 44)
    (hx256 : x < 256) (hnd : ¬ (48 ≤ x ∧ x ≤ 57)) :
    (readNumber 44 (zeros ++ d :: ds ++ 44 :: rest)).1 = 0 ∧
      (readNumber 44 (pre ++ x :: rest)).1 = 0 := by
  constructor
  · unfold readNumber
    rw [List.append_assoc, readNumber.loop_zeros zeros _ hz, List.cons_append,
      readNumber.loop, toChar_byte d (by omega), if_neg (by omega), if_neg (by omega)]
    have hdig : isdigit (schar d) = true := by
      have := isdigit_byte d (by omega)
      rw [toChar_byte d (by omega)] at this
      rw [this]
      simp only [decide_eq_true_eq]
      omega
    rw [hdig]
    simp only [if_true]
    rw [if_neg (by omega), if_pos (Or.inl (by omega))]
    exact readNumber.loop_overlong ds (44 :: rest) 1 _ hds (by omega) (by omega)
  · exact readNumber.loop_bad_char pre x rest 0 false [] hpre hx hx256 hnd

/-- Witness for the amended C16: 21 digits `1` before the delimiter, and the field `12a`. -/
theorem readNumber_rejects_witness :
    (readNumber 44 ([] ++ 49 :: List.replicate 20 49 ++ 44 :: [97])).1 = 0 ∧
      (readNumber 44 ([49, 50] ++ 97 :: [97])).1 = 0 :=
  readNumber_rejects [] (List.replicate 20 49) [49, 50] [97] 49 97 (by decide) (by decide)
    (by decide) (by decide) (by decide) (by decide) (by decide) (by decide)

/-! ## The un-escape loop, the printed text and the forward transform -/

theorem encryptText.format_block_printable (b0 b1 b2 b3 : Nat)
    (h0 : b0 < 128) (h1 : b1 < 128) (h2 : b2 < 128) (h3 : b3 < 128) :
    (4 ≤ (encryptText.format [b0, b1, b2, b3, 0]).length ∧
      (encryptText.format [b0, b1, b2, b3, 0]).length ≤ 8) ∧
    ∀ b ∈ encryptText.format [b0, b1, b2, b3, 0], 32 ≤ b ∧ b ≤ 126 := by
  rw [encryptText.format_eq]
  simp only [List.getD_cons_zero, List.getD_cons_succ]
  have p0 := encryptText.formatByte_printable b0 h0
  have p1 := encryptText.formatByte_printable b1 h1
  have p2 := encryptText.formatByte_printable b2 h2
  have p3 := encryptText.formatByte_printable b3 h3
  refine ⟨by simp only [List.length_append]; omega, ?_⟩
  intro b hb
  simp only [List.mem_append] at hb
  rcases hb with ((hb | hb) | hb) | hb
  · exact p0.2 b hb
  · exact p1.2 b hb
  · exact p2.2 b hb
  · exact p3.2 b hb

/-- C19: for every block `b` of four bytes in `[0, 127]` and every byte sequence `S`, on the
input made of the escaped form of `b` followed by `S`, `readDataBlock` puts the first four
bytes in the data buffer and leaves the rest pending; the un-escape loop of `decryptText`
then rebuilds exactly the four bytes of `b`, pulls exactly `len(escape(b)) - 4` bytes from
the pending input and leaves `S` unread. -/
theorem unescape_stays_aligned (b0 b1 b2 b3 : Nat) (S : List Nat)
    (h0 : b0 ≤ 127) (h1 : b1 ≤ 127) (h2 : b2 ≤ 127) (h3 : b3 ≤ 127) :
    readDataBlock (encryptText.format [b0, b1, b2, b3, 0] ++ S)
      = (OK, (encryptText.format [b0, b1, b2, b3, 0]).take 4 ++ [0],
          (encryptText.format [b0, b1, b2, b3, 0]).drop 4 ++ S) ∧
    (decryptText.unescapeAll ((encryptText.format [b0, b1, b2, b3, 0]).take 4 ++ [0])
        ((encryptText.format [b0, b1, b2, b3, 0]).drop 4 ++ S)).2.1 = [b0, b1, b2, b3, 0] ∧
    (decryptText.unescapeAll ((encryptText.format [b0, b1, b2, b3, 0]).take 4 ++ [0])
        ((encryptText.format [b0, b1, b2, b3, 0]).drop 4 ++ S)).2.2 = S ∧
    ((encryptText.format [b0, b1, b2, b3, 0]).drop 4 ++ S).length
      = ((encryptText.format [b0, b1, b2, b3, 0]).length - 4) + S.length := by
  have halign := decryptText.unescapeAll_format b0 b1 b2 b3 S (by omega) (by omega) (by omega)
    (by omega)
  have hfmt := encryptText.format_block_printable b0 b1 b2 b3 (by omega) (by omega) (by omega)
    (by omega)
  refine ⟨?_, by rw [halign], by rw [halign], by
    rw [List.length_append, List.length_drop]⟩
  generalize encryptText.format [b0, b1, b2, b3, 0] = e at hfmt
  obtain ⟨a, b, c, d, t, rfl⟩ : ∃ a b c d t, e = a :: b :: c :: d :: t := by
    rcases e with _ | ⟨a, _ | ⟨b, _ | ⟨c, _ | ⟨d, t⟩⟩⟩⟩
    · simp at hfmt
    · simp at hfmt
    · simp at hfmt
    · simp at hfmt
    · exact ⟨a, b, c, d, t, rfl⟩
  exact readDataBlock_full a b c d (t ++ S) (hfmt.2 a (by simp)) (hfmt.2 b (by simp))
    (hfmt.2 c (by simp)) (hfmt.2 d (by simp))

set_option maxRecDepth 100000 in
/-- Witness for C19: the block `[1, 65, 127, 43]`, whose escaped form `"+AA+&++"` has seven
bytes, followed by `"xy"`. -/
theorem unescape_stays_aligned_witness :
    readDataBlock (encryptText.format [1, 65, 127, 43, 0] ++ [120, 121])
      = (OK, (encryptText.format [1, 65, 127, 43, 0]).take 4 ++ [0],
          (encryptText.format [1, 65, 127, 43, 0]).drop 4 ++ [120, 121]) ∧
    (decryptText.unescapeAll ((encryptText.format [1, 65, 127, 43, 0]).take 4 ++ [0])
        ((encryptText.format [1, 65, 127, 43, 0]).drop 4 ++ [120, 121])).2.1
      = [1, 65, 127, 43, 0] ∧
    (decryptText.unescapeAll ((encryptText.format [1, 65, 127, 43, 0]).take 4 ++ [0])
        ((encryptText.format [1, 65, 127, 43, 0]).drop 4 ++ [120, 121])).2.2 = [120, 121] ∧
    ((encryptText.format [1, 65, 127, 43, 0]).drop 4 ++ [120, 121]).length
      = ((encryptText.format [1, 65, 127, 43, 0]).length - 4) + [120, 121].length :=
  unescape_stays_aligned 1 65 127 43 [120, 121] (by decide) (by decide) (by decide)
    (by decide)

set_option maxRecDepth 100000 in
/-- Counterexample for C20: under the identity permutation the data `"A+@B"` followed by
`"C"` decrypts to the block `[65, 0, 66, 67]`; `decryptText` returns `OK` and writes only
`"A"`, while the non-zero bytes of the block are `"ABC"`. -/
theorem bytes_after_zero_not_printed :
    emptyData [65, 43, 64, 66, 0] = false ∧
    decryptText (List.range 28) [65, 43, 64, 66, 0] [67, 10] = (OK, [65], [10]) ∧
    decryptText.permute (List.range 28)
      (decryptText.unescapeAll [65, 43, 64, 66, 0] [67, 10]).2.1 = [65, 0, 66, 67, 0] ∧
    (decryptText (List.range 28) [65, 43, 64, 66, 0] [67, 10]).2.1
      ≠ ([65, 0, 66, 67].filter (fun b => b != 0)) := by
  decide

theorem takeWhile_eq_filter_of_trailing (l : List Nat)
    (h : ∀ i j, i < j → j < l.length → l.getD i 0 = 0 → l.getD j 0 = 0) :
    l.takeWhile (fun b => b != 0) = l.filter (fun b => b != 0) := by
  induction l with
  | nil => rfl
  | cons a t ih =>
    by_cases ha : a = 0
    · subst ha
      have hall : ∀ x ∈ t, x = 0 := by
        intro x hx
        obtain ⟨n, hn, hget⟩ := List.getElem_of_mem hx
        have := h 0 (n + 1) (by omega) (by simp only [List.length_cons]; omega) rfl
        rw [List.getD_cons_succ, List.getD_eq_getElem _ _ hn, hget] at this
        exact this
      have hfil : t.filter (fun b => b != 0) = [] := by
        rw [List.filter_eq_nil_iff]
        intro x hx
        rw [hall x hx]
        decide
      simp only [List.takeWhile_cons, bne_self_eq_false, Bool.false_eq_true, if_false,
        List.filter_cons, hfil]
    · have hne : (a != 0) = true := by simpa using ha
      rw [List.takeWhile_cons, List.filter_cons, hne]
      simp only [if_true, List.cons.injEq, true_and]
      apply ih
      intro i j hij hj h0
      have := h (i + 1) (j + 1) (by omega) (by simp only [List.length_cons]; omega)
      rw [List.getD_cons_succ, List.getD_cons_succ] at this
      exact this h0

theorem takeWhile_append_zero (l : List Nat) :
    (l ++ [0]).takeWhile (fun b => b != 0) = l.takeWhile (fun b => b != 0) := by
  induction l with
  | nil => rfl
  | cons a t ih =>
    rw [List.cons_append, List.takeWhile_cons, List.takeWhile_cons, ih]

theorem decrypt_permute_split (builtMap decrypted : List Nat) :
    decryptText.permute builtMap decrypted
      = (decryptText.permute builtMap decrypted).take 4 ++ [0] := by
  have h5 := list_five _ (decrypt_permute_length builtMap decrypted)
  rw [decrypt_permute_getD_four] at h5
  generalize decryptText.permute builtMap decrypted = l at h5 ⊢
  rw [h5]
  rfl

/-- C20, amended: for every data block that is not all zero and on which `decryptText`
returns `OK`, the text written is exactly the bytes of the inverse-permuted four-byte block
that come before its first zero byte; when the zero bytes of the block are all at its end,
this is exactly the sequence of its non-zero bytes, in order. -/
theorem decryptText_output (builtMap data input : List Nat)
    (hne : emptyData data = false) (hok : (decryptText builtMap data input).1 = OK) :
    (decryptText builtMap data input).2.1
      = ((decryptText.permute builtMap (decryptText.unescapeAll data input).2.1).take 4).takeWhile
          (fun b => b != 0) ∧
    ((∀ i j, i < j → j < 4 →
        (decryptText.permute builtMap (decryptText.unescapeAll data input).2.1).getD i 0 = 0 →
        (decryptText.permute builtMap (decryptText.unescapeAll data input).2.1).getD j 0 = 0) →
      (decryptText builtMap data input).2.1
        = ((decryptText.permute builtMap (decryptText.unescapeAll data input).2.1).take 4).filter
            (fun b => b != 0)) := by
  have hsplit := decrypt_permute_split builtMap (decryptText.unescapeAll data input).2.1
  have hlen := decrypt_permute_length builtMap (decryptText.unescapeAll data input).2.1
  rw [decryptText_eq builtMap data input hne] at hok ⊢
  generalize decryptText.permute builtMap (decryptText.unescapeAll data input).2.1 = blk
    at hsplit hlen hok ⊢
  cases hout : decryptText.outOfRange blk
  · rw [hout] at hok
    simp only [Bool.false_eq_true, if_false]
    have hprint : printString blk = (blk.take 4).takeWhile (fun b => b != 0) := by
      unfold printString
      conv_lhs => rw [hsplit]
      exact takeWhile_append_zero _
    refine ⟨hprint, ?_⟩
    intro htrail
    rw [hprint]
    apply takeWhile_eq_filter_of_trailing
    intro i j hij hj h0
    have hj4 : j < 4 := by
      rw [List.length_take] at hj
      omega
    have hi4 : i < 4 := by omega
    have hget : ∀ n, n < 4 → (blk.take 4).getD n 0 = blk.getD n 0 := by
      intro n hn
      simp only [List.getD_eq_getElem?_getD, List.getElem?_take, hn, if_true]
    rw [hget i hi4] at h0
    rw [hget j hj4]
    exact htrail i j hij hj4 h0
  · rw [hout] at hok
    simp only [if_true] at hok
    exact absurd hok.symm OK_ne_ERROR

set_option maxRecDepth 100000 in
/-- Witness for the amended C20: the first cipher block `"zaFV"` of the example record. -/
theorem decryptText_output_witness :
    emptyData [122, 97, 70, 86, 0] = false ∧
    (decryptText [2, 21, 5, 8, 27, 0, 7, 26, 11, 19, 6, 10, 3, 4, 23, 24, 17, 12, 18, 16, 15,
        25, 22, 9, 14, 20, 1, 13] [122, 97, 70, 86, 0] [10]).1 = OK ∧
    (decryptText [2, 21, 5, 8, 27, 0, 7, 26, 11, 19, 6, 10, 3, 4, 23, 24, 17, 12, 18, 16, 15,
        25, 22, 9, 14, 20, 1, 13] [122, 97, 70, 86, 0] [10]).2.1
      = ((decryptText.permute [2, 21, 5, 8, 27, 0, 7, 26, 11, 19, 6, 10, 3, 4, 23, 24, 17, 12,
            18, 16, 15, 25, 22, 9, 14, 20, 1, 13]
          (decryptText.unescapeAll [122, 97, 70, 86, 0] [10]).2.1).take 4).takeWhile
          (fun b => b != 0) :=
  ⟨by decide, by decide,
    (decryptText_output _ [122, 97, 70, 86, 0] [10] (by decide) (by decide)).1⟩

theorem bitAt_congr_mod (data data' : List Nat)
    (h : ∀ j, j < 4 → data'.getD j 0 % 128 = data.getD j 0 % 128) (i : Nat) (hi : i < 28) :
    bitAt data' i = bitAt data i := by
  unfold bitAt
  rw [isBitSet_eq_testBit, isBitSet_eq_testBit]
  have hj := h (i / 7) (by omega)
  have h1 := Nat.testBit_mod_two_pow (data'.getD (i / 7) 0) 7 (i % 7)
  have h2 := Nat.testBit_mod_two_pow (data.getD (i / 7) 0) 7 (i % 7)
  have hlt : i % 7 < 7 := Nat.mod_lt _ (by omega)
  simp only [hlt, decide_True, Bool.true_and] at h1 h2
  rw [← h1, ← h2]
  show ((data'.getD (i / 7) 0) % 128).testBit (i % 7) = ((data.getD (i / 7) 0) % 128).testBit (i % 7)
  rw [hj]

/-- C18: for every `builtMap` that is a permutation of `0..27` and every block, the
encrypted block computed by `encryptText` has, for every `n` in `0..27`, bit
`builtMap[n] mod 7` of byte `builtMap[n] / 7` equal to bit `n mod 7` of input byte `n / 7`;
bit 7 of every output byte is 0, and the output does not depend on bit 7 of any input
byte. -/
theorem encrypt_bit_reindexing (builtMap data : List Nat)
    (hperm : List.Perm builtMap (List.range 28)) :
    (∀ n, n < 28 →
      isBitSet ((encryptText.permute builtMap data).getD (builtMap.getD n 0 / 7) 0)
          (builtMap.getD n 0 % 7)
        = isBitSet (data.getD (n / 7) 0) (n % 7)) ∧
    (∀ j, j < 4 → isBitSet ((encryptText.permute builtMap data).getD j 0) 7 = false) ∧
    (∀ data' : List Nat, (∀ j, j < 4 → data'.getD j 0 % 128 = data.getD j 0 % 128) →
      encryptText.permute builtMap data' = encryptText.permute builtMap data) := by
  have hlt := perm_lt builtMap hperm
  refine ⟨?_, ?_, ?_⟩
  · intro n hn
    have h := encrypt_bitAt_permute builtMap data hlt (builtMap.getD n 0)
    unfold bitAt at h
    rw [h, Bool.eq_iff_iff]
    simp only [List.any_eq_true, List.mem_range, Bool.and_eq_true, decide_eq_true_eq]
    constructor
    · rintro ⟨i, hi, hb, heq⟩
      rw [← perm_inj builtMap hperm i n hi hn heq]
      exact hb
    · intro hb
      exact ⟨n, hn, hb, rfl⟩
  · intro j _
    rw [isBitSet_eq_testBit]
    exact Nat.testBit_lt_two_pow (encrypt_permute_getD_lt builtMap data j)
  · intro data' hsame
    apply block_ext _ _ (by rw [encrypt_permute_length, encrypt_permute_length])
      (encrypt_permute_lt _ _) (encrypt_permute_lt _ _)
    intro t _
    rw [encrypt_bitAt_permute builtMap data' hlt t, encrypt_bitAt_permute builtMap data hlt t,
      Bool.eq_iff_iff]
    simp only [List.any_eq_true, List.mem_range, Bool.and_eq_true, decide_eq_true_eq]
    constructor
    · rintro ⟨i, hi, hb, heq⟩
      exact ⟨i, hi, by rw [← bitAt_congr_mod data data' hsame i hi]; exact hb, heq⟩
    · rintro ⟨i, hi, hb, heq⟩
      exact ⟨i, hi, by rw [bitAt_congr_mod data data' hsame i hi]; exact hb, heq⟩

set_option maxRecDepth 100000 in
/-- Witness for C18: the first permutation of the key `m = 38875`, `c = 1234` and the block
`"This"`; the statement is the first part, at bit `n = 2`, which moves to bit 5. -/
theorem encrypt_bit_reindexing_witness :
    List.Perm [2, 21, 5, 8, 27, 0, 7, 26, 11, 19, 6, 10, 3, 4, 23, 24, 17, 12, 18, 16, 15, 25,
      22, 9, 14, 20, 1, 13] (List.range 28) ∧
    isBitSet ((encryptText.permute [2, 21, 5, 8, 27, 0, 7, 26, 11, 19, 6, 10, 3, 4, 23, 24, 17,
        12, 18, 16, 15, 25, 22, 9, 14, 20, 1, 13] [84, 104, 105, 115, 0]).getD (5 / 7) 0) (5 % 7)
      = isBitSet ([84, 104, 105, 115, 0].getD (2 / 7) 0) (2 % 7) :=
  ⟨by decide,
    (encrypt_bit_reindexing [2, 21, 5, 8, 27, 0, 7, 26, 11, 19, 6, 10, 3, 4, 23, 24, 17, 12,
      18, 16, 15, 25, 22, 9, 14, 20, 1, 13] [84, 104, 105, 115, 0] (by decide)).1 2
      (by decide)⟩

/-! ## Rank-based placement -/

theorem take_set_of_le (l : List Nat) (a : Nat) : ∀ (n i : Nat), i ≤ n →
    (l.set n a).take i = l.take i := by
  induction l with
  | nil => intro n i _; simp
  | cons b t ih =>
    intro n i hi
    cases i with
    | zero => rfl
    | succ i =>
      cases n with
      | zero => omega
      | succ n =>
        rw [List.set_cons_succ, List.take_succ_cons, List.take_succ_cons, ih n i (by omega)]

theorem count_take_eq_filter (L : List Nat) : ∀ k, k ≤ L.length →
    (L.take k).count 0 = ((List.range k).filter (fun v => decide (L[v]? = some 0))).length := by
  intro k
  induction k with
  | zero => intro _; rfl
  | succ k ih =>
    intro hk
    have hlt : k < L.length := by omega
    rw [List.take_succ, List.count_append, ih (by omega), List.range_succ, List.filter_append,
      List.length_append, List.getElem?_eq_getElem hlt]
    congr 1
    have hget : L[k]? = some L[k] := List.getElem?_eq_getElem hlt
    by_cases hz : L[k] = 0
    · simp only [Option.toList, List.filter_cons, List.filter_nil, hget, hz, decide_True,
        if_true, List.length_singleton, List.count_singleton_self]
    · have hne : ¬ (some L[k] = some 0) := fun h => hz (Option.some.inj h)
      have hc : List.count 0 [L[k]] = 0 :=
        List.count_eq_zero.2 (fun h => hz (List.mem_singleton.1 h).symm)
      simp only [Option.toList, List.filter_cons, List.filter_nil, hget, hne, decide_False,
        Bool.false_eq_true, if_false, List.length_nil, hc]

/-- The slot that has `r` free slots below it and is free itself is the free slot of
rank `r`. -/
theorem rankedFree_eq (used : List Nat) (k : Nat) (hk : k < MAP_LENGTH) (hfree : k ∉ used) :
    rankedFree used (((List.range k).filter (fun v => decide (v ∉ used))).length) = k := by
  unfold rankedFree
  obtain ⟨d, hd⟩ : ∃ d, MAP_LENGTH = k + (d + 1) := ⟨MAP_LENGTH - k - 1, by omega⟩
  rw [hd, List.range_add, List.range_succ_eq_map, List.map_cons, List.filter_append,
    List.filter_cons]
  have : decide (k + 0 ∉ used) = true := by simpa using hfree
  rw [this]
  simp only [if_true]
  rw [List.getD_append_right _ _ _ _ (le_refl _), Nat.sub_self, List.getD_cons_zero]
  rfl

/-- The placement loop after `n` passes: besides `buildMap.Placed`, the cells of `assigned`
outside the entries placed are zero, and each entry placed is a free slot with exactly
`g[i]` free slots below it. -/
theorem buildMap.placeAll_rank (g : List Nat)
    (hg : ∀ i, i < MAP_LENGTH → g.getD i 0 < MAP_LENGTH - i) :
    ∀ n, n ≤ MAP_LENGTH →
      ∃ s, (List.range n).foldlM (buildMap.place g)
          (List.replicate MAP_LENGTH 0, List.replicate MAP_LENGTH 0) = some s ∧
        buildMap.Placed n s ∧
        (∀ v, v < MAP_LENGTH → v ∉ s.1.take n → s.2[v]? = some 0) ∧
        (∀ i, i < n → s.1.getD i 0 < MAP_LENGTH ∧ s.1.getD i 0 ∉ s.1.take i ∧
          ((List.range (s.1.getD i 0)).filter (fun v => decide (v ∉ s.1.take i))).length
            = g.getD i 0) := by
  intro n
  induction n with
  | zero =>
    intro _
    obtain ⟨s, hs, hinv⟩ := buildMap.placeAll_spec g hg 0 (Nat.zero_le _)
    refine ⟨s, hs, hinv, ?_, fun i hi => absurd hi (Nat.not_lt_zero i)⟩
    intro v hv _
    have : s = (List.replicate MAP_LENGTH 0, List.replicate MAP_LENGTH 0) :=
      (Option.some.inj hs).symm
    rw [this]
    simp only [List.getElem?_replicate, hv, if_true]
  | succ n ih =>
    intro hn
    obtain ⟨s, hs, hinv, hfree, hrank⟩ := ih (by omega)
    obtain ⟨k, hk, hget, hcount, hinv'⟩ := buildMap.place_spec g n s (by omega)
      (hg n (by omega)) hinv
    have hklt : k < MAP_LENGTH := by
      rw [← hinv.lenAssigned]
      by_contra hcon
      rw [List.getElem?_eq_none (by omega)] at hget
      exact Option.noConfusion hget
    have hnlen : n < s.1.length := by rw [hinv.lenMap]; omega
    have htake : (s.1.set n k).take (n + 1) = s.1.take n ++ [k] := take_succ_set s.1 n k hnlen
    have hknot : k ∉ s.1.take n := by
      intro hmem
      have := hinv.marked k hmem
      rw [hget] at this
      exact absurd (Option.some.inj this) (by decide)
    refine ⟨(s.1.set n k, s.2.set k 1), ?_, hinv', ?_, ?_⟩
    · rw [List.range_succ, List.foldlM_append, hs]
      simp only [Option.bind_eq_bind, Option.some_bind, List.foldlM_cons, List.foldlM_nil, hk]
      rfl
    · intro v hv hnot
      simp only [htake, List.mem_append, List.mem_singleton, not_or] at hnot
      simp only [List.getElem?_set]
      rw [if_neg (fun h => hnot.2 h.symm)]
      exact hfree v hv hnot.1
    · intro i hi
      by_cases hin : i < n
      · have hgetD : (s.1.set n k).getD i 0 = s.1.getD i 0 := by
          simp only [List.getD_eq_getElem?_getD, List.getElem?_set]
          rw [if_neg (by omega)]
        have htk : (s.1.set n k).take i = s.1.take i := take_set_of_le s.1 k n i (by omega)
        simp only [hgetD, htk]
        exact hrank i hin
      · have hieq : i = n := by omega
        subst hieq
        have hgetD : (s.1.set i k).getD i 0 = k := by
          rw [List.getD_eq_getElem _ _ (by rw [List.length_set]; exact hnlen),
            List.getElem_set_self]
        have htk : (s.1.set i k).take i = s.1.take i := take_set_of_le s.1 k i i (le_refl _)
        simp only [hgetD, htk]
        refine ⟨hklt, hknot, ?_⟩
        rw [← hcount, count_take_eq_filter s.2 k (by rw [hinv.lenAssigned]; omega)]
        congr 1
        apply List.filter_congr
        intro v hv
        have hvk : v < k := List.mem_range.1 hv
        rw [decide_eq_decide]
        constructor
        · intro hnot
          exact hfree v (by omega) hnot
        · intro hzero hmem
          have := hinv.marked v hmem
          rw [hzero] at this
          exact absurd (Option.some.inj this) (by decide)

/-- The placement loop on a digit sequence with `g[i] < 28 - i`: it runs through, and the
entry `i` of `builtMap` is a slot outside the entries before it that has exactly `g[i]`
such slots below it. -/
theorem buildMap.placeAll_ranked (g : List Nat)
    (hg : ∀ i, i < MAP_LENGTH → g.getD i 0 < MAP_LENGTH - i) :
    ∃ s, buildMap.placeAll g = some s ∧ s.1.length = MAP_LENGTH ∧
      ∀ i, i < MAP_LENGTH → s.1.getD i 0 < MAP_LENGTH ∧ s.1.getD i 0 ∉ s.1.take i ∧
        ((List.range (s.1.getD i 0)).filter (fun v => decide (v ∉ s.1.take i))).length
          = g.getD i 0 := by
  obtain ⟨s, hs, hinv, -, hrank⟩ := buildMap.placeAll_rank g hg MAP_LENGTH (le_refl _)
  exact ⟨s, hs, hinv.lenMap, hrank⟩

/-- C17: for every digit sequence `g` with `g[i] < 28 - i`, the placement loop of `buildMap`
runs through and sets `builtMap[i]`, for each `i` in `0..27`, to the element of rank `g[i]`,
counted from 0 in increasing order, among the slots of `0..27` that are not among
`builtMap[0], ..., builtMap[i-1]`. -/
theorem placement_is_rank_selection (g : List Nat)
    (hg : ∀ i, i < 28 → g.getD i 0 < 28 - i) :
    ∃ builtMap assigned, buildMap.placeAll g = some (builtMap, assigned) ∧
      builtMap.length = 28 ∧
      ∀ i, i < 28 → builtMap.getD i 0 ∉ builtMap.take i ∧
        builtMap.getD i 0 = rankedFree (builtMap.take i) (g.getD i 0) := by
  obtain ⟨s, hs, hlen, hrank⟩ := buildMap.placeAll_ranked g hg
  refine ⟨s.1, s.2, hs, hlen, ?_⟩
  intro i hi
  obtain ⟨hlt, hnot, hcount⟩ := hrank i hi
  refine ⟨hnot, ?_⟩
  rw [← hcount]
  exact (rankedFree_eq (s.1.take i) (s.1.getD i 0) hlt hnot).symm

set_option maxRecDepth 100000 in
/-- Witness for C17: the digits `g[i] = 27 - i`, which pick the highest free slot each
time. -/
theorem placement_is_rank_selection_witness :
    (∀ i, i < 28 → ((List.range 28).map (fun i => 27 - i)).getD i 0 < 28 - i) ∧
    ∃ builtMap assigned,
      buildMap.placeAll ((List.range 28).map (fun i => 27 - i)) = some (builtMap, assigned) ∧
      builtMap.length = 28 ∧
      ∀ i, i < 28 → builtMap.getD i 0 ∉ builtMap.take i ∧
        builtMap.getD i 0
          = rankedFree (builtMap.take i) (((List.range 28).map (fun i => 27 - i)).getD i 0) :=
  ⟨by decide, placement_is_rank_selection ((List.range 28).map (fun i => 27 - i)) (by decide)⟩

/-! ## Consecutive permutations -/

/-- The placement loop gives different permutations to different digit sequences. -/
theorem buildMap.placeAll_injective (g g' : List Nat) (s s' : List Nat × List Nat)
    (hg : ∀ i, i < MAP_LENGTH → g.getD i 0 < MAP_LENGTH - i)
    (hg' : ∀ i, i < MAP_LENGTH → g'.getD i 0 < MAP_LENGTH - i)
    (hlen : g.length = MAP_LENGTH) (hlen' : g'.length = MAP_LENGTH)
    (hs : buildMap.placeAll g = some s) (hs' : buildMap.placeAll g' = some s')
    (heq : s.1 = s'.1) : g = g' := by
  obtain ⟨t, ht, -, hrank⟩ := buildMap.placeAll_ranked g hg
  obtain ⟨t', ht', -, hrank'⟩ := buildMap.placeAll_ranked g' hg'
  rw [hs] at ht
  rw [hs'] at ht'
  have e1 : s = t := Option.some.inj ht
  have e2 : s' = t' := Option.some.inj ht'
  subst e1 e2
  apply List.ext_getElem (by rw [hlen, hlen'])
  intro i h1 h2
  have hi : i < MAP_LENGTH := by rw [← hlen]; exact h1
  have r1 := (hrank i hi).2.2
  have r2 := (hrank' i hi).2.2
  rw [heq] at r1
  rw [r1, List.getD_eq_getElem _ _ h1, List.getD_eq_getElem _ _ h2] at r2
  exact r2

theorem buildMap_placeAll (st st' : LCG) (builtMap : List Nat)
    (h : buildMap st = some (builtMap, st')) :
    ∃ assigned, buildMap.placeAll (buildMap.computeG st).1 = some (builtMap, assigned) := by
  unfold buildMap at h
  split at h
  · exact Option.noConfusion h
  · cases hp : buildMap.placeAll (buildMap.computeG st).1 with
    | none => rw [hp] at h; exact Option.noConfusion h
    | some s =>
      rw [hp] at h
      have := congrArg (fun r => r.1) (Option.some.inj h)
      simp only at this
      exact ⟨s.2, by rw [← this]⟩

/-- Two calls of `buildMap` build the same permutation exactly when they draw the same
digits. -/
theorem buildMap_eq_iff (st1 st2 st1' st2' : LCG) (map1 map2 : List Nat)
    (h1 : buildMap st1 = some (map1, st1')) (h2 : buildMap st2 = some (map2, st2')) :
    map1 = map2 ↔ (buildMap.computeG st1).1 = (buildMap.computeG st2).1 := by
  obtain ⟨a1, hp1⟩ := buildMap_placeAll st1 st1' map1 h1
  obtain ⟨a2, hp2⟩ := buildMap_placeAll st2 st2' map2 h2
  constructor
  · intro heq
    have c1 := buildMap.computeG_spec st1 MAP_LENGTH (le_refl _)
    have c2 := buildMap.computeG_spec st2 MAP_LENGTH (le_refl _)
    exact buildMap.placeAll_injective _ _ _ _ c1.2 c2.2 c1.1 c2.1 hp1 hp2 heq
  · intro heq
    rw [heq, hp2] at hp1
    exact (congrArg (fun r => r.1) (Option.some.inj hp1)).symm

theorem main.nthMap_succ (k : Nat) : ∀ (st : LCG),
    main.nthMap st (k + 1)
      = match main.nthMap st k with
        | none => none
        | some r => buildMap r.2 := by
  induction k with
  | zero =>
    intro st
    simp only [main.nthMap]
  | succ k ih =>
    intro st
    rw [main.nthMap]
    cases hb : buildMap st with
    | none => simp only [main.nthMap, hb]
    | some r =>
      simp only
      rw [ih r.2]
      conv_rhs => rw [main.nthMap, hb]

theorem buildMap_lcg_m (st st' : LCG) (builtMap : List Nat)
    (h : buildMap st = some (builtMap, st')) : st'.lcg_m = st.lcg_m := by
  unfold buildMap at h
  split at h
  · exact Option.noConfusion h
  · cases hp : buildMap.placeAll (buildMap.computeG st).1 with
    | none => rw [hp] at h; exact Option.noConfusion h
    | some s =>
      rw [hp] at h
      have := congrArg (fun r => r.2) (Option.some.inj h)
      simp only at this
      rw [← this, buildMap.computeG_lcg_m]

/-- Every call of `buildMap` in the block loop returns: call `k` is `buildMap` on the
generator that the calls before it have left. -/
theorem main.nthMap_total (k : Nat) : ∀ (st : LCG), 0 < st.lcg_m →
    ∃ before builtMap after, 0 < before.lcg_m ∧ 0 < after.lcg_m ∧
      buildMap before = some (builtMap, after) ∧
      main.nthMap st k = some (builtMap, after) := by
  induction k with
  | zero =>
    intro st hm
    obtain ⟨builtMap, hb, -⟩ := buildMap_perm st hm
    exact ⟨st, builtMap, _, hm, by rw [buildMap.computeG_lcg_m]; exact hm, hb, hb⟩
  | succ k ih =>
    intro st hm
    obtain ⟨map0, hb, -⟩ := buildMap_perm st hm
    obtain ⟨before, builtMap, after, h1, h2, h3, h4⟩ := ih (buildMap.computeG st).2
      (by rw [buildMap.computeG_lcg_m]; exact hm)
    refine ⟨before, builtMap, after, h1, h2, h3, ?_⟩
    rw [main.nthMap, hb]
    exact h4

set_option maxRecDepth 1000000 in
/-- Counterexample for C13: the key `m = 8`, `c = 2` is accepted with `a = 5`; its generator
runs through `2, 4, 6, 0` and is back at 2 after 28 steps, so the second call of `buildMap`
builds the same permutation as the first. -/
theorem same_permutation_twice :
    buildLCG (LCG.mk 0 0 0 0) 8 2 = some (OK, LCG.mk 2 8 5 2) ∧
    main.nthMap (LCG.mk 2 8 5 2) 0
      = some ([2, 5, 8, 0, 4, 9, 12, 1, 7, 13, 16, 3, 11, 17, 20, 6, 15, 21, 24, 10, 19, 25,
          14, 18, 26, 23, 22, 27], LCG.mk 2 8 5 2) ∧
    main.nthMap (LCG.mk 2 8 5 2) 1
      = some ([2, 5, 8, 0, 4, 9, 12, 1, 7, 13, 16, 3, 11, 17, 20, 6, 15, 21, 24, 10, 19, 25,
          14, 18, 26, 23, 22, 27], LCG.mk 2 8 5 2) := by
  decide

/-- C13, amended: for every key `(m, c)` accepted by `buildLCG` and every block index `k`,
the calls `k` and `k + 1` of `buildMap` both return, call `k + 1` starts from the generator
that call `k` has left, and the permutation built by call `k + 1` differs from the one built
by call `k` exactly when the two calls draw different digit sequences `g`. -/
theorem consecutive_permutations (st0 : LCG) (m c : Nat) (key : LCG) (k : Nat)
    (hkey : buildLCG st0 m c = some (OK, key)) :
    ∃ before map1 between map2 after,
      buildMap before = some (map1, between) ∧
      main.nthMap key k = some (map1, between) ∧
      buildMap between = some (map2, after) ∧
      main.nthMap key (k + 1) = some (map2, after) ∧
      (map1 ≠ map2 ↔ (buildMap.computeG before).1 ≠ (buildMap.computeG between).1) := by
  obtain ⟨before, map1, between, -, hm1, hb1, hn1⟩ := main.nthMap_total k key
    (buildLCG_ok st0 m c key hkey)
  obtain ⟨map2, hb2, -⟩ := buildMap_perm between hm1
  refine ⟨before, map1, between, map2, _, hb1, hn1, hb2, ?_,
    not_congr (buildMap_eq_iff before between _ _ map1 map2 hb1 hb2)⟩
  rw [main.nthMap_succ, hn1]
  exact hb2

set_option maxRecDepth 1000000 in
/-- Witness for the amended C13 at the key `m = 38875`, `c = 1234` and the first two
blocks. -/
theorem consecutive_permutations_witness :
    buildLCG (LCG.mk 0 0 0 0) 38875 1234 = some (OK, LCG.mk 1234 38875 1556 1234) ∧
    ∃ before map1 between map2 after,
      buildMap before = some (map1, between) ∧
      main.nthMap (LCG.mk 1234 38875 1556 1234) 0 = some (map1, between) ∧
      buildMap between = some (map2, after) ∧
      main.nthMap (LCG.mk 1234 38875 1556 1234) (0 + 1) = some (map2, after) ∧
      (map1 ≠ map2 ↔ (buildMap.computeG before).1 ≠ (buildMap.computeG between).1) :=
  ⟨by decide,
    consecutive_permutations (LCG.mk 0 0 0 0) 38875 1234 (LCG.mk 1234 38875 1556 1234) 0
      (by decide)⟩

/-! ## Records after a failed record -/

set_option maxRecDepth 1000000 in
/-- C15, failing input: in the record `e5` the number ends at the line terminator, and
`readNumber` has consumed that terminator when it reports the bad number; `skipToEndOfLine`
then discards the whole next line, so the valid record `e38875,1234,Hi` after it is never
processed and the output is `    1) Error` followed by an empty line. With the failed
record replaced by the line `e7,1,x`, which fails on its key, the same second record is
processed and printed as `    2) X+C+@ `. -/
theorem failed_record_swallows_next_line :
    readNumber 44 [53, 10, 101, 51, 56, 56, 55, 53, 44, 49, 50, 51, 52, 44, 72, 105, 10]
      = (0, [101, 51, 56, 56, 55, 53, 44, 49, 50, 51, 52, 44, 72, 105, 10]) ∧
    main [101, 53, 10, 101, 51, 56, 56, 55, 53, 44, 49, 50, 51, 52, 44, 72, 105, 10]
      = some [32, 32, 32, 32, 49, 41, 32, 69, 114, 114, 111, 114, 10, 10] ∧
    main [101, 55, 44, 49, 44, 120, 10,
        101, 51, 56, 56, 55, 53, 44, 49, 50, 51, 52, 44, 72, 105, 10]
      = some [32, 32, 32, 32, 49, 41, 32, 69, 114, 114, 111, 114, 10,
          32, 32, 32, 32, 50, 41, 32, 88, 43, 67, 43, 64, 32, 10, 10] := by
  decide

/-! ## The length of the decrypted text -/

set_option maxRecDepth 1000000 in
/-- C21, the failing input: the data `"+@+@"` followed by `"+@+@"` is not empty, and every
one of its four escapes stands for the byte 0, so the block decodes to four zero bytes;
`decryptText` returns `OK` and writes no byte at all, where its own description promises 1 to
4 bytes.  The record `d38875,1234,+@+@+@+@` is answered with an empty text and not with
`Error`. -/
theorem escaped_zeros_decrypt_to_nothing :
    readDataBlock [43, 64, 43, 64, 43, 64, 43, 64, 10]
      = (OK, [43, 64, 43, 64, 0], [43, 64, 43, 64, 10]) ∧
    emptyData [43, 64, 43, 64, 0] = false ∧
    decryptText [2, 21, 5, 8, 27, 0, 7, 26, 11, 19, 6, 10, 3, 4, 23, 24, 17, 12, 18, 16, 15,
        25, 22, 9, 14, 20, 1, 13] [43, 64, 43, 64, 0] [43, 64, 43, 64, 10] = (OK, [], [10]) ∧
    main [100, 51, 56, 56, 55, 53, 44, 49, 50, 51, 52, 44, 43, 64, 43, 64, 43, 64, 43, 64, 10]
      = some [32, 32, 32, 32, 49, 41, 32, 10, 10] := by
  decide

/-- On a data block that is not all zero and on which `decryptText` returns `OK`, the text
written is never longer than 4 bytes, and it is empty exactly when the first byte of the
inverse-permuted block is zero. -/
theorem decrypted_text_length (builtMap data input : List Nat)
    (hne : emptyData data = false) (hok : (decryptText builtMap data input).1 = OK) :
    (decryptText builtMap data input).2.1.length ≤ 4 ∧
    (1 ≤ (decryptText builtMap data input).2.1.length ↔
      (decryptText.permute builtMap (decryptText.unescapeAll data input).2.1).getD 0 0 ≠ 0) := by
  have h5 := list_five _
    (decrypt_permute_length builtMap (decryptText.unescapeAll data input).2.1)
  rw [decrypt_permute_getD_four] at h5
  rw [decryptText_eq builtMap data input hne] at hok ⊢
  generalize decryptText.permute builtMap (decryptText.unescapeAll data input).2.1 = blk
    at h5 hok ⊢
  obtain ⟨a, b, c, d, rfl⟩ : ∃ a b c d, blk = [a, b, c, d, 0] := ⟨_, _, _, _, h5⟩
  cases hout : decryptText.outOfRange [a, b, c, d, 0]
  · simp only [Bool.false_eq_true, if_false]
    have hprint : printString [a, b, c, d, 0] = [a, b, c, d].takeWhile (fun b => b != 0) :=
      takeWhile_append_zero [a, b, c, d]
    rw [hprint, List.getD_cons_zero]
    constructor
    · exact (List.takeWhile_prefix (fun b => b != 0)).length_le
    · by_cases h0 : a = 0
      · subst h0
        simp
      · have hb : (a != 0) = true := by simpa using h0
        rw [List.takeWhile_cons, hb]
        simp [h0]
  · rw [hout] at hok
    simp only [if_true] at hok
    exact absurd hok.symm OK_ne_ERROR

/-! ## Termination of the trial division -/

theorem calculatePrimeFactors.loop_succ (fuel number : Nat) (divisor : Int)
    (recorded : List Int) :
    calculatePrimeFactors.loop (fuel + 1) number divisor recorded
      = if number > intToU64 divisor then
          calculatePrimeFactors.loop fuel
            (calculatePrimeFactors.body (number, divisor, recorded)).1
            (calculatePrimeFactors.body (number, divisor, recorded)).2.1
            (calculatePrimeFactors.body (number, divisor, recorded)).2.2
        else some (recorded ++ [divisor]) := by
  rw [calculatePrimeFactors.loop]
  unfold calculatePrimeFactors.body
  by_cases hgt : number > intToU64 divisor
  · rw [if_pos hgt, if_pos hgt]
    by_cases hdiv : number % intToU64 divisor = 0
    · simp only [hdiv, if_true]
    · simp only [hdiv, if_false]
  · rw [if_neg hgt, if_neg hgt]

/-- The body of the loop on a divisor in the range of `int`: a divisor that divides
`number` is recorded and divided out, any other gives way to the next candidate. -/
theorem calculatePrimeFactors.body_cast (number d : Nat) (recorded : List Int)
    (hd : d + 2 < 2 ^ 31) :
    calculatePrimeFactors.body (number, (d : Int), recorded)
      = if number % d = 0 then (number / d, (d : Int), recorded ++ [(d : Int)])
        else (number, ((if d = 2 then 3 else d + 2 : Nat) : Int), recorded) := by
  unfold calculatePrimeFactors.body
  simp only
  rw [intToU64_natCast d (by omega)]
  by_cases hdiv : number % d = 0
  · rw [if_pos hdiv, if_pos hdiv]
  · rw [if_neg hdiv, if_neg hdiv]
    by_cases h2 : d = 2
    · subst h2
      simp
    · rw [if_neg h2, if_neg (by omega)]
      have := wrapInt_natCast (d + 2) (by omega)
      push_cast at this ⊢
      rw [this]

/-- From a state in which no prime factor of `number` lies below the divisor, the loop
leaves after finitely many passes; every pass before that either makes `number` smaller and
keeps the divisor or keeps `number` and makes the divisor larger, and the divisor never
exceeds `number`. -/
theorem calculatePrimeFactors.body_run : ∀ (bound number d : Nat) (recorded : List Int),
    2 ≤ number → 2 ≤ d → (d = 2 ∨ d % 2 = 1) →
    (∀ q, q.Prime → q ∣ number → d ≤ q) →
    (∀ q, q.Prime → q ∣ number → q < 2 ^ 31) →
    number + (2 ^ 31 - d) < bound →
    ∃ k, k < bound ∧
      (∀ j, j < k →
        (calculatePrimeFactors.body^[j] (number, (d : Int), recorded)).1
            > intToU64 (calculatePrimeFactors.body^[j] (number, (d : Int), recorded)).2.1 ∧
        (((calculatePrimeFactors.body^[j + 1] (number, (d : Int), recorded)).1
              < (calculatePrimeFactors.body^[j] (number, (d : Int), recorded)).1 ∧
            (calculatePrimeFactors.body^[j + 1] (number, (d : Int), recorded)).2.1
              = (calculatePrimeFactors.body^[j] (number, (d : Int), recorded)).2.1) ∨
          ((calculatePrimeFactors.body^[j + 1] (number, (d : Int), recorded)).1
              = (calculatePrimeFactors.body^[j] (number, (d : Int), recorded)).1 ∧
            (calculatePrimeFactors.body^[j] (number, (d : Int), recorded)).2.1
              < (calculatePrimeFactors.body^[j + 1] (number, (d : Int), recorded)).2.1))) ∧
      (∀ j, j ≤ k →
        2 ≤ (calculatePrimeFactors.body^[j] (number, (d : Int), recorded)).2.1 ∧
        (calculatePrimeFactors.body^[j] (number, (d : Int), recorded)).2.1
          ≤ ((calculatePrimeFactors.body^[j] (number, (d : Int), recorded)).1 : Int)) ∧
      ¬ ((calculatePrimeFactors.body^[k] (number, (d : Int), recorded)).1
          > intToU64 (calculatePrimeFactors.body^[k] (number, (d : Int), recorded)).2.1) ∧
      ∀ fuel, k < fuel →
        calculatePrimeFactors.loop fuel number (d : Int) recorded
          = some ((calculatePrimeFactors.body^[k] (number, (d : Int), recorded)).2.2
              ++ [(calculatePrimeFactors.body^[k] (number, (d : Int), recorded)).2.1]) := by
  intro bound
  induction bound with
  | zero => intro number d recorded _ _ _ _ _ h; omega
  | succ bound ih =>
    intro number d recorded hn hd hpar hmin hbig hbound
    have hmf : (Nat.minFac number).Prime := Nat.minFac_prime (by omega)
    have hmfd : Nat.minFac number ∣ number := Nat.minFac_dvd number
    have hdle : d ≤ Nat.minFac number := hmin _ hmf hmfd
    have hmfbig : Nat.minFac number < 2 ^ 31 := hbig _ hmf hmfd
    have hmfle : Nat.minFac number ≤ number := Nat.minFac_le (by omega)
    have hcast : intToU64 (d : Int) = d := intToU64_natCast d (by omega)
    by_cases hgt : number > d
    · -- the loop is entered: one pass, then the run from the next state
      have hstep : ∃ (number' : Nat) (d' : Nat) (recorded' : List Int),
          calculatePrimeFactors.body (number, (d : Int), recorded)
            = (number', (d' : Int), recorded') ∧
          2 ≤ number' ∧ 2 ≤ d' ∧ (d' = 2 ∨ d' % 2 = 1) ∧
          (∀ q, q.Prime → q ∣ number' → d' ≤ q) ∧
          (∀ q, q.Prime → q ∣ number' → q < 2 ^ 31) ∧
          number' + (2 ^ 31 - d') < bound ∧
          ((number' < number ∧ d' = d) ∨ (number' = number ∧ d < d')) := by
        by_cases hdiv : number % d = 0
        · have hdvd : d ∣ number := Nat.dvd_of_mod_eq_zero hdiv
          have hq2 : 2 ≤ number / d := by
            obtain ⟨k, hk⟩ := hdvd
            have hdpos : 0 < d := by omega
            rw [hk, Nat.mul_div_cancel_left _ hdpos]
            by_contra hlt
            have : k ≤ 1 := by omega
            have : d * k ≤ d * 1 := Nat.mul_le_mul_left d this
            omega
          have hqdvd : number / d ∣ number := Nat.div_dvd_of_dvd hdvd
          have hlt : number / d < number := Nat.div_lt_self (by omega) (by omega)
          refine ⟨number / d, d, recorded ++ [(d : Int)], ?_, hq2, hd, hpar,
            fun q hq hqd => hmin q hq (hqd.trans hqdvd),
            fun q hq hqd => hbig q hq (hqd.trans hqdvd), by omega, Or.inl ⟨hlt, rfl⟩⟩
          unfold calculatePrimeFactors.body
          simp only [hcast, hdiv, if_true]
        · have hnd : ¬ d ∣ number := fun h => hdiv (Nat.mod_eq_zero_of_dvd h)
          have hne : d ≠ Nat.minFac number := fun h => hnd (h ▸ hmfd)
          have hnext : (if d = 2 then 3 else d + 2) ≤ Nat.minFac number := by
            by_cases h2 : d = 2
            · rw [if_pos h2]
              omega
            · rw [if_neg h2]
              have hodd : d % 2 = 1 := by omega
              have h1 : d < Nat.minFac number := lt_of_le_of_ne hdle hne
              by_contra hcon
              have heq : Nat.minFac number = d + 1 := by omega
              have heven : 2 ∣ Nat.minFac number := by omega
              have := (Nat.prime_dvd_prime_iff_eq Nat.prime_two hmf).1 heven
              omega
          have hbody := calculatePrimeFactors.body_cast number d recorded (by
            by_cases h2 : d = 2
            · omega
            · rw [if_neg h2] at hnext
              omega)
          rw [if_neg hdiv] at hbody
          refine ⟨number, if d = 2 then 3 else d + 2, recorded, hbody, hn, ?_, ?_, ?_, hbig, ?_, ?_⟩
          · split <;> omega
          · split <;> omega
          · intro q hq hqd
            exact hnext.trans (Nat.minFac_le_of_dvd hq.two_le hqd)
          · split <;> omega
          · exact Or.inr ⟨rfl, by split <;> omega⟩
      obtain ⟨number', d', recorded', hbody, hn', hd', hpar', hmin', hbig', hbound', hmono⟩ :=
        hstep
      obtain ⟨k, hk, hpass, hinv, hexit, hloop⟩ := ih number' d' recorded' hn' hd' hpar' hmin'
        hbig' hbound'
      rw [← hbody] at hpass hinv hexit
      refine ⟨k + 1, by omega, ?_, ?_, ?_, ?_⟩
      · intro j hj
        cases j with
        | zero =>
          simp only [Function.iterate_zero, id_eq, zero_add, Function.iterate_one]
          rw [hcast, hbody]
          simp only
          refine ⟨hgt, ?_⟩
          rcases hmono with ⟨h1, h2⟩ | ⟨h1, h2⟩
          · exact Or.inl ⟨h1, by rw [h2]⟩
          · exact Or.inr ⟨h1, by exact_mod_cast h2⟩
        | succ j =>
          have := hpass j (by omega)
          simp only [Function.iterate_succ_apply] at this ⊢
          exact this
      · intro j hj
        cases j with
        | zero =>
          simp only [Function.iterate_zero, id_eq]
          exact ⟨by exact_mod_cast hd, by exact_mod_cast le_of_lt hgt⟩
        | succ j =>
          have := hinv j (by omega)
          simp only [Function.iterate_succ_apply] at this ⊢
          exact this
      · simp only [Function.iterate_succ_apply]
        exact hexit
      · intro fuel hfuel
        obtain ⟨f, rfl⟩ : ∃ f, fuel = f + 1 := ⟨fuel - 1, by omega⟩
        rw [calculatePrimeFactors.loop_succ, hcast, if_pos hgt]
        simp only [Function.iterate_succ_apply]
        rw [hbody]
        exact hloop f (by omega)
    · -- the loop is left at once
      refine ⟨0, by omega, fun j hj => absurd hj (by omega), ?_, ?_, ?_⟩
      · intro j hj
        have hj0 : j = 0 := by omega
        subst hj0
        simp only [Function.iterate_zero, id_eq]
        exact ⟨by exact_mod_cast hd, by exact_mod_cast (hdle.trans hmfle)⟩
      · simp only [Function.iterate_zero, id_eq]
        rw [hcast]
        exact hgt
      · intro fuel hfuel
        obtain ⟨f, rfl⟩ : ∃ f, fuel = f + 1 := ⟨fuel - 1, by omega⟩
        rw [calculatePrimeFactors.loop_succ, hcast, if_neg hgt]
        rfl

/-- C22: `calculatePrimeFactors` returns for every number in its range.  For `number < 2` it
returns at once with no factor recorded.  For `number ≥ 2` whose prime factors are below
`2^31` the loop is left after some number `k` of passes: the loop condition holds before
each of the `k` passes and fails after the last; every pass either makes `number` strictly
smaller and keeps `divisor`, or keeps `number` and makes `divisor` strictly larger; and
`2 ≤ divisor ≤ number` holds before and after every pass.  The function then returns with
the entries recorded by these passes and the last divisor in `factors`. -/
theorem calculatePrimeFactors_terminates (number : Nat) :
    (number < 2 → calculatePrimeFactors number = some (List.replicate 100 0)) ∧
    (2 ≤ number → number < 2 ^ 64 → (∀ q, q.Prime → q ∣ number → q < 2 ^ 31) →
      ∃ k factors,
        (∀ j, j < k →
          (calculatePrimeFactors.pass number j).1
              > intToU64 (calculatePrimeFactors.pass number j).2.1 ∧
          (((calculatePrimeFactors.pass number (j + 1)).1
                < (calculatePrimeFactors.pass number j).1 ∧
              (calculatePrimeFactors.pass number (j + 1)).2.1
                = (calculatePrimeFactors.pass number j).2.1) ∨
            ((calculatePrimeFactors.pass number (j + 1)).1
                = (calculatePrimeFactors.pass number j).1 ∧
              (calculatePrimeFactors.pass number j).2.1
                < (calculatePrimeFactors.pass number (j + 1)).2.1))) ∧
        (∀ j, j ≤ k →
          2 ≤ (calculatePrimeFactors.pass number j).2.1 ∧
          (calculatePrimeFactors.pass number j).2.1
            ≤ ((calculatePrimeFactors.pass number j).1 : Int)) ∧
        ¬ ((calculatePrimeFactors.pass number k).1
            > intToU64 (calculatePrimeFactors.pass number k).2.1) ∧
        calculatePrimeFactors number = some factors ∧
        factors.takeWhile (fun f => f != 0)
          = (calculatePrimeFactors.pass number k).2.2
              ++ [(calculatePrimeFactors.pass number k).2.1]) := by
  constructor
  · intro h
    unfold calculatePrimeFactors
    rw [if_pos h]
  · intro h2 h64 hbig
    obtain ⟨k, hk, hpass, hinv, hexit, hloop⟩ := calculatePrimeFactors.body_run
      (number + 2 ^ 31) number 2 [] h2 (le_refl 2) (Or.inl rfl) (fun q hq _ => hq.two_le) hbig
      (by omega)
    obtain ⟨factors, hf, -, hrec⟩ := calculatePrimeFactors_recorded number h2 h64 hbig
    have hspec := calculatePrimeFactors.loop_spec (number + 2 ^ 32) number 2 [] h2 (le_refl 2)
      (Or.inl rfl) (fun q hq _ => hq.two_le) (primeFactors_lt_of_prime_dvd number hbig)
      (by omega)
    have hrun := hloop (number + 2 ^ 32) (by omega)
    rw [hspec] at hrun
    simp only [Nat.cast_ofNat, List.nil_append] at hpass hinv hexit hrun
    refine ⟨k, factors, hpass, hinv, hexit, hf, ?_⟩
    rw [hrec]
    exact Option.some.inj hrun

set_option maxRecDepth 1000000 in
/-- Witness for C22 at the numbers 1 and `38875 = 5 * 5 * 5 * 311`. -/
theorem calculatePrimeFactors_terminates_witness :
    calculatePrimeFactors 1 = some (List.replicate 100 0) ∧
    ∃ k factors,
      (∀ j, j < k →
        (calculatePrimeFactors.pass 38875 j).1
            > intToU64 (calculatePrimeFactors.pass 38875 j).2.1 ∧
        (((calculatePrimeFactors.pass 38875 (j + 1)).1
              < (calculatePrimeFactors.pass 38875 j).1 ∧
            (calculatePrimeFactors.pass 38875 (j + 1)).2.1
              = (calculatePrimeFactors.pass 38875 j).2.1) ∨
          ((calculatePrimeFactors.pass 38875 (j + 1)).1
              = (calculatePrimeFactors.pass 38875 j).1 ∧
            (calculatePrimeFactors.pass 38875 j).2.1
              < (calculatePrimeFactors.pass 38875 (j + 1)).2.1))) ∧
      (∀ j, j ≤ k →
        2 ≤ (calculatePrimeFactors.pass 38875 j).2.1 ∧
        (calculatePrimeFactors.pass 38875 j).2.1
          ≤ ((calculatePrimeFactors.pass 38875 j).1 : Int)) ∧
      ¬ ((calculatePrimeFactors.pass 38875 k).1
          > intToU64 (calculatePrimeFactors.pass 38875 k).2.1) ∧
      calculatePrimeFactors 38875 = some factors ∧
      factors.takeWhile (fun f => f != 0)
        = (calculatePrimeFactors.pass 38875 k).2.2
            ++ [(calculatePrimeFactors.pass 38875 k).2.1] :=
  ⟨(calculatePrimeFactors_terminates 1).1 (by decide),
    (calculatePrimeFactors_terminates 38875).2 (by decide) (by decide)
      (fun _ _ hd => lt_of_le_of_lt (Nat.le_of_dvd (by decide) hd) (by decide))⟩

/-! ## The product `p` and the square-free moduli -/

theorem calculatePrimeFactors_one : calculatePrimeFactors 1 = some (List.replicate 100 0) := by
  unfold calculatePrimeFactors
  rw [if_pos (by decide)]

theorem buildLCG.product_zeros : buildLCG.product (List.replicate 100 0) = 1 := by
  decide

/-- C23: for every 64-bit `m ≥ 2` whose prime factors are below `2^31`,
`calculatePrimeFactors` returns, the entries of `factors` before the first zero are in
non-decreasing order, and the product `p` that `buildLCG` computes from them, multiplying in
every entry that differs from the one before it, is the product of the distinct prime
factors of `m`; for `m = 1` no factor is recorded and `p = 1`. -/
theorem buildLCG_product_radical (m : Nat) (h2 : 2 ≤ m) (h64 : m < 2 ^ 64)
    (hbig : ∀ q, q.Prime → q ∣ m → q < 2 ^ 31) :
    (∃ factors, calculatePrimeFactors m = some factors ∧
      List.Pairwise (fun a b => a ≤ b) (factors.takeWhile (fun f => f != 0)) ∧
      buildLCG.product factors = m.primeFactors.prod (fun q => q)) ∧
    (∃ factors, calculatePrimeFactors 1 = some factors ∧ buildLCG.product factors = 1) := by
  refine ⟨?_, _, calculatePrimeFactors_one, buildLCG.product_zeros⟩
  obtain ⟨factors, hf, hprod⟩ := buildLCG.product_eq m h2 h64 hbig
  obtain ⟨factors', hf', -, hrec⟩ := calculatePrimeFactors_recorded m h2 h64 hbig
  rw [hf] at hf'
  have hfe : factors = factors' := Option.some.inj hf'
  subst hfe
  refine ⟨factors, hf, ?_, hprod⟩
  rw [hrec]
  exact List.Pairwise.map Int.ofNat (fun a b hab => Int.ofNat_le.2 hab)
    (Nat.primeFactorsList_sorted m)

/-- Witness for C23 at `m = 38875 = 5 * 5 * 5 * 311`, where `p = 5 * 311`. -/
theorem buildLCG_product_radical_witness :
    (∃ factors, calculatePrimeFactors 38875 = some factors ∧
      List.Pairwise (fun a b => a ≤ b) (factors.takeWhile (fun f => f != 0)) ∧
      buildLCG.product factors = (Nat.primeFactors 38875).prod (fun q => q)) ∧
    (∃ factors, calculatePrimeFactors 1 = some factors ∧ buildLCG.product factors = 1) :=
  buildLCG_product_radical 38875 (by decide) (by decide)
    (fun _ _ hd => lt_of_le_of_lt (Nat.le_of_dvd (by decide) hd) (by decide))

/-- A square-free modulus below `2^64 - 1` gets the multiplier `1 + m` and is rejected. -/
theorem buildLCG_squarefree (st : LCG) (m c : Nat) (hc : 0 < c) (hm1 : 1 ≤ m)
    (hm : m < 2 ^ 64 - 1) (hbig : ∀ q, q.Prime → q ∣ m → q < 2 ^ 31) (hsq : Squarefree m) :
    buildLCG st m c = some (ERROR, LCG.mk c m (1 + m) st.lcg_x) := by
  have h4 : ¬ m % 4 = 0 := by
    intro h
    have hdvd : 2 * 2 ∣ m := Nat.dvd_of_mod_eq_zero h
    have := hsq 2 hdvd
    rw [Nat.isUnit_iff] at this
    omega
  have hu : u64 (1 + m) = 1 + m := Nat.mod_eq_of_lt (by omega)
  unfold buildLCG
  rw [if_neg (by omega), if_neg (by omega)]
  by_cases h1 : m = 1
  · subst h1
    rw [calculatePrimeFactors_one]
    simp only [buildLCG.product_zeros]
    rfl
  · obtain ⟨factors, hf, hprod⟩ := buildLCG.product_eq m (by omega) (by omega) hbig
    rw [hf]
    have hrad : m.primeFactors.prod id = m := Nat.prod_primeFactors_of_squarefree hsq
    rw [hrad] at hprod
    simp only [hprod]
    unfold buildLCG.multiplier
    rw [if_neg h4, hu, if_pos (by omega)]

/-- C24: for every `c > 0` and every `m` with `1 ≤ m < 2^64 - 1` whose prime factors are
below `2^31`: when `m` is square-free, `buildLCG` returns `ERROR`, the multiplier it has
stored being `1 + m`, which is greater than `m`; and when `buildLCG` returns `OK`, `m` is
divisible by the square of some prime. -/
theorem buildLCG_rejects_squarefree (st : LCG) (m c : Nat) (hc : 0 < c) (hm1 : 1 ≤ m)
    (hm : m < 2 ^ 64 - 1) (hbig : ∀ q, q.Prime → q ∣ m → q < 2 ^ 31) :
    (Squarefree m →
      buildLCG st m c = some (ERROR, LCG.mk c m (1 + m) st.lcg_x) ∧ m < 1 + m) ∧
    (∀ key, buildLCG st m c = some (OK, key) → ∃ q, q.Prime ∧ q * q ∣ m) := by
  constructor
  · intro hsq
    exact ⟨buildLCG_squarefree st m c hc hm1 hm hbig hsq, by omega⟩
  · intro key hkey
    by_contra hcon
    have hsq : Squarefree m :=
      Nat.squarefree_iff_prime_squarefree.2 (fun q hq hd => hcon ⟨q, hq, hd⟩)
    rw [buildLCG_squarefree st m c hc hm1 hm hbig hsq] at hkey
    exact absurd (congrArg (fun r => r.1) (Option.some.inj hkey)).symm OK_ne_ERROR

set_option maxRecDepth 1000000 in
/-- Witness for C24: the square-free modulus `30 = 2 * 3 * 5` is rejected with the
multiplier 31, and the accepted modulus `38875` is divisible by `5 * 5`. -/
theorem buildLCG_rejects_squarefree_witness :
    Squarefree 30 ∧
    (buildLCG (LCG.mk 0 0 0 0) 30 7 = some (ERROR, LCG.mk 7 30 (1 + 30) 0) ∧ 30 < 1 + 30) ∧
    buildLCG (LCG.mk 0 0 0 0) 38875 1234 = some (OK, LCG.mk 1234 38875 1556 1234) ∧
    ∃ q, q.Prime ∧ q * q ∣ 38875 :=
  have hsq : Squarefree 30 := by
    rw [Nat.squarefree_iff_prime_squarefree]
    intro p hp hdvd
    have h2 : 2 ≤ p := hp.two_le
    have hle : p * p ≤ 30 := Nat.le_of_dvd (by decide) hdvd
    have hp6 : p < 6 := by nlinarith
    interval_cases p <;> revert hdvd <;> decide
  ⟨hsq,
    (buildLCG_rejects_squarefree (LCG.mk 0 0 0 0) 30 7 (by decide) (by decide) (by decide)
      (fun _ _ hd => lt_of_le_of_lt (Nat.le_of_dvd (by decide) hd) (by decide))).1 hsq,
    by decide,
    (buildLCG_rejects_squarefree (LCG.mk 0 0 0 0) 38875 1234 (by decide) (by decide)
      (by decide)
      (fun _ _ hd => lt_of_le_of_lt (Nat.le_of_dvd (by decide) hd) (by decide))).2
      (LCG.mk 1234 38875 1556 1234) (by decide)⟩

/-! ## Key initialisation against the multiplier of the specification -/

set_option maxRecDepth 100000 in
/-- The cells of `factors` for the modulus `2^64 - 1`. -/
theorem calculatePrimeFactors_max : calculatePrimeFactors 18446744073709551615
    = some ([3, 5, 17, 257, 641, 65537, 6700417] ++ List.replicate 93 0) := by
  have hpf : Nat.primeFactorsList 18446744073709551615
      = [3, 5, 17, 257, 641, 65537, 6700417] := primeFactorsList_max
  have h := calculatePrimeFactors_eq 18446744073709551615 (by decide) (by decide) (by
    intro q hq
    rw [hpf] at hq
    simp only [List.mem_cons, List.mem_singleton, List.not_mem_nil, or_false] at hq
    rcases hq with rfl | rfl | rfl | rfl | rfl | rfl | rfl <;> decide)
  rw [hpf] at h
  exact h

set_option maxRecDepth 100000 in
/-- The multiplier of the specification for the modulus `2^64 - 1` is `2^64`. -/
theorem keyMultiplier_max : keyMultiplier 18446744073709551615 = 18446744073709551616 := by
  have hpf : Nat.primeFactorsList 18446744073709551615
      = [3, 5, 17, 257, 641, 65537, 6700417] := primeFactorsList_max
  unfold keyMultiplier
  rw [if_neg (by decide)]
  rw [Nat.primeFactors, hpf, List.prod_toFinset id (by decide)]
  rfl

/-- For a multiple of 4, twice the product of the distinct prime factors still divides. -/
theorem two_mul_prod_primeFactors_dvd (m : Nat) (hm : 0 < m) (h4 : m % 4 = 0) :
    2 * m.primeFactors.prod id ∣ m := by
  obtain ⟨k, hk⟩ : ∃ k, m = 2 * k := ⟨m / 2, by omega⟩
  have hk2 : 2 ∣ k := by omega
  have hkpos : k ≠ 0 := by omega
  have hpf : m.primeFactors = k.primeFactors := by
    rw [hk, Nat.primeFactors_mul (by decide) hkpos, Nat.Prime.primeFactors Nat.prime_two]
    apply Finset.union_eq_right.2
    intro x hx
    rw [Finset.mem_singleton] at hx
    subst hx
    exact Nat.mem_primeFactors.2 ⟨Nat.prime_two, hk2, hkpos⟩
  have hkd : k.primeFactors.prod id ∣ k := by
    have := Nat.prod_primeFactors_dvd k
    simpa using this
  rw [hpf]
  rw [hk]
  exact Nat.mul_dvd_mul_left 2 hkd

/-- Away from the modulus `2^64 - 1`, and for prime factors below `2^31`, the value that
`buildLCG` computes for `lcg_a` is the multiplier of the specification: nothing wraps. -/
theorem buildLCG.multiplier_eq (m : Nat) (h1 : 1 ≤ m) (hm : m < 2 ^ 64 - 1)
    (hbig : ∀ q, q.Prime → q ∣ m → q < 2 ^ 31) :
    ∃ factors, calculatePrimeFactors m = some factors ∧
      buildLCG.multiplier m (buildLCG.product factors) = keyMultiplier m := by
  by_cases hone : m = 1
  · subst hone
    refine ⟨_, calculatePrimeFactors_one, ?_⟩
    rw [buildLCG.product_zeros]
    unfold keyMultiplier
    rw [if_neg (by decide), Nat.primeFactors_one, Finset.prod_empty]
    decide
  obtain ⟨factors, hf, hprod⟩ := buildLCG.product_eq m (by omega) (by omega) hbig
  refine ⟨factors, hf, ?_⟩
  have hdvd : m.primeFactors.prod id ∣ m := by
    have := Nat.prod_primeFactors_dvd m
    simpa using this
  have hPle : m.primeFactors.prod id ≤ m := Nat.le_of_dvd (by omega) hdvd
  rw [hprod]
  unfold buildLCG.multiplier keyMultiplier
  by_cases h4 : m % 4 = 0
  · rw [if_pos h4, if_pos h4]
    have h2Ple : 2 * m.primeFactors.prod id ≤ m :=
      Nat.le_of_dvd (by omega) (two_mul_prod_primeFactors_dvd m (by omega) h4)
    exact Nat.mod_eq_of_lt (by omega)
  · rw [if_neg h4, if_neg h4]
    exact Nat.mod_eq_of_lt (by omega)

/-- Away from the modulus `2^64 - 1`, and for prime factors below `2^31`, `buildLCG` with
`m > 0` and `c > 0` returns `ERROR` exactly when the multiplier of the specification is
greater than `m`, and a key it accepts holds that multiplier. -/
theorem buildLCG_error_iff (st : LCG) (m c : Nat) (h1 : 1 ≤ m) (hm : m < 2 ^ 64 - 1)
    (hbig : ∀ q, q.Prime → q ∣ m → q < 2 ^ 31) (hc : 0 < c) :
    ((∃ st', buildLCG st m c = some (ERROR, st')) ↔ m < keyMultiplier m) ∧
    ((∃ st', buildLCG st m c = some (OK, st')) ↔ keyMultiplier m ≤ m) ∧
    (∀ st', buildLCG st m c = some (OK, st') → st' = LCG.mk c m (keyMultiplier m) c) := by
  obtain ⟨factors, hf, hmul⟩ := buildLCG.multiplier_eq m h1 hm hbig
  unfold buildLCG
  simp only [if_neg (show ¬ m ≤ 0 by omega), if_neg (show ¬ c ≤ 0 by omega), hf, hmul]
  by_cases ha : keyMultiplier m > m
  · simp only [if_pos ha]
    refine ⟨⟨fun _ => ha, fun _ => ⟨_, rfl⟩⟩, ⟨?_, fun h => absurd h (by omega)⟩, ?_⟩
    · rintro ⟨st', h⟩
      exact absurd (congrArg (fun r => r.1) (Option.some.inj h)).symm OK_ne_ERROR
    · intro st' h
      exact absurd (congrArg (fun r => r.1) (Option.some.inj h)).symm OK_ne_ERROR
  · simp only [if_neg ha]
    refine ⟨⟨?_, fun h => absurd h ha⟩, ⟨fun _ => by omega, fun _ => ⟨_, rfl⟩⟩, ?_⟩
    · rintro ⟨st', h⟩
      exact absurd (congrArg (fun r => r.1) (Option.some.inj h)) OK_ne_ERROR
    · intro st' h
      exact (congrArg (fun r => r.2) (Option.some.inj h)).symm

set_option maxRecDepth 100000 in
/-- C4, the failing input: for `m = 2^64 - 1` and `c = 1` the multiplier of the key is
`1 + P = 2^64` with `P = m` the product of the distinct prime factors, which is greater than
`m`, so the key initialisation should fail; the sum wraps to 0 in `lcg_a`, the test
`lcg_a > lcg_m` does not see it, and `buildLCG` returns `OK` with `lcg_a = 0`. -/
theorem buildLCG_misses_wrapped_multiplier (st : LCG) :
    keyMultiplier 18446744073709551615 = 18446744073709551616 ∧
    18446744073709551615 < keyMultiplier 18446744073709551615 ∧
    buildLCG st 18446744073709551615 1 = some (OK, LCG.mk 1 18446744073709551615 0 1) ∧
    (LCG.mk 1 18446744073709551615 0 1).lcg_a ≠ keyMultiplier 18446744073709551615 := by
  have hk := keyMultiplier_max
  refine ⟨hk, by rw [hk]; decide, ?_, by rw [hk]; decide⟩
  unfold buildLCG
  rw [if_neg (by decide), if_neg (by decide), calculatePrimeFactors_max]
  have hp : buildLCG.product
      ([3, 5, 17, 257, 641, 65537, 6700417] ++ List.replicate 93 0) = 18446744073709551615 := by
    decide
  simp only [hp]
  have ha : buildLCG.multiplier 18446744073709551615 18446744073709551615 = 0 := by decide
  rw [ha, if_neg (by decide)]

end Cipher
